import Mathlib

/-!
# Parallel restore (fdbserver/Restore.actor.cpp): block decoders, command identifiers,
forbidden version ranges, applier dedup and key-range assignment

A shallow embedding of the pure parts of `Restore.actor.cpp`.  Byte strings
(`StringRef`) are lists of bytes, thrown errors are values of `Except`, and
the `while(1)` loops of the decoders are driven by a fuel counter that the
top-level functions set from the block length (the loops are shown never to
exhaust it).
-/

namespace Restore

deriving instance DecidableEq for Except

/-! ## Bytes and the `StringRefReader` helper -/

/-- A byte (`uint8_t`). -/
abbrev Byte := Fin 256

/-- A byte string (`StringRef`, `KeyRef`, `ValueRef`). -/
abbrev Bytes := List Byte

/-- The byte holding `n % 256`. -/
def byteOfNat (n : Nat) : Byte := ⟨n % 256, Nat.mod_lt n (by decide)⟩

/-- The marker / padding byte `0xFF`. -/
def xFF : Byte := byteOfNat 255

/-- Errors thrown by `StringRefReader` and the two block decoders. -/
inductive Error where
  | end_of_stream
  | restore_corrupted_data
  | restore_unsupported_file_version
  | restore_corrupted_data_padding
  deriving DecidableEq, Repr

/-- A decoded entry: `KeyValueRef(key, value)`. -/
structure KeyValueRef where
  key : Bytes
  value : Bytes
  deriving DecidableEq, Repr

/-- The reader: `rest` is the bytes between `rptr` and `end`. -/
structure StringRefReader where
  rest : Bytes
  failure_error : Error
  deriving DecidableEq, Repr

namespace StringRefReader

/-- The member `remainder()`: the data from `rptr` to `end`. -/
def remainder (r : StringRefReader) : Bytes := r.rest

/-- The member `eof()`: `rptr == end`. -/
def eof (r : StringRefReader) : Bool := r.rest.isEmpty

/-- The test `*reader.rptr == 0xFF` (only evaluated when not at eof). -/
def atFF (r : StringRefReader) : Bool :=
  match r.rest with
  | [] => false
  | b :: _ => b == xFF

/-- The member `consume(len)`: throws `end_of_stream` when at the end and
`len != 0`, throws `failure_error` when fewer than `len` bytes are left, and
otherwise returns the next `len` bytes and advances. -/
def consume (r : StringRefReader) (len : Nat) : Except Error (Bytes × StringRefReader) :=
  if r.rest.isEmpty && len != 0 then .error Error.end_of_stream
  else if r.rest.length < len then .error r.failure_error
  else .ok (r.rest.take len, { r with rest := r.rest.drop len })

/-- Value of four bytes read as a little-endian unsigned integer. -/
def le32 (bs : Bytes) : Nat := bs.foldr (fun b acc => b.val + 256 * acc) 0

/-- Value of four bytes read as a big-endian unsigned integer. -/
def be32 (bs : Bytes) : Nat := bs.foldl (fun acc b => acc * 256 + b.val) 0

/-- Reinterpretation of a 32-bit pattern as `int32_t`. -/
def asInt32 (n : Nat) : Int := if n < 2 ^ 31 then (n : Int) else (n : Int) - 2 ^ 32

/-- The member `consume<int32_t>()` on a little-endian machine. -/
def consumeInt32 (r : StringRefReader) : Except Error (Int × StringRefReader) :=
  match r.consume 4 with
  | .error e => .error e
  | .ok (bs, r1) => .ok (asInt32 (le32 bs), r1)

/-- The member `consumeNetworkUInt32()`: four bytes in network byte order. -/
def consumeNetworkUInt32 (r : StringRefReader) : Except Error (Nat × StringRefReader) :=
  match r.consume 4 with
  | .error e => .error e
  | .ok (bs, r1) => .ok (be32 bs, r1)

end StringRefReader

/-! ## `parallelFileRestore::decodeRangeFileBlock` -/

/-- Result of a decoder loop: `none` when the fuel ran out, otherwise the
thrown error or the entries read so far with the reader at loop exit. -/
abbrev LoopResult := Option (Except Error (List KeyValueRef × StringRefReader))

/-- The `while(1)` loop of `decodeRangeFileBlock` ("Read kv pairs and end key"). -/
def decodeRangeLoop : Nat → StringRefReader → List KeyValueRef → LoopResult
  | 0, _, _ => none
  | fuel + 1, reader, results =>
    match reader.consumeNetworkUInt32 with
    | .error e => some (.error e)
    | .ok (kLen, r1) =>
      match r1.consume kLen with
      | .error e => some (.error e)
      | .ok (k, r2) =>
        if r2.eof || r2.atFF then
          some (.ok (results ++ [⟨k, []⟩], r2))
        else
          match r2.consumeNetworkUInt32 with
          | .error e => some (.error e)
          | .ok (vLen, r3) =>
            match r3.consume vLen with
            | .error e => some (.error e)
            | .ok (v, r4) =>
              if r4.eof || r4.atFF then
                some (.ok (results ++ [⟨k, v⟩], r4))
              else
                decodeRangeLoop fuel r4 (results ++ [⟨k, v⟩])

/-- Header, begin key and loop of `decodeRangeFileBlock`, up to (not including)
the padding check, on the block `buf` already read from the file. -/
def decodeRangeFileBlockScan (buf : Bytes) : LoopResult :=
  let reader : StringRefReader := ⟨buf, Error.restore_corrupted_data⟩
  match reader.consumeInt32 with
  | .error e => some (.error e)
  | .ok (ver, r0) =>
    if ver ≠ 1001 then some (.error Error.restore_unsupported_file_version)
    else
      match r0.consumeNetworkUInt32 with
      | .error e => some (.error e)
      | .ok (kLen, r1) =>
        match r1.consume kLen with
        | .error e => some (.error e)
        | .ok (k, r2) => decodeRangeLoop (buf.length + 1) r2 [⟨k, []⟩]

/-- The padding check shared by both decoders: "Make sure any remaining bytes
in the block are 0xFF". -/
def checkPadding (r : StringRefReader) : Except Error Unit :=
  if r.remainder.all (fun b => b == xFF) then .ok () else .error Error.restore_corrupted_data_padding

/-- The whole of `decodeRangeFileBlock` on the block `buf`. -/
def decodeRangeFileBlock (buf : Bytes) : Option (Except Error (List KeyValueRef)) :=
  match decodeRangeFileBlockScan buf with
  | none => none
  | some (.error e) => some (.error e)
  | some (.ok (results, reader)) =>
    match checkPadding reader with
    | .error e => some (.error e)
    | .ok _ => some (.ok results)

/-! ## `parallelFileRestore::decodeLogFileBlock` -/

/-- The `while(1)` loop of `decodeLogFileBlock` ("Read k/v pairs"). -/
def decodeLogLoop : Nat → StringRefReader → List KeyValueRef → LoopResult
  | 0, _, _ => none
  | fuel + 1, reader, results =>
    if reader.eof || reader.atFF then
      some (.ok (results, reader))
    else
      match reader.consumeNetworkUInt32 with
      | .error e => some (.error e)
      | .ok (kLen, r1) =>
        match r1.consume kLen with
        | .error e => some (.error e)
        | .ok (k, r2) =>
          match r2.consumeNetworkUInt32 with
          | .error e => some (.error e)
          | .ok (vLen, r3) =>
            match r3.consume vLen with
            | .error e => some (.error e)
            | .ok (v, r4) => decodeLogLoop fuel r4 (results ++ [⟨k, v⟩])

/-- Header and loop of `decodeLogFileBlock`, up to the padding check. -/
def decodeLogFileBlockScan (buf : Bytes) : LoopResult :=
  let reader : StringRefReader := ⟨buf, Error.restore_corrupted_data⟩
  match reader.consumeInt32 with
  | .error e => some (.error e)
  | .ok (ver, r0) =>
    if ver ≠ 2001 then some (.error Error.restore_unsupported_file_version)
    else decodeLogLoop (buf.length + 1) r0 []

/-- The whole of `decodeLogFileBlock` on the block `buf`. -/
def decodeLogFileBlock (buf : Bytes) : Option (Except Error (List KeyValueRef)) :=
  match decodeLogFileBlockScan buf with
  | none => none
  | some (.error e) => some (.error e)
  | some (.ok (results, reader)) =>
    match checkPadding reader with
    | .error e => some (.error e)
    | .ok _ => some (.ok results)

/-! ## Block writers used to state the round trips -/

/-- Four bytes, little-endian, of `n` (an `int32` header such as 1001). -/
def putLE32 (n : Nat) : Bytes :=
  [byteOfNat n, byteOfNat (n / 2 ^ 8), byteOfNat (n / 2 ^ 16), byteOfNat (n / 2 ^ 24)]

/-- Four bytes, big-endian (`netU32`), of `n`. -/
def netU32 (n : Nat) : Bytes :=
  [byteOfNat (n / 2 ^ 24), byteOfNat (n / 2 ^ 16), byteOfNat (n / 2 ^ 8), byteOfNat n]

/-- One length-tagged string: `netU32 len | bytes`. -/
def putString (s : Bytes) : Bytes := netU32 s.length ++ s

/-- The pairs of a block: `netU32 keyLen | key | netU32 valLen | value` each. -/
def putPairs : List KeyValueRef → Bytes
  | [] => []
  | kv :: rest => putString kv.key ++ putString kv.value ++ putPairs rest

/-- A range-file block: header 1001, begin key, the pairs, end key, `pad`
bytes of 0xFF. -/
def encodeRangeFileBlock (beginKey endKey : Bytes) (pairs : List KeyValueRef) (pad : Nat) : Bytes :=
  putLE32 1001 ++ putString beginKey ++ putPairs pairs ++ putString endKey ++ List.replicate pad xFF

/-- A log-file block: header 2001, the pairs, `pad` bytes of 0xFF. -/
def encodeLogFileBlock (pairs : List KeyValueRef) (pad : Nat) : Bytes :=
  putLE32 2001 ++ putPairs pairs ++ List.replicate pad xFF

/-! ## `std::map` as a list of entries in key order -/

namespace StdMap

variable {K V : Type} [DecidableEq K]

/-- The test `m.find(k) != m.end()`. -/
def contains (m : List (K × V)) (k : K) : Bool := m.any (fun e => decide (e.1 = k))

/-- The value stored under `k`, if any. -/
def find : List (K × V) → K → Option V
  | [], _ => none
  | e :: rest, k => if e.1 = k then some e.2 else find rest k

/-- Placement of a new entry in front of the first entry with a greater key. -/
def insertSorted (lt : K → K → Bool) : List (K × V) → K → V → List (K × V)
  | [], k, v => [(k, v)]
  | e :: rest, k, v => if lt k e.1 then (k, v) :: e :: rest else e :: insertSorted lt rest k v

/-- The member `insert(make_pair(k, v))`: no effect when `k` is already present. -/
def insert (lt : K → K → Bool) (m : List (K × V)) (k : K) (v : V) : List (K × V) :=
  if contains m k then m else insertSorted lt m k v

/-- Replacement of the value stored under `k` by `f` of it (first match). -/
def modify : List (K × V) → K → (V → V) → List (K × V)
  | [], _, _ => []
  | e :: rest, k, f => if e.1 = k then (e.1, f e.2) :: rest else e :: modify rest k f

end StdMap

/-! ## Forbidden version ranges -/

/-- A `Version` (`int64_t`). -/
abbrev Version := Int

/-- `isVersionInForbiddenRange(rd, endVersion, isRange)`; `forbiddenVersions`
is the map `rd->forbiddenVersions` as its `(first, second)` entries in key order. -/
def isVersionInForbiddenRange (forbiddenVersions : List (Version × Version))
    (endVersion : Version) (isRange : Bool) : Bool :=
  match forbiddenVersions with
  | [] => false
  | range :: rest =>
    if isRange then
      if endVersion ≥ range.1 ∧ endVersion < range.2 then true
      else isVersionInForbiddenRange rest endVersion isRange
    else isVersionInForbiddenRange rest endVersion isRange

/-- The `while` loop of `isForbiddenVersionRangeOverlapped`: `curRange` walks
over `rest`; `prevRange` is not advanced by the loop body. -/
def isForbiddenVersionRangeOverlappedLoop (prevRange : Version × Version) :
    List (Version × Version) → Bool
  | [] => false
  | curRange :: rest =>
    if curRange.1 < prevRange.2 then true
    else isForbiddenVersionRangeOverlappedLoop prevRange rest

/-- `isForbiddenVersionRangeOverlapped(rd)`. -/
def isForbiddenVersionRangeOverlapped (forbiddenVersions : List (Version × Version)) : Bool :=
  match forbiddenVersions with
  | [] => false
  | prevRange :: rest => isForbiddenVersionRangeOverlappedLoop prevRange rest

/-- The overlap that the start-up validation is meant to detect, in the words
of the specification: some stored range begins strictly before a range with
an earlier begin ends. -/
def someRangesIntersect (forbiddenVersions : List (Version × Version)) : Prop :=
  ∃ i j : Fin forbiddenVersions.length,
    i < j ∧ (forbiddenVersions.get j).1 < (forbiddenVersions.get i).2

instance (forbiddenVersions : List (Version × Version)) :
    Decidable (someRangesIntersect forbiddenVersions) := by
  unfold someRangesIntersect; infer_instance

/-! ## Command identifiers -/

/-- Modelled from the spec: the enumeration `RestoreCommandEnum` is declared in
`fdbserver/RestoreInterface.h`, which is not among the sources.  The
constructors are the commands the source names, in the order of the table
`RestoreCommandEnumStr` of `Restore.actor.cpp`, which the source indexes by
`(int) cmd`, `Init` first. -/
inductive RestoreCommandEnum where
  | Init
  | Set_Role
  | Set_Role_Done
  | Sample_Range_File
  | Sample_Log_File
  | Sample_File_Done
  | Loader_Send_Sample_Mutation_To_Applier
  | Loader_Send_Sample_Mutation_To_Applier_Done
  | Calculate_Applier_KeyRange
  | Get_Applier_KeyRange
  | Get_Applier_KeyRange_Done
  | Assign_Applier_KeyRange
  | Assign_Applier_KeyRange_Done
  | Assign_Loader_Range_File
  | Assign_Loader_Log_File
  | Assign_Loader_File_Done
  | Loader_Send_Mutations_To_Applier
  | Loader_Send_Mutations_To_Applier_Done
  | Apply_Mutation_To_DB
  | Apply_Mutation_To_DB_Skip
  | Loader_Notify_Appler_To_Apply_Mutation
  | Notify_Loader_ApplierKeyRange
  | Notify_Loader_ApplierKeyRange_Done
  deriving DecidableEq, Repr

/-- The integer value of a command (the cast `(uint16_t) newPhase`). -/
def RestoreCommandEnum.toNat (c : RestoreCommandEnum) : Nat := c.toCtorIdx

/-- Modelled from the spec: the class `CMDUID` is declared in
`fdbserver/RestoreInterface.h`, which is not among the sources; its fields are
the ones its member functions in `Restore.actor.cpp` read and write: `batch`
(an `int`), `phase` (a `uint16_t`) and `cmdID` (a `uint64_t`), the spec's
`CommandID {batch, phase, sequence}`. -/
structure CMDUID where
  batch : Int
  phase : Nat
  cmdID : Nat
  deriving DecidableEq, Repr

namespace CMDUID

/-- `CMDUID::initPhase(newPhase)`. -/
def initPhase (c : CMDUID) (newPhase : RestoreCommandEnum) : CMDUID :=
  { c with phase := newPhase.toNat % 2 ^ 16, cmdID := 0 }

/-- `CMDUID::nextPhase()`. -/
def nextPhase (c : CMDUID) : CMDUID :=
  { c with phase := (c.phase + 1) % 2 ^ 16, cmdID := 0 }

/-- `CMDUID::nextCmd()`. -/
def nextCmd (c : CMDUID) : CMDUID :=
  { c with cmdID := (c.cmdID + 1) % 2 ^ 64 }

/-- `CMDUID::setPhase(newPhase)`. -/
def setPhase (c : CMDUID) (newPhase : RestoreCommandEnum) : CMDUID :=
  { c with phase := newPhase.toNat % 2 ^ 16 }

/-- `CMDUID::setBatch(newBatchIndex)`. -/
def setBatch (c : CMDUID) (newBatchIndex : Int) : CMDUID :=
  { c with batch := newBatchIndex }

/-- `CMDUID::getIndex()`. -/
def getIndex (c : CMDUID) : Nat := c.cmdID

end CMDUID

/-- `IsCmdInPreviousPhase(curCmd, receivedCmd)`. -/
def IsCmdInPreviousPhase (curCmd receivedCmd : RestoreCommandEnum) : Bool :=
  match curCmd with
  | .Set_Role_Done => receivedCmd == .Set_Role_Done
  | .Sample_File_Done =>
    receivedCmd == .Set_Role_Done || receivedCmd == .Assign_Loader_File_Done
      || receivedCmd == .Loader_Notify_Appler_To_Apply_Mutation
  | .Notify_Loader_ApplierKeyRange_Done => receivedCmd == .Sample_File_Done
  | .Assign_Loader_File_Done => receivedCmd == .Notify_Loader_ApplierKeyRange_Done
  | .Get_Applier_KeyRange_Done => receivedCmd == .Loader_Send_Sample_Mutation_To_Applier_Done
  | .Assign_Applier_KeyRange_Done =>
    receivedCmd == .Get_Applier_KeyRange_Done || receivedCmd == .Set_Role_Done
      || receivedCmd == .Loader_Notify_Appler_To_Apply_Mutation
  | .Loader_Send_Mutations_To_Applier_Done => receivedCmd == .Assign_Applier_KeyRange_Done
  | .Loader_Notify_Appler_To_Apply_Mutation =>
    receivedCmd == .Loader_Send_Mutations_To_Applier_Done
  | .Loader_Send_Sample_Mutation_To_Applier_Done =>
    receivedCmd == .Set_Role_Done || receivedCmd == .Loader_Notify_Appler_To_Apply_Mutation
  | _ => false

/-! ## Keys, mutations and commands -/

/-- A node identifier (`UID`). -/
abbrev UID := Nat

/-- The order of `StringRef`: bytewise comparison, a proper initial segment first. -/
def keyLt : Bytes → Bytes → Bool
  | [], [] => false
  | [], _ :: _ => true
  | _ :: _, [] => false
  | a :: as, b :: bs => if a < b then true else if b < a then false else keyLt as bs

/-- The comparison `a <= b` on keys. -/
def keyLe (a b : Bytes) : Bool := !keyLt b a

/-- Modelled from the spec: the constant `normalKeys` is defined in
`fdbclient/SystemData.cpp`, which is not among the sources; the normal key
space starts at the minimum key, the empty key. -/
def normalKeys_begin : Bytes := []

/-- Modelled from the spec: the constant `normalKeys` is defined in
`fdbclient/SystemData.cpp`, which is not among the sources; the normal key
space ends at the one-byte key `0xFF`. -/
def normalKeys_end : Bytes := [xFF]

/-- A key range `KeyRangeRef(begin, end)`, the keys `k` with `begin <= k < end`. -/
structure KeyRangeRef where
  beginKey : Bytes
  endKey : Bytes
  deriving DecidableEq, Repr

/-- `KeyRangeRef::contains(key)`. -/
def KeyRangeRef.contains (r : KeyRangeRef) (key : Bytes) : Bool :=
  keyLe r.beginKey key && keyLt key r.endKey

/-- A mutation `MutationRef(type, param1, param2)`. -/
structure MutationRef where
  type : Nat
  param1 : Bytes
  param2 : Bytes
  deriving DecidableEq, Repr

/-- Modelled from the spec: the struct `RestoreCommand` is declared in
`fdbserver/RestoreInterface.h`, which is not among the sources; the fields are
those the handlers modelled here read: the command, its `CMDUID`, the target
node, and the payload (commit version, mutation, key range, and the lower
bound and applier of a `Notify_Loader_ApplierKeyRange` command). -/
structure RestoreCommand where
  cmd : RestoreCommandEnum
  cmdID : CMDUID
  id : UID
  commitVersion : Version := 0
  mutation : MutationRef := ⟨0, [], []⟩
  keyRange : KeyRangeRef := ⟨[], []⟩
  applierKeyRangeLB : Bytes := []
  applierID : UID := 0
  deriving DecidableEq, Repr

/-- Modelled from the spec: the struct `RestoreCommandReply` is declared in
`fdbserver/RestoreInterface.h`, which is not among the sources; a reply
carries the worker id, the `CMDUID` it answers, an optional number and an
optional lower-bound key. -/
structure RestoreCommandReply where
  id : UID
  cmdID : CMDUID
  num : Int := 0
  lowerBound : Bytes := []
  deriving DecidableEq, Repr

/-! ## The applier's `receiveMutations` handler -/

/-- The part of `RestoreData` (and of the actor's local state) that
`receiveMutations` reads and writes.  `kvOps` is the map in key order;
`processedCmd` is only ever tested for membership and assigned, so it is kept
as the list of its entries in arrival order. -/
structure ApplierData where
  kvOps : List (Version × List MutationRef)
  processedCmd : List (CMDUID × Int)
  numMutations : Int
  deriving DecidableEq, Repr

/-- `RestoreData::isCmdProcessed(cmdID)`. -/
def ApplierData.isCmdProcessed (rd : ApplierData) (cmdID : CMDUID) : Bool :=
  StdMap.contains rd.processedCmd cmdID

/-- The assignment `rd->processedCmd[cmdID] = 1`. -/
def setProcessed (processedCmd : List (CMDUID × Int)) (cmdID : CMDUID) : List (CMDUID × Int) :=
  if StdMap.contains processedCmd cmdID then StdMap.modify processedCmd cmdID (fun _ => 1)
  else processedCmd ++ [(cmdID, 1)]

/-- What one delivery does to the handler loop. -/
structure Handled where
  state : ApplierData
  replies : List RestoreCommandReply
  finished : Bool
  deriving DecidableEq, Repr

/-- One delivery of `req` to the `loop` of `receiveMutations` on the applier
whose interface id is `interfId`; `none` is a failed `ASSERT`. -/
def receiveMutations (interfId : UID) (rd : ApplierData) (req : RestoreCommand) : Option Handled :=
  if req.cmd = RestoreCommandEnum.Loader_Send_Mutations_To_Applier then
    if req.cmd.toNat ≠ req.cmdID.phase then none
    else if rd.isCmdProcessed req.cmdID then
      some ⟨rd, [⟨interfId, req.cmdID, 0, []⟩], false⟩
    else
      let commitVersion : Version := req.commitVersion
      let kvOps1 :=
        if StdMap.contains rd.kvOps commitVersion then rd.kvOps
        else StdMap.insert (fun a b => decide (a < b)) rd.kvOps commitVersion []
      let kvOps2 := StdMap.modify kvOps1 commitVersion (fun ops => ops ++ [req.mutation])
      some ⟨{ kvOps := kvOps2, processedCmd := setProcessed rd.processedCmd req.cmdID,
              numMutations := rd.numMutations + 1 },
            [⟨interfId, req.cmdID, 0, []⟩], false⟩
  else if req.cmd = RestoreCommandEnum.Loader_Send_Mutations_To_Applier_Done then
    if req.cmd.toNat ≠ req.cmdID.phase then none
    else some ⟨rd, [⟨interfId, req.cmdID, 0, []⟩], true⟩
  else if IsCmdInPreviousPhase RestoreCommandEnum.Loader_Send_Mutations_To_Applier_Done req.cmd then
    some ⟨rd, [⟨interfId, req.cmdID, 0, []⟩], false⟩
  else
    some ⟨rd, [], false⟩

/-- The buffer `kvOps[version]` (empty when the version has no entry). -/
def kvOpsAt (kvOps : List (Version × List MutationRef)) (version : Version) : List MutationRef :=
  (StdMap.find kvOps version).getD []

/-! ## Key-range assignment on the master -/

/-- The loop of `sampleWorkload` that fills `rd->range2Applier` from the replies
`reps` of the master applier, starting at index `i`; `none` is a read past the
end of `reps`. -/
def sampleWorkloadRange2Applier (reps : List RestoreCommandReply) (applierIDs : List UID)
    (numKeyRanges : Nat) : Nat → Nat → List (Bytes × UID) → Option (List (Bytes × UID))
  | 0, _, range2Applier => some range2Applier
  | steps + 1, i, range2Applier =>
    match applierIDs.get? i with
    | none => some range2Applier
    | some applierID =>
      if i < numKeyRanges then
        match reps.get? i with
        | none => none
        | some rep =>
          let lowerBound := if i < numKeyRanges then rep.lowerBound else normalKeys_end
          let lowerBound := if i = 0 then [byteOfNat 0] else lowerBound
          sampleWorkloadRange2Applier reps applierIDs numKeyRanges steps (i + 1)
            (StdMap.insert keyLt range2Applier lowerBound applierID)
      else some range2Applier

/-- The map `rd->range2Applier` after the `Get_Applier_KeyRange` round of
`sampleWorkload`, from an empty map. -/
def sampleWorkload (reps : List RestoreCommandReply) (applierIDs : List UID)
    (numKeyRanges : Nat) : Option (List (Bytes × UID)) :=
  sampleWorkloadRange2Applier reps applierIDs numKeyRanges applierIDs.length 0 []

/-- The first two loops of `assignKeyRangeToAppliers`: the key range of entry
`i` of `range2Applier` runs from its lower bound to the next lower bound, the
last one to `normalKeys.end`. -/
def assignKeyRangeToAppliersRanges (range2Applier : List (Bytes × UID)) : List (UID × KeyRangeRef) :=
  let lowerBounds := range2Applier.map (fun applier => applier.1)
  let applierIDs := range2Applier.map (fun applier => applier.2)
  (List.range lowerBounds.length).map (fun i =>
    let startKey := lowerBounds.getD i []
    let endKey := if i + 1 < lowerBounds.length then lowerBounds.getD (i + 1) [] else normalKeys_end
    (applierIDs.getD i 0, KeyRangeRef.mk startKey endKey))

/-- One attempt of the `Assign_Applier_KeyRange` round of
`assignKeyRangeToAppliers` (the body of the first `loop`): the commands sent,
in order, and the value of `rd->cmdID` afterwards.  `appliers` is the map
`appliers` in key order; every applier is taken to have an entry in
`workers_interface`, as the `ASSERT` in the loop demands. -/
def assignKeyRangeToAppliersRound (cmdID : CMDUID) (appliers : List (UID × KeyRangeRef)) :
    List RestoreCommand × CMDUID :=
  appliers.foldl
    (fun (st : List RestoreCommand × CMDUID) applier =>
      let c := st.2.nextCmd
      (st.1 ++ [{ cmd := RestoreCommandEnum.Assign_Applier_KeyRange, cmdID := c,
                  id := applier.1, keyRange := applier.2 }], c))
    ([], cmdID.initPhase RestoreCommandEnum.Assign_Applier_KeyRange)

/-! ## The master applier's `_calculateAppliersKeyRanges` -/

/-- The variables of the `for` loop of `_calculateAppliersKeyRanges`. -/
structure KeyRangeCalc where
  curCount : Nat
  curInterval : Nat
  lowerBounds : List Bytes
  deriving DecidableEq, Repr

/-- One iteration of the `for` loop over `rd->keyOpsCount`; `count` is the
entry `(key, number of operations)`. -/
def calculateAppliersKeyRangesStep (intervalLength : Nat) (st : KeyRangeCalc)
    (count : Bytes × Nat) : KeyRangeCalc :=
  let st1 : KeyRangeCalc :=
    if st.curInterval ≤ st.curCount / intervalLength then
      { st with lowerBounds := st.lowerBounds ++ [count.1], curInterval := st.curInterval + 1 }
    else st
  { st1 with curCount := st1.curCount + count.2 }

/-- The loop `while ( lowerBounds.size() >= numAppliers ) lowerBounds.pop_back()`. -/
def mergeLastKeyRanges (numAppliers : Nat) : Nat → List Bytes → List Bytes
  | 0, lowerBounds => lowerBounds
  | fuel + 1, lowerBounds =>
    if lowerBounds.length ≥ numAppliers then
      mergeLastKeyRanges numAppliers fuel lowerBounds.dropLast
    else lowerBounds

/-- `_calculateAppliersKeyRanges(rd, numAppliers)`; `keyOpsCount` is the map
`rd->keyOpsCount` in key order, `none` is the failed `ASSERT(numAppliers > 0)`.
The counters are non-negative `int`s and are kept as natural numbers. -/
def _calculateAppliersKeyRanges (keyOpsCount : List (Bytes × Nat)) (numSampledMutations : Nat)
    (numAppliers : Nat) : Option (List Bytes) :=
  if ¬ (numAppliers > 0) then none
  else
    let intervalLength := max (numSampledMutations / numAppliers) 1
    let st := keyOpsCount.foldl (calculateAppliersKeyRangesStep intervalLength) ⟨0, 0, []⟩
    some (mergeLastKeyRanges numAppliers st.lowerBounds.length st.lowerBounds)

/-! ## Role assignment in `configureRoles` -/

/-- The constant `min_num_workers`. -/
def min_num_workers : Nat := 3

/-- The constant `ratio_loader_to_applier`. -/
def ratio_loader_to_applier : Nat := 1

/-- Modelled from the spec: the enumeration `RestoreRole` is declared in
`fdbserver/RestoreInterface.h`, which is not among the sources; its values are
those of `RestoreRoleStr` in `Restore.actor.cpp`. -/
inductive RestoreRole where
  | Invalid
  | Master
  | Loader
  | Applier
  deriving DecidableEq, Repr

/-- Modelled from the spec: the struct `RestoreNodeStatus` is declared in
`fdbserver/RestoreInterface.h`, which is not among the sources; the fields are
those `configureRoles` writes. -/
structure RestoreNodeStatus where
  role : RestoreRole
  nodeID : UID
  nodeIndex : Nat
  deriving DecidableEq, Repr

/-- One `push_back` of the two `for` loops of `configureRoles`: the state is
`rd->globalNodeStatus` and the local `nodeIndex`. -/
def configureRolesPush (role : RestoreRole) (agents : List UID)
    (st : List RestoreNodeStatus × Nat) (i : Nat) : List RestoreNodeStatus × Nat :=
  (st.1 ++ [⟨role, agents.getD i 0, st.2⟩], st.2 + 1)

/-- What `configureRoles` leaves in `rd`. -/
structure RoleConfig where
  globalNodeStatus : List RestoreNodeStatus
  masterApplier : UID
  deriving DecidableEq, Repr

/-- The role set-up of `configureRoles` (from the `ASSERT` on the number of
agents to the choice of the master applier); `agents` are the ids of the
registered workers in the order read, `none` is a failed `ASSERT`. -/
def configureRoles (agents : List UID) (globalNodeStatus : List RestoreNodeStatus) :
    Option RoleConfig :=
  if ¬ (agents.length ≥ min_num_workers) then none
  else
    let numNodes := agents.length
    let numLoader := numNodes * ratio_loader_to_applier / (ratio_loader_to_applier + 1)
    let numApplier := numNodes - numLoader
    if numLoader ≤ 0 ∨ numApplier ≤ 0 then none
    else
      let st1 := (List.range' 0 numLoader).foldl
        (configureRolesPush RestoreRole.Loader agents) (globalNodeStatus, 1)
      let st2 := (List.range' numLoader (numNodes - numLoader)).foldl
        (configureRolesPush RestoreRole.Applier agents) st1
      match st2.1.getLast? with
      | none => none
      | some last => some ⟨st2.1, last.nodeID⟩

/-! ## Version batches in `processRestoreRequest` -/

/-- `RestoreConfig::RestoreFile`; file names are kept as numbers. -/
structure RestoreFile where
  version : Version
  fileName : Nat
  isRange : Bool
  blockSize : Int
  fileSize : Int
  endVersion : Version
  beginVersion : Version
  cursor : Int
  deriving DecidableEq, Repr

/-- How a run of modelled code ends: with a result, in a failed `ASSERT`, or
with the fuel of a loop exhausted. -/
inductive Run (α : Type) where
  | done (a : α)
  | assertFailed
  | outOfFuel
  deriving DecidableEq, Repr

/-- One version batch: the indices `curBackupFilesBeginIndex` and
`curBackupFilesEndIndex` at which it was formed, the files copied to
`rd->files`, and `curWorkloadSize` at that moment. -/
structure VersionBatch where
  beginIndex : Nat
  endIndex : Nat
  files : List RestoreFile
  workloadSize : Int
  deriving DecidableEq, Repr

/-- The number of low bits that a `double` cannot keep of the natural number
`a`: 0 when `a < 2 ^ 53`, and otherwise the `e` with `2 ^ (52 + e) <= a <
2 ^ (53 + e)`.  The first argument bounds the recursion; `a` itself suffices. -/
def doubleShift : Nat → Nat → Nat
  | 0, _ => 0
  | fuel + 1, a => if a < 2 ^ 53 then 0 else doubleShift fuel (a / 2) + 1

/-- The `double` nearest to the integer `x`, as an integer: a `double` has a
significand of 53 bits, so `x` is kept when its magnitude is below `2 ^ 53` and
is otherwise rounded to the nearest multiple of `2 ^ e` (`e = doubleShift`), a
tie going to the even significand.  This is the conversion of an `int64_t` to
`double` and the rounding of a `double` sum.  (Magnitudes of `2 ^ 1024` and more,
which a `double` turns into infinity, take more than `2 ^ 960` files to reach
and are not treated apart.) -/
def roundDouble (x : Int) : Int :=
  let a := x.natAbs
  if a < 2 ^ 53 then x
  else
    let e := doubleShift a a
    let q := a / 2 ^ e
    let r := a % 2 ^ e
    let up := decide (2 ^ e < 2 * r) || (decide (2 * r = 2 ^ e) && decide (q % 2 = 1))
    let m := if up then q + 1 else q
    if x < 0 then -((m * 2 ^ e : Nat) : Int) else ((m * 2 ^ e : Nat) : Int)

/-- The statement `curWorkloadSize += fileSize` on the `double` variable
`curWorkloadSize` (an integer-valued `double`, kept as that integer) and the
`int64_t` file size: the size is converted to `double` and the sum is rounded. -/
def doubleAdd (curWorkloadSize : Int) (fileSize : Int) : Int :=
  roundDouble (curWorkloadSize + roundDouble fileSize)

/-- The value of `curWorkloadSize` after the sizes `sizes` have been added, in
order, to the value 0. -/
def doubleSum (sizes : List Int) : Int := sizes.foldl doubleAdd 0

/-- The variables of the batching `while` loop of `processRestoreRequest`, with
the batches handed to `distributeWorkloadPerVersionBatch` so far.
`curWorkloadSize` is a `double` in the source; every value it takes is an
integer, and it is kept as that integer, with the rounding of `doubleAdd`. -/
structure BatchLoop where
  curBackupFilesBeginIndex : Nat
  curBackupFilesEndIndex : Nat
  curWorkloadSize : Int
  validVersion : Bool
  batches : List VersionBatch
  deriving DecidableEq, Repr

/-- What one iteration of the batching loop does. -/
inductive BatchStep where
  | stop (batches : List VersionBatch)
  | next (st : BatchLoop)
  | assertFailed
  deriving DecidableEq, Repr

/-- One evaluation of the loop condition and body of
`while ( curBackupFilesBeginIndex < rd->allFiles.size() )`. -/
def versionBatchStep (allFiles : List RestoreFile) (forbiddenVersions : List (Version × Version))
    (loadBatchSizeThresholdB : Int) (st : BatchLoop) : BatchStep :=
  if ¬ (st.curBackupFilesBeginIndex < allFiles.length) then .stop st.batches
  else
    let st1 : BatchLoop :=
      match allFiles.get? st.curBackupFilesEndIndex with
      | some f =>
        { st with
          validVersion := !isVersionInForbiddenRange forbiddenVersions f.endVersion f.isRange,
          curWorkloadSize := doubleAdd st.curWorkloadSize f.fileSize }
      | none => st
    if (st1.validVersion = true ∧ st1.curWorkloadSize ≥ loadBatchSizeThresholdB)
        ∨ st1.curBackupFilesEndIndex ≥ allFiles.length then
      if st1.curBackupFilesEndIndex ≥ allFiles.length ∧ st1.curWorkloadSize ≤ 0 then
        .stop st1.batches
      else
        let files :=
          if st1.curBackupFilesBeginIndex < allFiles.length then
            (allFiles.drop st1.curBackupFilesBeginIndex).take
              (st1.curBackupFilesEndIndex + 1 - st1.curBackupFilesBeginIndex)
          else []
        .next
          { curBackupFilesBeginIndex := st1.curBackupFilesEndIndex + 1,
            curBackupFilesEndIndex := st1.curBackupFilesEndIndex + 1,
            curWorkloadSize := 0,
            validVersion := st1.validVersion,
            batches := st1.batches ++
              [⟨st1.curBackupFilesBeginIndex, st1.curBackupFilesEndIndex, files,
                st1.curWorkloadSize⟩] }
    else if st1.validVersion = true ∧ st1.curWorkloadSize < loadBatchSizeThresholdB then
      .next { st1 with curBackupFilesEndIndex := st1.curBackupFilesEndIndex + 1 }
    else if st1.validVersion = false ∧ st1.curWorkloadSize < loadBatchSizeThresholdB then
      .next { st1 with curBackupFilesEndIndex := st1.curBackupFilesEndIndex + 1 }
    else if st1.validVersion = false ∧ st1.curWorkloadSize ≥ loadBatchSizeThresholdB then
      .next { st1 with curBackupFilesEndIndex := st1.curBackupFilesEndIndex + 1 }
    else .assertFailed

/-- The batching `while` loop of `processRestoreRequest`. -/
def versionBatchLoop (allFiles : List RestoreFile) (forbiddenVersions : List (Version × Version))
    (loadBatchSizeThresholdB : Int) : Nat → BatchLoop → Run (List VersionBatch)
  | 0, _ => .outOfFuel
  | fuel + 1, st =>
    match versionBatchStep allFiles forbiddenVersions loadBatchSizeThresholdB st with
    | .stop batches => .done batches
    | .next st1 => versionBatchLoop allFiles forbiddenVersions loadBatchSizeThresholdB fuel st1
    | .assertFailed => .assertFailed

/-- The constant `loadBatchSizeThresholdB = loadBatchSizeMB * 1024 * 1024` with
`loadBatchSizeMB = 1.0`, the `double` 1048576. -/
def loadBatchSizeThresholdB : Int := 1 * 1024 * 1024

/-- The version batches `processRestoreRequest` forms for the sorted file list
`rd->allFiles`, in the order formed. -/
def processRestoreRequestBatches (allFiles : List RestoreFile)
    (forbiddenVersions : List (Version × Version)) : Run (List VersionBatch) :=
  versionBatchLoop allFiles forbiddenVersions loadBatchSizeThresholdB (allFiles.length + 2)
    ⟨0, 0, 0, false, []⟩

/-- Total size of the files with indices `b, ..., j` of `allFiles`. -/
def batchWorkload (allFiles : List RestoreFile) (b j : Nat) : Int :=
  (((allFiles.drop b).take (j + 1 - b)).map (fun f => f.fileSize)).sum

/-- A batch with a valid boundary: it ends at an existing file whose end version
is not forbidden, holds the files from its begin index to its end index, records
the value `curWorkloadSize` had after their sizes were added, their total size
reaches the threshold, and no earlier file of the batch was a valid boundary at
which the threshold was already reached. -/
def ValidBatch (allFiles : List RestoreFile) (forbiddenVersions : List (Version × Version))
    (threshold : Int) (B : VersionBatch) : Prop :=
  B.beginIndex ≤ B.endIndex ∧ B.endIndex < allFiles.length
    ∧ B.files = (allFiles.drop B.beginIndex).take (B.endIndex + 1 - B.beginIndex)
    ∧ B.workloadSize = doubleSum (B.files.map (fun f => f.fileSize))
    ∧ (B.files.map (fun f => f.fileSize)).sum ≥ threshold
    ∧ (∃ f, allFiles.get? B.endIndex = some f
        ∧ isVersionInForbiddenRange forbiddenVersions f.endVersion f.isRange = false)
    ∧ ∀ j f, B.beginIndex ≤ j → j < B.endIndex → allFiles.get? j = some f →
        ¬ (isVersionInForbiddenRange forbiddenVersions f.endVersion f.isRange = false
            ∧ batchWorkload allFiles B.beginIndex j ≥ threshold)

/-- A batch that ends with the file list: it begins at an existing file, was
formed when the end index had reached the size of `allFiles`, holds every file
from its begin index on, their total size is positive, and no file of the batch
was a valid boundary at which the threshold was reached. -/
def EndBatch (allFiles : List RestoreFile) (forbiddenVersions : List (Version × Version))
    (threshold : Int) (B : VersionBatch) : Prop :=
  B.beginIndex < allFiles.length ∧ B.endIndex = allFiles.length
    ∧ B.files = allFiles.drop B.beginIndex
    ∧ B.workloadSize = doubleSum (B.files.map (fun f => f.fileSize))
    ∧ 0 < (B.files.map (fun f => f.fileSize)).sum
    ∧ ∀ j f, B.beginIndex ≤ j → allFiles.get? j = some f →
        ¬ (isVersionInForbiddenRange forbiddenVersions f.endVersion f.isRange = false
            ∧ batchWorkload allFiles B.beginIndex j ≥ threshold)

/-- The batches of a run: every batch but the last has a valid boundary, and
the last one has a valid boundary or ends with the file list. -/
def BatchesValid (allFiles : List RestoreFile) (forbiddenVersions : List (Version × Version))
    (threshold : Int) (batches : List VersionBatch) : Prop :=
  (∀ B ∈ batches.dropLast, ValidBatch allFiles forbiddenVersions threshold B)
    ∧ ∀ B, batches.getLast? = some B →
        ValidBatch allFiles forbiddenVersions threshold B
          ∨ EndBatch allFiles forbiddenVersions threshold B

/-- Loop invariant of the batching loop: either the loop is under way, every
batch formed so far has a valid boundary, and no file from the begin index up
to the end index was a valid boundary at which the threshold was reached; or
the batch that ends with the file list has been formed and the begin index is
past the files. -/
def BatchInv (allFiles : List RestoreFile) (forbiddenVersions : List (Version × Version))
    (threshold : Int) (st : BatchLoop) : Prop :=
  (st.curBackupFilesBeginIndex ≤ st.curBackupFilesEndIndex
    ∧ st.curBackupFilesEndIndex ≤ allFiles.length
    ∧ st.curWorkloadSize
        = doubleSum (((allFiles.drop st.curBackupFilesBeginIndex).take
            (st.curBackupFilesEndIndex - st.curBackupFilesBeginIndex)).map
              (fun f => f.fileSize))
    ∧ (∀ j f, st.curBackupFilesBeginIndex ≤ j → j < st.curBackupFilesEndIndex →
        allFiles.get? j = some f →
        ¬ (isVersionInForbiddenRange forbiddenVersions f.endVersion f.isRange = false
            ∧ batchWorkload allFiles st.curBackupFilesBeginIndex j ≥ threshold))
    ∧ ∀ B ∈ st.batches, ValidBatch allFiles forbiddenVersions threshold B)
  ∨ (allFiles.length ≤ st.curBackupFilesBeginIndex
    ∧ BatchesValid allFiles forbiddenVersions threshold st.batches)

/-- Fuel that suffices for the loop from the state `st`. -/
def batchFuel (allFiles : List RestoreFile) (st : BatchLoop) : Nat :=
  if allFiles.length ≤ st.curBackupFilesBeginIndex then 1
  else if allFiles.length ≤ st.curBackupFilesEndIndex then 2
  else allFiles.length - st.curBackupFilesEndIndex + 2

/-! ## `applyKVOpsToDB` -/

/-- The mutation type `MutationRef::SetValue`.  The enumeration
`MutationRef::Type` is declared in `fdbclient/CommitTransaction.h`, which is
not among the sources; the values are those listed in the comment in
`applyKVOpsToDB` ("Mutation types SetValue=0, ClearRange, AddValue, ..."). -/
def MutationRef.SetValue : Nat := 0

/-- The mutation type `MutationRef::ClearRange`. -/
def MutationRef.ClearRange : Nat := 1

/-- The types in `ATOMIC_MASK`, as listed in the comment in `applyKVOpsToDB`:
AddValue, And, Or, Xor, AppendIfFits, Max, Min, SetVersionstampedKey,
SetVersionstampedValue, ByteMin, ByteMax, MinV2, AndV2. -/
def atomicOpTypes : List Nat := [2, 6, 7, 8, 9, 12, 13, 14, 15, 16, 17, 18, 19]

/-- `isAtomicOp(type)`. -/
def isAtomicOp (type : Nat) : Bool := decide (type ∈ atomicOpTypes)

/-- The target store as `applyKVOpsToDB` uses it: the effect, on a store of type
`S`, of a committed transaction holding one `set`, one `clear` or one
`atomicOp`. -/
structure Database (S : Type) where
  set : S → Bytes → Bytes → S
  clear : S → KeyRangeRef → S
  atomicOp : S → Bytes → Bytes → Nat → S

/-- The effect of the committed transaction that `applyKVOpsToDB` builds for the
mutation `m` (a mutation of any other type commits an empty transaction). -/
def applyMutation {S : Type} (db : Database S) (s : S) (m : MutationRef) : S :=
  if m.type = MutationRef.SetValue then db.set s m.param1 m.param2
  else if m.type = MutationRef.ClearRange then db.clear s ⟨m.param1, m.param2⟩
  else if isAtomicOp m.type then db.atomicOp s m.param1 m.param2 m.type
  else s

/-- The store, the number of commit attempts made so far, and the counter
`count` of `applyKVOpsToDB`. -/
structure ApplyProgress (S : Type) where
  store : S
  attempts : Nat
  count : Nat

/-- The retry `loop` around one mutation: `commits k` tells whether the `k`-th
commit attempt succeeds; a failed attempt changes nothing and is retried
(`tr->onError` is taken to return).  `none` when the fuel runs out. -/
def applyMutationRetry {S : Type} (db : Database S) (commits : Nat → Bool) :
    Nat → ApplyProgress S → MutationRef → Option (ApplyProgress S)
  | 0, _, _ => none
  | fuel + 1, p, m =>
    if commits p.attempts then
      some ⟨applyMutation db p.store m, p.attempts + 1, p.count + 1⟩
    else applyMutationRetry db commits fuel { p with attempts := p.attempts + 1 } m

/-- The inner `for` loop of `applyKVOpsToDB` over the mutations of one version. -/
def applyVersionOps {S : Type} (db : Database S) (commits : Nat → Bool) (fuel : Nat) :
    List MutationRef → ApplyProgress S → Option (ApplyProgress S)
  | [], p => some p
  | m :: rest, p =>
    match applyMutationRetry db commits fuel p m with
    | none => none
    | some p1 => applyVersionOps db commits fuel rest p1

/-- The outer `for` loop of `applyKVOpsToDB` over `rd->kvOps` in key order. -/
def applyVersions {S : Type} (db : Database S) (commits : Nat → Bool) (fuel : Nat) :
    List (Version × List MutationRef) → ApplyProgress S → Option (ApplyProgress S)
  | [], p => some p
  | it :: rest, p =>
    match applyVersionOps db commits fuel it.2 p with
    | none => none
    | some p1 => applyVersions db commits fuel rest p1

/-- `applyKVOpsToDB(rd, cx)`: the final store, the final `count`, and
`rd->kvOps` after `rd->kvOps.clear()`; `fuel` bounds the attempts per mutation. -/
def applyKVOpsToDB {S : Type} (db : Database S) (commits : Nat → Bool) (fuel : Nat)
    (kvOps : List (Version × List MutationRef)) (s : S) :
    Option (S × Nat × List (Version × List MutationRef)) :=
  match applyVersions db commits fuel kvOps ⟨s, 0, 0⟩ with
  | none => none
  | some p => some (p.store, p.count, [])

/-- The buffered mutations in the order of `rd->kvOps`, each with its commit
version: version by version, and in buffer order within a version. -/
def applySequence : List (Version × List MutationRef) → List (Version × MutationRef)
  | [] => []
  | it :: rest => it.2.map (fun m => (it.1, m)) ++ applySequence rest

/-- A store that is the list of the operations committed to it, oldest first. -/
def recordingDatabase : Database (List MutationRef) where
  set := fun s k v => s ++ [⟨MutationRef.SetValue, k, v⟩]
  clear := fun s r => s ++ [⟨MutationRef.ClearRange, r.beginKey, r.endKey⟩]
  atomicOp := fun s k v t => s ++ [⟨t, k, v⟩]

/-! ## The dispatch of the role handlers -/

/-- `isRangeMutation`: only `ClearRange` is a range mutation. -/
def isRangeMutation (m : MutationRef) : Bool := decide (m.type = MutationRef.ClearRange)

/-- The member `lower_bound(k)` of a map in key order, as the position of the
first entry whose key is not less than `k`; the size of the map stands for
`end()`. -/
def StdMap.lowerBound {V : Type} : List (Bytes × V) → Bytes → Nat
  | [], _ => 0
  | e :: rest, k => if keyLt e.1 k then StdMap.lowerBound rest k + 1 else 0

/-- The member `upper_bound(k)` of a map in key order, as the position of the
first entry whose key is greater than `k`; the size of the map stands for
`end()`. -/
def StdMap.upperBound {V : Type} : List (Bytes × V) → Bytes → Nat
  | [], _ => 0
  | e :: rest, k => if keyLt k e.1 then 0 else StdMap.upperBound rest k + 1

/-- The `while (itlow->first < itup->first)` loop of `splitMutation`.  `up` is
`itup->first` (`none` when `itup` is `end()`), and the list argument holds the
entries of `range2Applier` from `itlow` on (empty when `itlow` is `end()`).
The result is the content of `mvector` and `nodeIDs` when the loop is left;
`none` is a read through `end()`: of `itlow->first` or `itup->first` in the
loop condition, or of `itlow->second` after `itlow++` reached `end()`. -/
def splitMutationLoop (type : Nat) (up : Option Bytes) :
    List (Bytes × UID) → List MutationRef → List UID → Option (List MutationRef × List UID)
  | [], _, _ => none
  | low :: rest, mvector, nodeIDs =>
    match up with
    | none => none
    | some upFirst =>
      if keyLt low.1 upFirst then
        let param1 := low.1
        match rest with
        | [] => none
        | next :: _ =>
          let param2 := next.1
          splitMutationLoop type up rest (mvector ++ [⟨type, param1, param2⟩])
            (nodeIDs ++ [next.2])
      else some (mvector, nodeIDs)

/-- The statements of `splitMutation` that place `itlow` and `itup` before the
`while` loop, the iterators being positions in `range2Applier` (its size stands
for `end()`).  `none` is a failed `ASSERT` or a step of `itup` before
`begin()`. -/
def splitMutationBounds (range2Applier : List (Bytes × UID)) (m : MutationRef) :
    Option (Nat × Nat) :=
  let itlow := StdMap.lowerBound range2Applier m.param1
  let itlow := if itlow ≠ 0 then itlow - 1 else itlow
  let itup := StdMap.upperBound range2Applier m.param2
  let atEndOrNotLess :=
    match range2Applier.get? itup with
    | none => true
    | some up => !keyLt up.1 m.param2
  if !atEndOrNotLess then none
  else if itup = 0 then none
  else
    let itup := itup - 1
    match range2Applier.get? itup with
    | none => none
    | some up =>
      if keyLt m.param2 up.1 then none
      else
        let itup := if keyLt up.1 m.param2 then itup + 1 else itup
        some (itlow, itup)

/-- The body of `splitMutation(rd, m, ..., mvector, ..., nodeIDs)`: the content
of its vectors `mvector` and `nodeIDs` at `return`, the iterators being
positions in `range2Applier`.  `none` is a failed `ASSERT`, a step of `itup`
before `begin()`, or a read through `end()`.  Both vectors are parameters
passed by value in the source. -/
def splitMutation (range2Applier : List (Bytes × UID)) (m : MutationRef)
    (mvector : List MutationRef) (nodeIDs : List UID) : Option (List MutationRef × List UID) :=
  if !mvector.isEmpty then none
  else if !nodeIDs.isEmpty then none
  else
    match splitMutationBounds range2Applier m with
    | none => none
    | some (itlow, itup) =>
      splitMutationLoop m.type ((range2Applier.get? itup).map (fun e => e.1))
        (range2Applier.drop itlow) mvector nodeIDs

/-- The split that the routing step is described to perform: one sub-mutation
per applier range that meets `[m.param1, m.param2)`, over the intersection of
the two, paired with the applier of that range, in key order.  The range of
entry `i` of `range2Applier` runs from its lower bound to the next lower bound,
the last one to `normalKeys.end`. -/
def splitAtBoundaries (range2Applier : List (Bytes × UID)) (m : MutationRef) :
    List MutationRef × List UID :=
  let pieces := (assignKeyRangeToAppliersRanges range2Applier).filterMap (fun applier =>
    let b := if keyLt m.param1 applier.2.beginKey then applier.2.beginKey else m.param1
    let e := if keyLt applier.2.endKey m.param2 then applier.2.endKey else m.param2
    if keyLt b e then some (MutationRef.mk m.type b e, applier.1) else none)
  (pieces.map (fun p => p.1), pieces.map (fun p => p.2))

/-! ## Block iteration in `loadingHandler` and `sampleHandler` -/

/-- The fields of `LoadingParam` that the block loops read. -/
structure LoadingParam where
  offset : Int
  length : Int
  blockSize : Int
  deriving DecidableEq, Repr

/-- The loop `for (j = param.offset; j < param.length; j += param.blockSize)`
of both handlers: the pairs `(readOffset, readLen)` handed to the block parser,
in order. -/
def blockReads (param : LoadingParam) : Nat → Int → List (Int × Int) → Run (List (Int × Int))
  | 0, _, _ => .outOfFuel
  | fuel + 1, j, reads =>
    if j < param.length then
      blockReads param fuel (j + param.blockSize)
        (reads ++ [(j, min param.blockSize (param.length - j))])
    else .done reads

/-- The block loop of `loadingHandler` with its `ASSERT( param.blockSize > 0 )`. -/
def loadingHandlerReads (param : LoadingParam) : Run (List (Int × Int)) :=
  if ¬ (param.blockSize > 0) then .assertFailed
  else blockReads param ((param.length - param.offset).toNat + 1) param.offset []

/-- The block loop of `sampleHandler` with its two `ASSERT`s. -/
def sampleHandlerReads (param : LoadingParam) : Run (List (Int × Int)) :=
  if ¬ (param.blockSize > 0) then .assertFailed
  else if ¬ (param.offset + param.blockSize ≥ param.length) then .assertFailed
  else blockReads param ((param.length - param.offset).toNat + 1) param.offset []

/-- The offset, length and block size that `sampleWorkload` puts in the
`LoadingParam` of block number `curFileOffset` of `file`. -/
def sampleWorkloadParam (file : RestoreFile) (curFileOffset : Int) : LoadingParam :=
  let offset := curFileOffset * file.blockSize
  { offset := offset
    length := min file.blockSize (max 0 (file.fileSize - offset))
    blockSize := file.blockSize }

/-- The offset, length and block size that `distributeWorkloadPerVersionBatch`
puts in the `LoadingParam` of `file`. -/
def distributeWorkloadParam (file : RestoreFile) : LoadingParam :=
  { offset := file.cursor, length := file.fileSize, blockSize := file.blockSize }

/-! ## `parseSerializedMutation` -/

namespace StringRefReader

/-- The member `consume<uint32_t>()` on a little-endian machine (the member
`consume` of `StringRefReaderMX` is that of `StringRefReader`). -/
def consumeUInt32 (r : StringRefReader) : Except Error (Nat × StringRefReader) :=
  match r.consume 4 with
  | .error e => .error e
  | .ok (bs, r1) => .ok (le32 bs, r1)

/-- The member `consume<uint64_t>()` on a little-endian machine. -/
def consumeUInt64 (r : StringRefReader) : Except Error (Nat × StringRefReader) :=
  match r.consume 8 with
  | .error e => .error e
  | .ok (bs, r1) => .ok (le32 bs, r1)

end StringRefReader

/-- Reinterpretation of a 64-bit pattern as `int64_t`, the type `Version` of
the keys of `kvOps`. -/
def asInt64 (n : Nat) : Int := if n < 2 ^ 63 then (n : Int) else (n : Int) - 2 ^ 64

/-- Modelled from the spec: the enumeration `MutationRef::Type` is declared in
`fdbclient/CommitTransaction.h`, which is not among the sources; a mutation
keeps its type in one byte, so the cast `(MutationRef::Type) type` of a
32-bit number keeps the low byte. -/
def MutationRef.castType (type : Nat) : Nat := type % 256

/-- The statement `if (rd->kvOps.find(version) == rd->kvOps.end())
rd->kvOps.insert(std::make_pair(version, VectorRef<MutationRef>()))`. -/
def kvOpsEnsure (kvOps : List (Version × List MutationRef)) (version : Version) :
    List (Version × List MutationRef) :=
  if StdMap.contains kvOps version then kvOps
  else StdMap.insert (fun a b => decide (a < b)) kvOps version []

/-- The statement `rd->kvOps[version].push_back_deep(..., m)`; `operator[]`
creates an empty buffer when the version has none. -/
def kvOpsPush (kvOps : List (Version × List MutationRef)) (version : Version) (m : MutationRef) :
    List (Version × List MutationRef) :=
  StdMap.modify (kvOpsEnsure kvOps version) version (fun ops => ops ++ [m])

/-- How a parser call ends: the map `rd->kvOps` it leaves, and the error it
threw, if any. -/
structure ParseOutcome where
  kvOps : List (Version × List MutationRef)
  thrown : Option Error
  deriving DecidableEq, Repr

/-- The `while (1)` loop of `parseSerializedMutation` over one record: each
round reads `type`, `kLen`, `vLen`, then `kLen` key bytes and `vLen` value
bytes, and appends the mutation to `kvOps[commitVersion]`; `none` is exhausted
fuel. -/
def parseSerializedMutationLoop (commitVersion : Version) :
    Nat → StringRefReader → List (Version × List MutationRef) → Option ParseOutcome
  | 0, _, _ => none
  | fuel + 1, reader, kvOps =>
    if reader.eof then some ⟨kvOps, none⟩
    else
      match reader.consumeUInt32 with
      | .error e => some ⟨kvOps, some e⟩
      | .ok (type, r1) =>
        match r1.consumeUInt32 with
        | .error e => some ⟨kvOps, some e⟩
        | .ok (kLen, r2) =>
          match r2.consumeUInt32 with
          | .error e => some ⟨kvOps, some e⟩
          | .ok (vLen, r3) =>
            match r3.consume kLen with
            | .error e => some ⟨kvOps, some e⟩
            | .ok (k, r4) =>
              match r4.consume vLen with
              | .error e => some ⟨kvOps, some e⟩
              | .ok (v, r5) =>
                parseSerializedMutationLoop commitVersion fuel r5
                  (kvOpsPush kvOps commitVersion ⟨MutationRef.castType type, k, v⟩)

/-- The loop `for (auto& m : rd->mutationMap)` of `parseSerializedMutation`,
over the entries `(key, val)` of `mutationMap` in key order; `none` is
exhausted fuel in the loop over a record. -/
def parseSerializedMutationEntries (isSampling : Bool) :
    List (Bytes × Bytes) → List (Version × List MutationRef) → Option ParseOutcome
  | [], kvOps => some ⟨kvOps, none⟩
  | (k, val) :: rest, kvOps =>
    match (StringRefReader.mk k Error.restore_corrupted_data).consumeUInt64 with
    | .error e => some ⟨kvOps, some e⟩
    | .ok (commitVersionU, _) =>
      let commitVersion : Version := asInt64 commitVersionU
      match (StringRefReader.mk val Error.restore_corrupted_data).consumeUInt64 with
      | .error e => some ⟨kvOps, some e⟩
      | .ok (_, reader1) =>
        match reader1.consumeUInt32 with
        | .error e => some ⟨kvOps, some e⟩
        | .ok (val_length_decode, reader2) =>
          let kvOps1 := kvOpsEnsure kvOps commitVersion
          if val_length_decode ≠ val.length - 12 ∧ isSampling = true then
            parseSerializedMutationEntries isSampling rest kvOps1
          else
            match parseSerializedMutationLoop commitVersion (val.length + 1) reader2 kvOps1 with
            | none => none
            | some ⟨kvOps2, some e⟩ => some ⟨kvOps2, some e⟩
            | some ⟨kvOps2, none⟩ => parseSerializedMutationEntries isSampling rest kvOps2

/-- The function `parseSerializedMutation(rd, isSampling)` on the maps
`rd->mutationMap` and `rd->kvOps`. -/
def parseSerializedMutation (mutationMap : List (Bytes × Bytes))
    (kvOps : List (Version × List MutationRef)) (isSampling : Bool) : Option ParseOutcome :=
  parseSerializedMutationEntries isSampling mutationMap kvOps

/-- Eight bytes, little-endian, of `n`. -/
def putLE64 (n : Nat) : Bytes :=
  putLE32 (n % 2 ^ 32) ++ putLE32 (n / 2 ^ 32)

/-- The bytes of one mutation as `parseSerializedMutation` reads them:
`u32 type | u32 kLen | u32 vLen | key | value`, little-endian. -/
def putMutation (m : MutationRef) : Bytes :=
  putLE32 m.type ++ putLE32 m.param1.length ++ putLE32 m.param2.length ++ m.param1 ++ m.param2

/-- The bytes of a list of mutations, one after the other. -/
def putMutations : List MutationRef → Bytes
  | [] => []
  | m :: rest => putMutation m ++ putMutations rest

/-- A mutation-group record: `u64 includedVersion | u32 totalLen | mutations`. -/
def putMutationGroup (includedVersion totalLen : Nat) (ms : List MutationRef) : Bytes :=
  putLE64 includedVersion ++ putLE32 totalLen ++ putMutations ms

/-- The bytes of one mutation in the order `u32 type | u32 keyLen | key |
u32 valLen | value`. -/
def putMutationInterleaved (m : MutationRef) : Bytes :=
  putLE32 m.type ++ putLE32 m.param1.length ++ m.param1 ++ putLE32 m.param2.length ++ m.param2

/-- A mutation is well formed when its type fits the type byte and both
lengths fit their 32-bit fields. -/
def MutationRef.WellFormed (m : MutationRef) : Prop :=
  m.type < 256 ∧ m.param1.length < 2 ^ 32 ∧ m.param2.length < 2 ^ 32

instance (m : MutationRef) : Decidable m.WellFormed := by
  unfold MutationRef.WellFormed; infer_instance

/-! ## `_parseRangeFileToMutationsOnLoader` -/

/-- Modelled from the spec: `KeyRangeRef::intersects` is declared in
`fdbclient/FDBTypes.h`, which is not among the sources; two half-open key ranges
intersect when each begins before the other ends. -/
def KeyRangeRef.intersects (r s : KeyRangeRef) : Bool :=
  keyLt r.beginKey s.endKey && keyLt s.beginKey r.endKey

/-- The two `while` loops that slide `rangeStart` forward and `rangeEnd`
backward.  `data` is `blockData` without its first and last entry (the
positions from 1 to `blockData.size() - 1`); the first loop drops the leading
entries whose key is outside `restoreRange`, the second the trailing ones; the
result is `blockData.slice(rangeStart, rangeEnd)`. -/
def slideRange (restoreRange : KeyRangeRef) (data : List KeyValueRef) : List KeyValueRef :=
  ((data.dropWhile (fun kv => !restoreRange.contains kv.key)).reverse.dropWhile
    (fun kv => !restoreRange.contains kv.key)).reverse

/-- The loop `for(; iend < end && txBytes < dataSizeLimit; ++iend)`.  The list
argument is `data` from `iend` on; the result is the entries stepped over and
the entries left. -/
def takeTransaction (dataSizeLimit : Int) :
    List KeyValueRef → Int → List KeyValueRef × List KeyValueRef
  | [], _ => ([], [])
  | kv :: rest, txBytes =>
    if txBytes < dataSizeLimit then
      let r := takeTransaction dataSizeLimit rest (txBytes + kv.key.length + kv.value.length)
      (kv :: r.1, r.2)
    else ([], kv :: rest)

/-- The body of the loop `for(; i < iend; ++i)`: one `SetValue` mutation with
the key and value of the entry, appended to `kvOps[version]`. -/
def pushSetValue (version : Version) (kvOps : List (Version × List MutationRef))
    (kv : KeyValueRef) : List (Version × List MutationRef) :=
  kvOpsPush (kvOpsEnsure kvOps version) version ⟨MutationRef.SetValue, kv.key, kv.value⟩

/-- The final `loop` of `_parseRangeFileToMutationsOnLoader`; the list argument
is `data` from `start` on. -/
def parseRangeFileLoop (version : Version) (dataSizeLimit : Int) :
    Nat → List KeyValueRef → List (Version × List MutationRef) →
      Run (List (Version × List MutationRef))
  | 0, _, _ => .outOfFuel
  | fuel + 1, rest, kvOps =>
    let tx := takeTransaction dataSizeLimit rest 0
    let kvOps1 := tx.1.foldl (pushSetValue version) kvOps
    if tx.2.isEmpty then .done kvOps1
    else parseRangeFileLoop version dataSizeLimit fuel tx.2 kvOps1

/-- The function `_parseRangeFileToMutationsOnLoader` on the decoded block
`blockData`, as a change of `rd->kvOps`; `dataSizeLimit` is the knob
`RESTORE_WRITE_TX_SIZE`.  `none` stands for a block of fewer than two
entries, which `decodeRangeFileBlock` never returns. -/
def _parseRangeFileToMutationsOnLoader (kvOps : List (Version × List MutationRef))
    (blockData : List KeyValueRef) (version : Version) (restoreRange : KeyRangeRef)
    (dataSizeLimit : Int) : Option (Run (List (Version × List MutationRef))) :=
  match blockData.head?, blockData.getLast? with
  | some front, some back =>
    if blockData.length < 2 then none
    else
      let fileRange := KeyRangeRef.mk front.key back.key
      if !fileRange.intersects restoreRange then some (.done kvOps)
      else
        let data := slideRange restoreRange blockData.tail.dropLast
        some (parseRangeFileLoop version dataSizeLimit (data.length + 1) data kvOps)
  | _, _ => none

/-! ## Outcomes of the dispatch loops -/

/-- How a run of a dispatch loop ends: with a result, in a failed `ASSERT`, in
a read of a vector at a position outside its bounds, or with the fuel of the
model exhausted. -/
inductive Outcome (α : Type) where
  | done (a : α)
  | assertFailed
  | outOfBounds
  | outOfFuel
  deriving DecidableEq, Repr

/-! ## The `Set_Role` round of `configureRoles` -/

/-- The command `RestoreCommand(RestoreCommandEnum::Set_Role, rd->cmdID, nodeID,
role, index, rd->masterApplier)`. -/
structure SetRoleCommand where
  cmdID : CMDUID
  nodeID : UID
  role : RestoreRole
  index : Nat
  masterApplier : UID
  deriving DecidableEq, Repr

/-- The loop `for(auto& cmdInterf : agents)` of the `Set_Role` round: the
commands sent, and `rd->cmdID` and the state variable `index` afterwards.
Every iteration reads `rd->globalNodeStatus[index]`. -/
def setRoleRound (globalNodeStatus : List RestoreNodeStatus) (masterApplier : UID) :
    List UID → CMDUID → Nat → List SetRoleCommand → Outcome (List SetRoleCommand × CMDUID × Nat)
  | [], cmdID, index, cmdReplies => .done (cmdReplies, cmdID, index)
  | _ :: agents, cmdID, index, cmdReplies =>
    match globalNodeStatus.get? index with
    | none => .outOfBounds
    | some status =>
      let role := status.role
      let nodeID := status.nodeID
      let cmdID := cmdID.nextCmd
      setRoleRound globalNodeStatus masterApplier agents cmdID (index + 1)
        (cmdReplies ++ [⟨cmdID, nodeID, role, index, masterApplier⟩])

/-- The retry `loop` of the `Set_Role` round; `timesOut n` tells whether the
wait for the replies of attempt `n` ends in a timeout.  The variables `index`
and `rd->cmdID` are set before the loop and carried from attempt to attempt.
The result lists the commands of every attempt. -/
def setRoleLoop (agents : List UID) (globalNodeStatus : List RestoreNodeStatus)
    (masterApplier : UID) (timesOut : Nat → Bool) :
    Nat → Nat → CMDUID → Nat → List (List SetRoleCommand) → Outcome (List (List SetRoleCommand))
  | 0, _, _, _, _ => .outOfFuel
  | fuel + 1, attempt, cmdID, index, attempts =>
    match setRoleRound globalNodeStatus masterApplier agents cmdID index [] with
    | .done (cmdReplies, cmdID1, index1) =>
      if timesOut attempt then
        setRoleLoop agents globalNodeStatus masterApplier timesOut fuel (attempt + 1) cmdID1 index1
          (attempts ++ [cmdReplies])
      else .done (attempts ++ [cmdReplies])
    | .assertFailed => .assertFailed
    | .outOfBounds => .outOfBounds
    | .outOfFuel => .outOfFuel

/-- The `Set_Role` phase of `configureRoles`: `index = 0`,
`rd->cmdID.initPhase(Set_Role)`, then the retry loop. -/
def configureRolesSetRole (agents : List UID) (globalNodeStatus : List RestoreNodeStatus)
    (masterApplier : UID) (cmdID : CMDUID) (timesOut : Nat → Bool) (fuel : Nat) :
    Outcome (List (List SetRoleCommand)) :=
  setRoleLoop agents globalNodeStatus masterApplier timesOut fuel 0
    (cmdID.initPhase RestoreCommandEnum.Set_Role) 0 []

/-! ## The load dispatch of `distributeWorkloadPerVersionBatch` -/

/-- The command `RestoreCommand(cmdType, rd->cmdID, nodeID, param)` of the load
dispatch, with the file name of `param`. -/
structure LoadCommand where
  cmdType : RestoreCommandEnum
  cmdID : CMDUID
  nodeID : UID
  filename : Nat
  param : LoadingParam
  deriving DecidableEq, Repr

/-- The variables of the load dispatch: `rd->files`, `curFileIndex`,
`rd->cmdID`, `allLoadReqsSent`, and the commands behind `cmdReplies`. -/
structure LoadDispatch where
  files : List RestoreFile
  curFileIndex : Nat
  cmdID : CMDUID
  allLoadReqsSent : Bool
  cmdReplies : List LoadCommand
  deriving DecidableEq, Repr

/-- The loop `while ( rd->files[curFileIndex].fileSize == 0 && curFileIndex <
rd->files.size() ) curFileIndex++`.  The list argument holds `rd->files` from
`curFileIndex` on; the condition reads `rd->files[curFileIndex]` before it
compares `curFileIndex` with the size, so an empty list is a read outside the
bounds. -/
def skipEmptyFiles (size : Nat) : List RestoreFile → Nat → Outcome Nat
  | [], _ => .outOfBounds
  | file :: rest, curFileIndex =>
    if file.fileSize = 0 ∧ curFileIndex < size then skipEmptyFiles size rest (curFileIndex + 1)
    else .done curFileIndex

/-- The conversion of an `int64_t` to `int` (32 bits), as in `loadSizeB =
param.length`: the low 32 bits, read as a signed number. -/
def toInt32 (x : Int) : Int := StringRefReader.asInt32 ((x % 2 ^ 32).toNat)

/-- The loop `for (auto &loaderID : loaderIDs)` of one round of the load
dispatch; `loadSizeB` is a `state int`. -/
def distributeWorkloadRound : List UID → LoadDispatch → Outcome LoadDispatch
  | [], st => .done st
  | loaderID :: loaderIDs, st =>
    match skipEmptyFiles st.files.length (st.files.drop st.curFileIndex) st.curFileIndex with
    | .assertFailed => .assertFailed
    | .outOfBounds => .outOfBounds
    | .outOfFuel => .outOfFuel
    | .done curFileIndex =>
      if curFileIndex ≥ st.files.length then
        .done { st with curFileIndex := curFileIndex, allLoadReqsSent := true }
      else
        match st.files.get? curFileIndex with
        | none => .outOfBounds
        | some file =>
          let param : LoadingParam :=
            { offset := file.cursor, length := file.fileSize, blockSize := file.blockSize }
          let loadSizeB := toInt32 param.length
          if ¬ (param.length > 0) then .assertFailed
          else if ¬ (param.offset ≥ 0) then .assertFailed
          else if ¬ (param.offset < file.fileSize) then .assertFailed
          else
            let file1 := { file with cursor := file.cursor + param.length }
            let files := st.files.set curFileIndex file1
            let cmdType :=
              if !file1.isRange then RestoreCommandEnum.Assign_Loader_Log_File
              else RestoreCommandEnum.Assign_Loader_Range_File
            let cmdID := (st.cmdID.setPhase cmdType).nextCmd
            let cmdReplies := st.cmdReplies ++ [⟨cmdType, cmdID, loaderID, file1.fileName, param⟩]
            if param.length ≤ loadSizeB then
              if ¬ (file1.cursor = file1.fileSize) then .assertFailed
              else if curFileIndex + 1 ≥ files.length then
                .done ⟨files, curFileIndex + 1, cmdID, true, cmdReplies⟩
              else
                distributeWorkloadRound loaderIDs
                  ⟨files, curFileIndex + 1, cmdID, st.allLoadReqsSent, cmdReplies⟩
            else if curFileIndex ≥ files.length then
              .done ⟨files, curFileIndex, cmdID, true, cmdReplies⟩
            else
              distributeWorkloadRound loaderIDs
                ⟨files, curFileIndex, cmdID, st.allLoadReqsSent, cmdReplies⟩

/-- The variables that the load dispatch carries from round to round. -/
structure LoadRounds where
  files : List RestoreFile
  curFileIndex : Nat
  checkpointCurFileIndex : Nat
  loaderIDs : List UID
  cmdID : CMDUID
  allLoadReqsSent : Bool
  deriving DecidableEq, Repr

/-- The first `loop` of `distributeWorkloadPerVersionBatch`; `timesOut n` tells
whether the wait for the replies of round `n` ends in a timeout, in which case
`curFileIndex` is set back to `checkpointCurFileIndex`.  Every loader that was
sent a command replies when there is no timeout.  The result lists the
commands of every round. -/
def distributeWorkloadLoop (timesOut : Nat → Bool) :
    Nat → Nat → LoadRounds → List (List LoadCommand) → Outcome (List (List LoadCommand))
  | 0, _, _, _ => .outOfFuel
  | fuel + 1, round, st, rounds =>
    if st.allLoadReqsSent then .done rounds
    else
      match distributeWorkloadRound st.loaderIDs
          ⟨st.files, st.curFileIndex,
            st.cmdID.initPhase RestoreCommandEnum.Assign_Loader_Log_File, st.allLoadReqsSent, []⟩ with
      | .assertFailed => .assertFailed
      | .outOfBounds => .outOfBounds
      | .outOfFuel => .outOfFuel
      | .done st1 =>
        if !st1.cmdReplies.isEmpty then
          if timesOut round then
            distributeWorkloadLoop timesOut fuel (round + 1)
              ⟨st1.files, st.checkpointCurFileIndex, st.checkpointCurFileIndex, st.loaderIDs,
                st1.cmdID, st1.allLoadReqsSent⟩ (rounds ++ [st1.cmdReplies])
          else if st1.allLoadReqsSent then .done (rounds ++ [st1.cmdReplies])
          else
            distributeWorkloadLoop timesOut fuel (round + 1)
              ⟨st1.files, st1.curFileIndex, st1.curFileIndex,
                st1.cmdReplies.map (fun c => c.nodeID), st1.cmdID, st1.allLoadReqsSent⟩
              (rounds ++ [st1.cmdReplies])
        else if st1.allLoadReqsSent then .done (rounds ++ [st1.cmdReplies])
        else
          distributeWorkloadLoop timesOut fuel (round + 1)
            ⟨st1.files, st1.curFileIndex, st.checkpointCurFileIndex, st.loaderIDs, st1.cmdID,
              st1.allLoadReqsSent⟩ (rounds ++ [st1.cmdReplies])

/-- The load dispatch of `distributeWorkloadPerVersionBatch` from the point
where every cursor is set to 0. -/
def distributeWorkloadPerVersionBatch (files : List RestoreFile) (loaderIDs : List UID)
    (cmdID : CMDUID) (timesOut : Nat → Bool) (fuel : Nat) : Outcome (List (List LoadCommand)) :=
  distributeWorkloadLoop timesOut fuel 0
    ⟨files.map (fun f => { f with cursor := 0 }), 0, 0, loaderIDs, cmdID, false⟩ []

/-- `isBackupEmpty`: no file of `rd->files` has a positive size. -/
def isBackupEmpty (files : List RestoreFile) : Bool :=
  files.all (fun f => !decide (f.fileSize > 0))

/-! ## `registerMutationsToApplier` on the loader -/

/-- The applier of a mutation on one key in `registerMutationsToApplier`:
`itlow = lower_bound(kvm.param1)`, stepped back when it is `end()` or beyond the
key.  `none` is a step before `begin()`, a read through `end()`, or the failed
`ASSERT( itlow->first <= kvm.param1 )`. -/
def applierOfKey (range2Applier : List (Bytes × UID)) (param1 : Bytes) : Option UID :=
  let itlow := StdMap.lowerBound range2Applier param1
  let atEndOrGreater :=
    match range2Applier.get? itlow with
    | none => true
    | some low => keyLt param1 low.1
  if atEndOrGreater && decide (itlow = 0) then none
  else
    let itlow := if atEndOrGreater then itlow - 1 else itlow
    match range2Applier.get? itlow with
    | none => none
    | some low => if keyLt param1 low.1 then none else some low.2

/-- The handling of one mutation `kvm` of `rd->kvOps` in
`registerMutationsToApplier`: the state is the commands sent so far and
`rd->cmdID`.  `split kvm` stands for what the vectors `mvector` and `nodeIDs` of
the caller hold after the call of `splitMutation` (`none` when that call does
not return). -/
def registerMutation (split : MutationRef → Option (List MutationRef × List UID))
    (range2Applier : List (Bytes × UID)) (commitVersion : Version)
    (st : List RestoreCommand × CMDUID) (kvm : MutationRef) :
    Option (List RestoreCommand × CMDUID) :=
  if isRangeMutation kvm then
    match split kvm with
    | none => none
    | some (mvector, nodeIDs) =>
      if mvector.length ≠ nodeIDs.length then none
      else
        some ((mvector.zip nodeIDs).foldl
          (fun (acc : List RestoreCommand × CMDUID) piece =>
            let c := acc.2.nextCmd
            (acc.1 ++ [{ cmd := RestoreCommandEnum.Loader_Send_Mutations_To_Applier, cmdID := c,
                         id := piece.2, commitVersion := commitVersion, mutation := piece.1 }], c))
          st)
  else
    match applierOfKey range2Applier kvm.param1 with
    | none => none
    | some applierID =>
      let c := st.2.nextCmd
      some (st.1 ++ [{ cmd := RestoreCommandEnum.Loader_Send_Mutations_To_Applier, cmdID := c,
                       id := applierID, commitVersion := commitVersion, mutation := kvm }], c)

/-- The mutations of one version in `registerMutationsToApplier`. -/
def registerVersion (split : MutationRef → Option (List MutationRef × List UID))
    (range2Applier : List (Bytes × UID)) (commitVersion : Version) :
    List MutationRef → List RestoreCommand × CMDUID → Option (List RestoreCommand × CMDUID)
  | [], st => some st
  | kvm :: rest, st =>
    match registerMutation split range2Applier commitVersion st kvm with
    | none => none
    | some st1 => registerVersion split range2Applier commitVersion rest st1

/-- The loop over `rd->kvOps` in `registerMutationsToApplier`. -/
def registerVersions (split : MutationRef → Option (List MutationRef × List UID))
    (range2Applier : List (Bytes × UID)) :
    List (Version × List MutationRef) → List RestoreCommand × CMDUID →
      Option (List RestoreCommand × CMDUID)
  | [], st => some st
  | kvOp :: rest, st =>
    match registerVersion split range2Applier kvOp.1 kvOp.2 st with
    | none => none
    | some st1 => registerVersions split range2Applier rest st1

/-- One run of `registerMutationsToApplier` in which every reply arrives in
time: the commands sent, in order, and `rd->cmdID` afterwards.  The run starts
with `rd->cmdID.initPhase(Loader_Send_Mutations_To_Applier)`. -/
def registerMutationsToApplier (split : MutationRef → Option (List MutationRef × List UID))
    (range2Applier : List (Bytes × UID)) (kvOps : List (Version × List MutationRef))
    (cmdID : CMDUID) : Option (List RestoreCommand × CMDUID) :=
  registerVersions split range2Applier kvOps
    ([], cmdID.initPhase RestoreCommandEnum.Loader_Send_Mutations_To_Applier)

/-- The deliveries of a list of commands, in order, to the loop of
`receiveMutations`: the applier state and the replies sent. -/
def receiveMutationsAll (interfId : UID) :
    List RestoreCommand → ApplierData × List RestoreCommandReply →
      Option (ApplierData × List RestoreCommandReply)
  | [], st => some st
  | req :: rest, st =>
    match receiveMutations interfId st.1 req with
    | none => none
    | some handled => receiveMutationsAll interfId rest (handled.state, st.2 ++ handled.replies)

/-! ## `concatenateBackupMutationForLogFile` -/

/-- The member `consumeNetworkUInt64()`: eight bytes in network byte order. -/
def StringRefReader.consumeNetworkUInt64 (r : StringRefReader) :
    Except Error (Nat × StringRefReader) :=
  match r.consume 8 with
  | .error e => .error e
  | .ok (bs, r1) => .ok (StringRefReader.be32 bs, r1)

/-- The maps `rd->mutationMap` and `rd->mutationPartMap`, in key order. -/
structure PendingLog where
  mutationMap : List (Bytes × Bytes)
  mutationPartMap : List (Bytes × Nat)
  deriving DecidableEq, Repr

/-- The assignment `rd->mutationPartMap[id] = part_direct`. -/
def setPart (mutationPartMap : List (Bytes × Nat)) (id : Bytes) (part_direct : Nat) :
    List (Bytes × Nat) :=
  if StdMap.contains mutationPartMap id then StdMap.modify mutationPartMap id (fun _ => part_direct)
  else StdMap.insert keyLt mutationPartMap id part_direct

/-- The function `concatenateBackupMutationForLogFile(rd, val_input,
key_input)`: the value returned and the two maps afterwards, or the error
thrown by a reader.  `none` stands for a key of fewer than four bytes, for
which `key_input.substr(key_input.size() - 4, 4)` starts before the key.  The
identifier `id` of the entry is the commit version as eight bytes in the byte
order of the machine (little-endian). -/
def concatenateBackupMutationForLogFile (rd : PendingLog) (val_input key_input : Bytes) :
    Option (Except Error (Bool × PendingLog)) :=
  let readerKey : StringRefReader := ⟨key_input, Error.restore_corrupted_data⟩
  let logRangeMutationFirstLength : Int := (key_input.length : Int) - 1 - 8 - 4
  if key_input.length < 4 then none
  else
    let partStr := (key_input.drop (key_input.length - 4)).take 4
    match (StringRefReader.mk partStr Error.restore_corrupted_data).consumeNetworkUInt32 with
    | .error e => some (.error e)
    | .ok (part_direct, _) =>
      let afterFirst :=
        if logRangeMutationFirstLength > 0 then readerKey.consume logRangeMutationFirstLength.toNat
        else .ok ([], readerKey)
      match afterFirst with
      | .error e => some (.error e)
      | .ok (_, readerKey1) =>
        match readerKey1.consume 1 with
        | .error e => some (.error e)
        | .ok (_, readerKey2) =>
          match readerKey2.consumeNetworkUInt64 with
          | .error e => some (.error e)
          | .ok (commitVersion, readerKey3) =>
            match readerKey3.consumeNetworkUInt32 with
            | .error e => some (.error e)
            | .ok (_, _) =>
              let id := putLE64 commitVersion
              if !StdMap.contains rd.mutationMap id then
                some (.ok (false,
                  ⟨StdMap.insert keyLt rd.mutationMap id val_input,
                    StdMap.insert keyLt rd.mutationPartMap id part_direct⟩))
              else
                some (.ok (true,
                  ⟨StdMap.modify rd.mutationMap id (fun val => val ++ val_input),
                    setPart rd.mutationPartMap id part_direct⟩))

/-- The calls of `concatenateBackupMutationForLogFile` for a list of `(key,
value)` pairs in order: the values returned and the two maps afterwards. -/
def concatenateAll : List (Bytes × Bytes) → List Bool × PendingLog →
    Option (Except Error (List Bool × PendingLog))
  | [], st => some (.ok st)
  | kv :: rest, st =>
    match concatenateBackupMutationForLogFile st.2 kv.2 kv.1 with
    | none => none
    | some (.error e) => some (.error e)
    | some (.ok (concatenated, rd1)) => concatenateAll rest (st.1 ++ [concatenated], rd1)

/-- Eight bytes, big-endian, of `n`. -/
def netU64 (n : Nat) : Bytes := netU32 (n / 2 ^ 32) ++ netU32 (n % 2 ^ 32)

/-- A backup log key: `[logRangeMutation.first][hash_value_of_commit_version:
1B][bigEndian64(commitVersion)][bigEndian32(part)]`. -/
def logKey (first : Bytes) (hashValue : Byte) (commitVersion part : Nat) : Bytes :=
  first ++ ([hashValue] ++ (netU64 commitVersion ++ netU32 part))

/-- The keys and values of the parts `0, 1, ...` of one log record, starting
with part number `part`. -/
def logParts (first : Bytes) (hashValue : Byte) (commitVersion : Nat) :
    Nat → List Bytes → List (Bytes × Bytes)
  | _, [] => []
  | part, P :: rest =>
    (logKey first hashValue commitVersion part, P)
      :: logParts first hashValue commitVersion (part + 1) rest

/-! ## Reassembled log records -/

/-- A reassembled log record of `rd->mutationMap`, described by its content:
either a record whose declared length is the length of its well-formed
mutations, or a record whose declared length `totalLen` differs from the
length of what follows the 12-byte header. -/
inductive LogRecord where
  | wellFormed (commitVersion includedVersion : Nat) (ms : List MutationRef)
  | mismatched (commitVersion includedVersion totalLen : Nat) (body : Bytes)
  deriving DecidableEq, Repr

/-- The `mutationMap` entry of a record: the key is the commit version as eight
little-endian bytes, the value is `u64 includedVersion | u32 totalLen | body`. -/
def LogRecord.entry : LogRecord → Bytes × Bytes
  | .wellFormed commitVersion includedVersion ms =>
    (putLE64 commitVersion, putMutationGroup includedVersion (putMutations ms).length ms)
  | .mismatched commitVersion includedVersion totalLen body =>
    (putLE64 commitVersion, putLE64 includedVersion ++ (putLE32 totalLen ++ body))

/-- The numbers of a record fit their fields, the mutations of a well-formed
record are well formed, and the declared length of a mismatched record is not
the length of its body. -/
def LogRecord.Valid : LogRecord → Prop
  | .wellFormed commitVersion includedVersion ms =>
    commitVersion < 2 ^ 63 ∧ includedVersion < 2 ^ 64 ∧ (putMutations ms).length < 2 ^ 32
      ∧ ∀ m ∈ ms, m.WellFormed
  | .mismatched commitVersion includedVersion totalLen body =>
    commitVersion < 2 ^ 63 ∧ includedVersion < 2 ^ 64 ∧ totalLen < 2 ^ 32
      ∧ totalLen ≠ body.length

instance : (r : LogRecord) → Decidable r.Valid
  | .wellFormed commitVersion includedVersion ms =>
    inferInstanceAs (Decidable (commitVersion < 2 ^ 63 ∧ includedVersion < 2 ^ 64
      ∧ (putMutations ms).length < 2 ^ 32 ∧ ∀ m ∈ ms, m.WellFormed))
  | .mismatched commitVersion includedVersion totalLen body =>
    inferInstanceAs (Decidable (commitVersion < 2 ^ 63 ∧ includedVersion < 2 ^ 64
      ∧ totalLen < 2 ^ 32 ∧ totalLen ≠ body.length))

/-- The mutations that a record holds for the commit version `v`: those of a
well-formed record of that version, none otherwise. -/
def LogRecord.mutationsAt (v : Version) : LogRecord → List MutationRef
  | .wellFormed commitVersion _ ms => if (commitVersion : Int) = v then ms else []
  | .mismatched _ _ _ _ => []

/-! ## `buildForbiddenVersionRange` -/

/-- The function `buildForbiddenVersionRange` as a change of
`rd->forbiddenVersions`, a `std::map<Version, Version>` in key order: every
file of `rd->allFiles` that is not a range file inserts the pair of its begin
and end version (`std::map::insert`, which leaves an existing key alone). -/
def buildForbiddenVersionRange (allFiles : List RestoreFile)
    (forbiddenVersions : List (Version × Version)) : List (Version × Version) :=
  allFiles.foldl
    (fun forbidden file =>
      if !file.isRange then
        StdMap.insert (fun a b => decide (a < b)) forbidden file.beginVersion file.endVersion
      else forbidden)
    forbiddenVersions

/-! ## Version batches as a partition of the file list -/

/-- The batches `batches` are consecutive index ranges of `allFiles` from
position `s` up to position `t`: each batch begins where the one before it
ended, begins at an existing file, and holds the files from its begin index to
its end index (as far as `allFiles` reaches). -/
def BatchChain (allFiles : List RestoreFile) : Nat → List VersionBatch → Nat → Prop
  | s, [], t => s = t
  | s, B :: rest, t =>
    B.beginIndex = s ∧ s ≤ B.endIndex ∧ s < allFiles.length
      ∧ B.files = (allFiles.drop s).take (B.endIndex + 1 - s)
      ∧ BatchChain allFiles (B.endIndex + 1) rest t

/-- Loop invariant of the batching loop for the partition of the files. -/
def PartitionInv (allFiles : List RestoreFile) (st : BatchLoop) : Prop :=
  st.curBackupFilesBeginIndex ≤ st.curBackupFilesEndIndex
    ∧ st.curWorkloadSize
        = doubleSum (((allFiles.drop st.curBackupFilesBeginIndex).take
            (st.curBackupFilesEndIndex - st.curBackupFilesBeginIndex)).map
              (fun f => f.fileSize))
    ∧ BatchChain allFiles 0 st.batches st.curBackupFilesBeginIndex

/-! ## Facts about the reader -/

theorem be32_netU32 (n : Nat) (h : n < 2 ^ 32) : StringRefReader.be32 (netU32 n) = n := by
  simp only [StringRefReader.be32, netU32, byteOfNat, List.foldl_cons, List.foldl_nil]
  omega

theorem le32_putLE32 (n : Nat) (h : n < 2 ^ 32) : StringRefReader.le32 (putLE32 n) = n := by
  simp only [StringRefReader.le32, putLE32, byteOfNat, List.foldr_cons, List.foldr_nil]
  omega

theorem netU32_length (n : Nat) : (netU32 n).length = 4 := rfl

theorem putLE32_length (n : Nat) : (putLE32 n).length = 4 := rfl

/-- Consuming exactly the bytes in front of the reader. -/
theorem consume_append (s t : Bytes) (e : Error) :
    (StringRefReader.mk (s ++ t) e).consume s.length = .ok (s, ⟨t, e⟩) := by
  cases s with
  | nil => simp [StringRefReader.consume]
  | cons a s => simp [StringRefReader.consume]

theorem consumeNetworkUInt32_netU32 (n : Nat) (h : n < 2 ^ 32) (t : Bytes) (e : Error) :
    (StringRefReader.mk (netU32 n ++ t) e).consumeNetworkUInt32 = .ok (n, ⟨t, e⟩) := by
  have hc := consume_append (netU32 n) t e
  rw [netU32_length] at hc
  simp only [StringRefReader.consumeNetworkUInt32, hc, be32_netU32 n h]

theorem consumeInt32_putLE32 (n : Nat) (h : n < 2 ^ 31) (t : Bytes) (e : Error) :
    (StringRefReader.mk (putLE32 n ++ t) e).consumeInt32 = .ok ((n : Int), ⟨t, e⟩) := by
  have hc := consume_append (putLE32 n) t e
  rw [putLE32_length] at hc
  have h32 : n < 2 ^ 32 := by omega
  simp only [StringRefReader.consumeInt32, hc, le32_putLE32 n h32, StringRefReader.asInt32, if_pos h]

/-- A length field below `2^24` starts with a zero byte, so the reader in front
of it is neither at eof nor at a 0xFF marker. -/
theorem not_end_netU32 (n : Nat) (h : n < 2 ^ 24) (t : Bytes) (e : Error) :
    ((StringRefReader.mk (netU32 n ++ t) e).eof || (StringRefReader.mk (netU32 n ++ t) e).atFF) = false := by
  have h0 : n / 16777216 % 256 = 0 := by omega
  simp [StringRefReader.eof, StringRefReader.atFF, netU32, byteOfNat, xFF, h0, Fin.ext_iff]

/-- In front of the padding (or at the end of the block) the loop stops. -/
theorem end_replicate (pad : Nat) (e : Error) :
    ((StringRefReader.mk (List.replicate pad xFF) e).eof || (StringRefReader.mk (List.replicate pad xFF) e).atFF) = true := by
  cases pad with
  | zero => simp [StringRefReader.eof]
  | succ k => simp [StringRefReader.eof, StringRefReader.atFF, List.replicate_succ]

theorem checkPadding_replicate (pad : Nat) (e : Error) :
    checkPadding ⟨List.replicate pad xFF, e⟩ = .ok () := by
  simp [checkPadding, StringRefReader.remainder]

/-! ## Decoding what the writers produce -/

/-- The bytes of a pair list followed by a length-tagged key start with a
length field below `2^24`. -/
theorem putPairs_head (pairs : List KeyValueRef) (endKey tail : Bytes)
    (hp : ∀ kv ∈ pairs, kv.key.length < 2 ^ 24) (he : endKey.length < 2 ^ 24) :
    ∃ n t, n < 2 ^ 24 ∧ putPairs pairs ++ (putString endKey ++ tail) = netU32 n ++ t := by
  cases pairs with
  | nil => exact ⟨endKey.length, endKey ++ tail, he, by simp [putPairs, putString]⟩
  | cons kv rest =>
    refine ⟨kv.key.length, kv.key ++ (putString kv.value ++ (putPairs rest ++ (putString endKey ++ tail))),
      hp kv (List.mem_cons_self _ _), ?_⟩
    simp [putPairs, putString]

theorem putPairs_length_le (pairs : List KeyValueRef) : pairs.length ≤ (putPairs pairs).length := by
  induction pairs with
  | nil => simp
  | cons kv rest ih => simp [putPairs, putString, netU32_length]; omega

/-- The range loop reads back the pairs and the end key written in front of the padding. -/
theorem decodeRangeLoop_putPairs (e : Error) (endKey : Bytes) (pad : Nat)
    (he : endKey.length < 2 ^ 24) :
    ∀ (pairs : List KeyValueRef),
      (∀ kv ∈ pairs, kv.key.length < 2 ^ 24 ∧ kv.value.length < 2 ^ 24) →
      ∀ (fuel : Nat) (acc : List KeyValueRef), pairs.length < fuel →
        decodeRangeLoop fuel ⟨putPairs pairs ++ (putString endKey ++ List.replicate pad xFF), e⟩ acc
          = some (.ok (acc ++ pairs ++ [⟨endKey, []⟩], ⟨List.replicate pad xFF, e⟩)) := by
  intro pairs
  induction pairs with
  | nil =>
    intro _ fuel acc hf
    obtain ⟨f, rfl⟩ : ∃ f, fuel = f + 1 := ⟨fuel - 1, by simp at hf; omega⟩
    simp only [putPairs, List.nil_append, putString, List.append_assoc, decodeRangeLoop]
    rw [consumeNetworkUInt32_netU32 _ (by omega)]
    simp only [consume_append, end_replicate]
    simp
  | cons kv rest ih =>
    intro hp fuel acc hf
    obtain ⟨f, rfl⟩ : ∃ f, fuel = f + 1 := ⟨fuel - 1, by simp at hf; omega⟩
    have hk := (hp kv (List.mem_cons_self _ _)).1
    have hv := (hp kv (List.mem_cons_self _ _)).2
    have hrest : ∀ kv2 ∈ rest, kv2.key.length < 2 ^ 24 ∧ kv2.value.length < 2 ^ 24 :=
      fun kv2 h2 => hp kv2 (List.mem_cons_of_mem _ h2)
    obtain ⟨n, t, hn, hnt⟩ := putPairs_head rest endKey (List.replicate pad xFF)
      (fun kv2 h2 => (hrest kv2 h2).1) he
    have hf2 : rest.length < f := by simp at hf; omega
    have hrec := ih hrest f (acc ++ [kv]) hf2
    simp only [putPairs, putString, List.append_assoc, decodeRangeLoop]
    rw [consumeNetworkUInt32_netU32 _ (by omega)]
    simp only [consume_append, not_end_netU32 _ hv]
    rw [consumeNetworkUInt32_netU32 _ (by omega)]
    simp only [consume_append]
    have hstop : ((StringRefReader.mk (putPairs rest ++ (putString endKey ++ List.replicate pad xFF)) e).eof
        || (StringRefReader.mk (putPairs rest ++ (putString endKey ++ List.replicate pad xFF)) e).atFF) = false := by
      rw [hnt]; exact not_end_netU32 n hn t e
    simp only [putString, List.append_assoc] at hstop hrec
    simp only [hstop, hrec]
    simp

/-- The log loop reads back the pairs written in front of the padding. -/
theorem decodeLogLoop_putPairs (e : Error) (pad : Nat) :
    ∀ (pairs : List KeyValueRef),
      (∀ kv ∈ pairs, kv.key.length < 2 ^ 24 ∧ kv.value.length < 2 ^ 32) →
      ∀ (fuel : Nat) (acc : List KeyValueRef), pairs.length < fuel →
        decodeLogLoop fuel ⟨putPairs pairs ++ List.replicate pad xFF, e⟩ acc
          = some (.ok (acc ++ pairs, ⟨List.replicate pad xFF, e⟩)) := by
  intro pairs
  induction pairs with
  | nil =>
    intro _ fuel acc hf
    obtain ⟨f, rfl⟩ : ∃ f, fuel = f + 1 := ⟨fuel - 1, by simp at hf; omega⟩
    simp only [putPairs, List.nil_append, decodeLogLoop, end_replicate]
    simp
  | cons kv rest ih =>
    intro hp fuel acc hf
    obtain ⟨f, rfl⟩ : ∃ f, fuel = f + 1 := ⟨fuel - 1, by simp at hf; omega⟩
    have hk := (hp kv (List.mem_cons_self _ _)).1
    have hv := (hp kv (List.mem_cons_self _ _)).2
    have hrest : ∀ kv2 ∈ rest, kv2.key.length < 2 ^ 24 ∧ kv2.value.length < 2 ^ 32 :=
      fun kv2 h2 => hp kv2 (List.mem_cons_of_mem _ h2)
    have hf2 : rest.length < f := by simp at hf; omega
    have hrec := ih hrest f (acc ++ [kv]) hf2
    simp only [putPairs, putString, List.append_assoc, decodeLogLoop, not_end_netU32 _ hk]
    rw [consumeNetworkUInt32_netU32 _ (by omega)]
    simp only [consume_append]
    rw [consumeNetworkUInt32_netU32 _ hv]
    simp only [consume_append, hrec]
    simp

/-! ## What an accepted block looks like -/

theorem consume_ok {r r2 : StringRefReader} {len : Nat} {bs : Bytes}
    (h : r.consume len = .ok (bs, r2)) :
    r.rest = bs ++ r2.rest ∧ bs.length = len ∧ r2.failure_error = r.failure_error := by
  unfold StringRefReader.consume at h
  split at h
  · cases h
  · split at h
    · cases h
    · rename_i h1 h2
      simp only [Except.ok.injEq, Prod.mk.injEq] at h
      obtain ⟨rfl, rfl⟩ := h
      refine ⟨by simp, ?_, rfl⟩
      simp only [List.length_take]
      omega

theorem consumeNetworkUInt32_ok {r r2 : StringRefReader} {n : Nat}
    (h : r.consumeNetworkUInt32 = .ok (n, r2)) :
    ∃ bs, r.rest = bs ++ r2.rest ∧ bs.length = 4 ∧ StringRefReader.be32 bs = n
      ∧ r2.failure_error = r.failure_error := by
  unfold StringRefReader.consumeNetworkUInt32 at h
  split at h
  · cases h
  · rename_i bs r1 hc
    simp only [Except.ok.injEq, Prod.mk.injEq] at h
    obtain ⟨rfl, rfl⟩ := h
    obtain ⟨h1, h2, h3⟩ := consume_ok hc
    exact ⟨bs, h1, h2, rfl, h3⟩

theorem consumeInt32_ok {r r2 : StringRefReader} {n : Int}
    (h : r.consumeInt32 = .ok (n, r2)) :
    ∃ bs, r.rest = bs ++ r2.rest ∧ bs.length = 4 ∧ r2.failure_error = r.failure_error := by
  unfold StringRefReader.consumeInt32 at h
  split at h
  · cases h
  · rename_i bs r1 hc
    simp only [Except.ok.injEq, Prod.mk.injEq] at h
    obtain ⟨rfl, rfl⟩ := h
    obtain ⟨h1, h2, h3⟩ := consume_ok hc
    exact ⟨bs, h1, h2, h3⟩

/-- Shape of an accepted range loop: at least one entry is appended, the loop
stops at eof or at a 0xFF byte, the unread remainder is the end of what the
loop was given, and the last entry is either value-less or a pair whose
length-tagged value sits directly in front of that remainder. -/
theorem decodeRangeLoop_ok :
    ∀ (fuel : Nat) (reader : StringRefReader) (acc res : List KeyValueRef) (rd : StringRefReader),
      decodeRangeLoop fuel reader acc = some (.ok (res, rd)) →
      ∃ mid last, res = acc ++ mid ++ [last] ∧ (rd.eof || rd.atFF) = true ∧
        rd.failure_error = reader.failure_error ∧
        ∃ pre, reader.rest = pre ++ rd.rest ∧
          (last.value = [] ∨ ∃ pre2 len4, pre = pre2 ++ len4 ++ last.value ∧ len4.length = 4
            ∧ StringRefReader.be32 len4 = last.value.length) := by
  intro fuel
  induction fuel with
  | zero => intro reader acc res rd h; simp [decodeRangeLoop] at h
  | succ f ih =>
    intro reader acc res rd h
    unfold decodeRangeLoop at h
    split at h
    · cases h
    · rename_i kLen r1 h1
      split at h
      · cases h
      · rename_i k r2 h2
        obtain ⟨b1, e1, l1, v1, f1⟩ := consumeNetworkUInt32_ok h1
        obtain ⟨e2, l2, f2⟩ := consume_ok h2
        split at h
        · rename_i hstop
          simp only [Option.some.injEq, Except.ok.injEq, Prod.mk.injEq] at h
          obtain ⟨rfl, rfl⟩ := h
          refine ⟨[], ⟨k, []⟩, by simp, hstop, by rw [f2, f1], b1 ++ k, ?_, Or.inl rfl⟩
          rw [e1, e2]; simp
        · split at h
          · cases h
          · rename_i vLen r3 h3
            split at h
            · cases h
            · rename_i v r4 h4
              obtain ⟨b3, e3, l3, v3, f3⟩ := consumeNetworkUInt32_ok h3
              obtain ⟨e4, l4, f4⟩ := consume_ok h4
              split at h
              · rename_i hstop
                simp only [Option.some.injEq, Except.ok.injEq, Prod.mk.injEq] at h
                obtain ⟨rfl, rfl⟩ := h
                refine ⟨[], ⟨k, v⟩, by simp, hstop, by rw [f4, f3, f2, f1], b1 ++ k ++ b3 ++ v, ?_,
                  Or.inr ⟨b1 ++ k, b3, by simp, l3, by rw [v3, l4]⟩⟩
                rw [e1, e2, e3, e4]; simp
              · obtain ⟨mid, last, hres, hstop, hfe, pre, hpre, hlast⟩ := ih r4 _ res rd h
                refine ⟨⟨k, v⟩ :: mid, last, by simp [hres], hstop, by rw [hfe, f4, f3, f2, f1],
                  b1 ++ k ++ b3 ++ v ++ pre, ?_, ?_⟩
                · rw [e1, e2, e3, e4, hpre]; simp
                · rcases hlast with h0 | ⟨pre2, len4, hp2, hl4, hb4⟩
                  · exact Or.inl h0
                  · exact Or.inr ⟨b1 ++ k ++ b3 ++ v ++ pre2, len4, by rw [hp2]; simp, hl4, hb4⟩

/-- Shape of an accepted log loop: the unread remainder is the end of what the loop was given. -/
theorem decodeLogLoop_ok :
    ∀ (fuel : Nat) (reader : StringRefReader) (acc res : List KeyValueRef) (rd : StringRefReader),
      decodeLogLoop fuel reader acc = some (.ok (res, rd)) →
      ∃ pre, reader.rest = pre ++ rd.rest := by
  intro fuel
  induction fuel with
  | zero => intro reader acc res rd h; simp [decodeLogLoop] at h
  | succ f ih =>
    intro reader acc res rd h
    unfold decodeLogLoop at h
    split at h
    · simp only [Option.some.injEq, Except.ok.injEq, Prod.mk.injEq] at h
      obtain ⟨_, rfl⟩ := h
      exact ⟨[], by simp⟩
    · split at h
      · cases h
      · rename_i kLen r1 h1
        split at h
        · cases h
        · rename_i k r2 h2
          split at h
          · cases h
          · rename_i vLen r3 h3
            split at h
            · cases h
            · rename_i v r4 h4
              obtain ⟨b1, e1, _, _, _⟩ := consumeNetworkUInt32_ok h1
              obtain ⟨e2, _, _⟩ := consume_ok h2
              obtain ⟨b3, e3, _, _, _⟩ := consumeNetworkUInt32_ok h3
              obtain ⟨e4, _, _⟩ := consume_ok h4
              obtain ⟨pre, hpre⟩ := ih r4 _ res rd h
              exact ⟨b1 ++ k ++ b3 ++ v ++ pre, by rw [e1, e2, e3, e4, hpre]; simp⟩

/-- The range loop never runs out of fuel when given more fuel than unread bytes. -/
theorem decodeRangeLoop_fuel :
    ∀ (fuel : Nat) (reader : StringRefReader) (acc : List KeyValueRef),
      reader.rest.length < fuel → decodeRangeLoop fuel reader acc ≠ none := by
  intro fuel
  induction fuel with
  | zero => intro reader acc h; simp at h
  | succ f ih =>
    intro reader acc hlen
    unfold decodeRangeLoop
    split
    · simp
    · rename_i kLen r1 h1
      split
      · simp
      · rename_i k r2 h2
        split
        · simp
        · split
          · simp
          · rename_i vLen r3 h3
            split
            · simp
            · rename_i v r4 h4
              split
              · simp
              · obtain ⟨b1, e1, l1, _, _⟩ := consumeNetworkUInt32_ok h1
                obtain ⟨e2, _, _⟩ := consume_ok h2
                obtain ⟨b3, e3, _, _, _⟩ := consumeNetworkUInt32_ok h3
                obtain ⟨e4, _, _⟩ := consume_ok h4
                apply ih
                have : reader.rest.length = b1.length + k.length + b3.length + v.length + r4.rest.length := by
                  rw [e1, e2, e3, e4]; simp only [List.length_append]; omega
                omega

/-- The log loop never runs out of fuel when given more fuel than unread bytes. -/
theorem decodeLogLoop_fuel :
    ∀ (fuel : Nat) (reader : StringRefReader) (acc : List KeyValueRef),
      reader.rest.length < fuel → decodeLogLoop fuel reader acc ≠ none := by
  intro fuel
  induction fuel with
  | zero => intro reader acc h; simp at h
  | succ f ih =>
    intro reader acc hlen
    unfold decodeLogLoop
    split
    · simp
    · split
      · simp
      · rename_i kLen r1 h1
        split
        · simp
        · rename_i k r2 h2
          split
          · simp
          · rename_i vLen r3 h3
            split
            · simp
            · rename_i v r4 h4
              obtain ⟨b1, e1, l1, _, _⟩ := consumeNetworkUInt32_ok h1
              obtain ⟨e2, _, _⟩ := consume_ok h2
              obtain ⟨b3, e3, _, _, _⟩ := consumeNetworkUInt32_ok h3
              obtain ⟨e4, _, _⟩ := consume_ok h4
              apply ih
              have : reader.rest.length = b1.length + k.length + b3.length + v.length + r4.rest.length := by
                rw [e1, e2, e3, e4]; simp only [List.length_append]; omega
              omega

/-- Both decoders are total: on every block they return entries or throw. -/
theorem decoders_total (buf : Bytes) :
    decodeRangeFileBlock buf ≠ none ∧ decodeLogFileBlock buf ≠ none := by
  constructor
  · have hs : decodeRangeFileBlockScan buf ≠ none := by
      unfold decodeRangeFileBlockScan
      simp only
      split
      · simp
      · rename_i ver r0 h0
        split
        · simp
        · split
          · simp
          · rename_i kLen r1 h1
            split
            · simp
            · rename_i k r2 h2
              obtain ⟨b0, e0, _, _⟩ := consumeInt32_ok h0
              obtain ⟨b1, e1, _, _, _⟩ := consumeNetworkUInt32_ok h1
              obtain ⟨e2, _, _⟩ := consume_ok h2
              apply decodeRangeLoop_fuel
              have : buf.length = b0.length + b1.length + k.length + r2.rest.length := by
                simp only at e0
                rw [e0, e1, e2]; simp only [List.length_append]; omega
              omega
    unfold decodeRangeFileBlock
    split
    · rename_i h; exact absurd h hs
    · simp
    · split <;> simp
  · have hs : decodeLogFileBlockScan buf ≠ none := by
      unfold decodeLogFileBlockScan
      simp only
      split
      · simp
      · rename_i ver r0 h0
        split
        · simp
        · obtain ⟨b0, e0, _, _⟩ := consumeInt32_ok h0
          apply decodeLogLoop_fuel
          have : buf.length = b0.length + r0.rest.length := by
            simp only at e0
            rw [e0]; simp only [List.length_append]
          omega
    unfold decodeLogFileBlock
    split
    · rename_i h; exact absurd h hs
    · simp
    · split <;> simp

theorem checkPadding_ok_iff (r : StringRefReader) :
    checkPadding r = .ok () ↔ ∀ b ∈ r.rest, b = xFF := by
  unfold checkPadding StringRefReader.remainder
  split
  · rename_i h
    simp only [List.all_eq_true, beq_iff_eq] at h
    exact ⟨fun _ => h, fun _ => rfl⟩
  · rename_i h
    simp only [List.all_eq_true, beq_iff_eq] at h
    constructor
    · intro h2; cases h2
    · intro h2; exact absurd h2 h

theorem checkPadding_error (r : StringRefReader) (e : Error) (h : checkPadding r = .error e) :
    e = Error.restore_corrupted_data_padding ∧ ∃ b ∈ r.rest, b ≠ xFF := by
  unfold checkPadding StringRefReader.remainder at h
  split at h
  · cases h
  · rename_i hall
    simp only [List.all_eq_true, beq_iff_eq, not_forall] at hall
    obtain ⟨b, hb, hne⟩ := hall
    simp only [Except.error.injEq] at h
    exact ⟨h.symm, b, hb, hne⟩

/-- Shape of an accepted range scan: a value-less first entry, at least one
more entry, and the unread remainder is the end of the block. -/
theorem decodeRangeFileBlockScan_ok (buf : Bytes) (rs : List KeyValueRef) (rd : StringRefReader)
    (h : decodeRangeFileBlockScan buf = some (.ok (rs, rd))) :
    ∃ k0 mid last, rs = ⟨k0, []⟩ :: mid ++ [last] ∧
      ∃ pre, buf = pre ++ rd.rest ∧
        (last.value = [] ∨ ∃ pre2 len4, pre = pre2 ++ len4 ++ last.value ∧ len4.length = 4
          ∧ StringRefReader.be32 len4 = last.value.length) := by
  unfold decodeRangeFileBlockScan at h
  simp only at h
  split at h
  · cases h
  · rename_i ver r0 h0
    split at h
    · cases h
    · split at h
      · cases h
      · rename_i kLen r1 h1
        split at h
        · cases h
        · rename_i k r2 h2
          obtain ⟨b0, e0, _, _⟩ := consumeInt32_ok h0
          obtain ⟨b1, e1, _, _, _⟩ := consumeNetworkUInt32_ok h1
          obtain ⟨e2, _, _⟩ := consume_ok h2
          obtain ⟨mid, last, hres, _, _, pre, hpre, hlast⟩ := decodeRangeLoop_ok _ _ _ _ _ h
          simp only at e0
          refine ⟨k, mid, last, by simp [hres], b0 ++ b1 ++ k ++ pre, ?_, ?_⟩
          · rw [e0, e1, e2, hpre]; simp
          · rcases hlast with h0 | ⟨pre2, len4, hp2, hl4, hb4⟩
            · exact Or.inl h0
            · exact Or.inr ⟨b0 ++ b1 ++ k ++ pre2, len4, by rw [hp2]; simp, hl4, hb4⟩

/-- Shape of an accepted log scan: the unread remainder is the end of the block. -/
theorem decodeLogFileBlockScan_ok (buf : Bytes) (rs : List KeyValueRef) (rd : StringRefReader)
    (h : decodeLogFileBlockScan buf = some (.ok (rs, rd))) :
    ∃ pre, buf = pre ++ rd.rest := by
  unfold decodeLogFileBlockScan at h
  simp only at h
  split at h
  · cases h
  · rename_i ver r0 h0
    split at h
    · cases h
    · obtain ⟨b0, e0, _, _⟩ := consumeInt32_ok h0
      obtain ⟨pre, hpre⟩ := decodeLogLoop_ok _ _ _ _ _ h
      simp only at e0
      exact ⟨b0 ++ pre, by rw [e0, hpre]; simp⟩

/-- An accepted range block is an accepted scan whose remainder is all 0xFF. -/
theorem decodeRangeFileBlock_ok (buf : Bytes) (rs : List KeyValueRef)
    (h : decodeRangeFileBlock buf = some (.ok rs)) :
    ∃ rd, decodeRangeFileBlockScan buf = some (.ok (rs, rd)) ∧ ∀ b ∈ rd.rest, b = xFF := by
  unfold decodeRangeFileBlock at h
  split at h
  · cases h
  · cases h
  · rename_i results reader hs
    split at h
    · cases h
    · rename_i hpad
      simp only [Option.some.injEq, Except.ok.injEq] at h
      subst h
      exact ⟨reader, hs, (checkPadding_ok_iff reader).1 hpad⟩

/-! ## Facts about the map model -/

namespace StdMap

variable {K V : Type} [DecidableEq K]

theorem contains_eq_isSome (m : List (K × V)) (k : K) : contains m k = (find m k).isSome := by
  induction m with
  | nil => rfl
  | cons e rest ih =>
    by_cases h : e.1 = k
    · simp [contains, find, h]
    · simp only [contains, List.any_cons, find, h, decide_False, Bool.false_or, if_false] at ih ⊢
      exact ih

theorem find_modify_self (m : List (K × V)) (k : K) (f : V → V) :
    find (modify m k f) k = (find m k).map f := by
  induction m with
  | nil => rfl
  | cons e rest ih =>
    by_cases h : e.1 = k
    · simp [modify, find, h]
    · simp [modify, find, h, ih]

theorem find_modify_other (m : List (K × V)) (k k2 : K) (f : V → V) (hne : k2 ≠ k) :
    find (modify m k f) k2 = find m k2 := by
  induction m with
  | nil => rfl
  | cons e rest ih =>
    obtain ⟨ek, ev⟩ := e
    by_cases h : ek = k
    · have h2 : ¬ ek = k2 := fun h3 => hne (h3.symm.trans h)
      simp only [modify, h, if_true, find]
      rw [if_neg (by rw [← h]; exact h2), if_neg (by rw [← h]; exact h2)]
    · simp only [modify, h, if_false, find]
      by_cases h2 : ek = k2
      · simp only [h2, if_true]
      · simp only [h2, if_false, ih]

theorem find_insertSorted_self (lt : K → K → Bool) (m : List (K × V)) (k : K) (v : V)
    (hnot : find m k = none) : find (insertSorted lt m k v) k = some v := by
  induction m with
  | nil => simp [insertSorted, find]
  | cons e rest ih =>
    by_cases h : e.1 = k
    · simp [find, h] at hnot
    · simp only [find, h, if_false] at hnot
      by_cases hlt : lt k e.1 = true
      · simp [insertSorted, find, hlt]
      · simp [insertSorted, find, hlt, h, ih hnot]

theorem find_insertSorted_other (lt : K → K → Bool) (m : List (K × V)) (k k2 : K) (v : V)
    (hne : k2 ≠ k) : find (insertSorted lt m k v) k2 = find m k2 := by
  induction m with
  | nil => simp [insertSorted, find, hne.symm]
  | cons e rest ih =>
    obtain ⟨ek, ev⟩ := e
    by_cases hlt : lt k ek = true
    · simp only [insertSorted, hlt, if_true, find]
      rw [if_neg (fun h3 => hne h3.symm)]
    · simp only [insertSorted, hlt, find]
      by_cases h2 : ek = k2
      · simp [h2]
      · simp [h2, ih]

theorem contains_modify (m : List (K × V)) (k k2 : K) (f : V → V) :
    contains (modify m k f) k2 = contains m k2 := by
  induction m with
  | nil => rfl
  | cons e rest ih =>
    by_cases h : e.1 = k
    · simp [modify, contains, h]
    · simp only [contains, List.any_cons] at ih
      simp [modify, contains, h, ih]

end StdMap

theorem setProcessed_contains (processedCmd : List (CMDUID × Int)) (cmdID : CMDUID) :
    StdMap.contains (setProcessed processedCmd cmdID) cmdID = true := by
  unfold setProcessed
  split
  · rename_i h; rw [StdMap.contains_modify]; exact h
  · simp [StdMap.contains]

/-! ## Facts about the command rounds -/

theorem initPhase_eq_of_batch (c c2 : CMDUID) (p : RestoreCommandEnum) (h : c.batch = c2.batch) :
    c.initPhase p = c2.initPhase p := by
  simp [CMDUID.initPhase, h]

theorem assignRound_foldl_batch (appliers : List (UID × KeyRangeRef)) :
    ∀ (st : List RestoreCommand × CMDUID),
      (appliers.foldl
        (fun (st : List RestoreCommand × CMDUID) applier =>
          let c := st.2.nextCmd
          (st.1 ++ [{ cmd := RestoreCommandEnum.Assign_Applier_KeyRange, cmdID := c,
                      id := applier.1, keyRange := applier.2 }], c)) st).2.batch = st.2.batch := by
  induction appliers with
  | nil => intro st; rfl
  | cons a rest ih => intro st; simp only [List.foldl_cons]; rw [ih]; rfl

theorem assignKeyRangeToAppliersRound_batch (cmdID : CMDUID) (appliers : List (UID × KeyRangeRef)) :
    (assignKeyRangeToAppliersRound cmdID appliers).2.batch = cmdID.batch := by
  unfold assignKeyRangeToAppliersRound
  rw [assignRound_foldl_batch]
  rfl

/-- A round depends on `rd->cmdID` through its batch only. -/
theorem assignKeyRangeToAppliersRound_congr (c c2 : CMDUID) (appliers : List (UID × KeyRangeRef))
    (h : c.batch = c2.batch) :
    assignKeyRangeToAppliersRound c appliers = assignKeyRangeToAppliersRound c2 appliers := by
  unfold assignKeyRangeToAppliersRound
  rw [initPhase_eq_of_batch c c2 _ h]

/-! ## Facts about forbidden ranges and command identifiers -/

/-- What `isForbiddenVersionRangeOverlapped` computes: whether some later range
begins before the first range ends. -/
theorem isForbiddenVersionRangeOverlappedLoop_iff (prevRange : Version × Version)
    (rest : List (Version × Version)) :
    isForbiddenVersionRangeOverlappedLoop prevRange rest = true
      ↔ ∃ curRange ∈ rest, curRange.1 < prevRange.2 := by
  induction rest with
  | nil => simp [isForbiddenVersionRangeOverlappedLoop]
  | cons cur tl ih =>
    by_cases h : cur.1 < prevRange.2
    · simp only [isForbiddenVersionRangeOverlappedLoop, h, if_true, true_iff]
      exact ⟨cur, List.mem_cons_self _ _, h⟩
    · simp only [isForbiddenVersionRangeOverlappedLoop, h, if_false, ih, List.mem_cons]
      constructor
      · rintro ⟨r, hr, hv⟩; exact ⟨r, Or.inr hr, hv⟩
      · rintro ⟨r, hr | hr, hv⟩
        · subst hr; exact absurd hv h
        · exact ⟨r, hr, hv⟩

theorem nextCmd_iterate (k : Nat) (c : CMDUID) (h : c.cmdID < 2 ^ 64) :
    (CMDUID.nextCmd^[k] c) = ⟨c.batch, c.phase, (c.cmdID + k) % 2 ^ 64⟩ := by
  induction k generalizing c with
  | zero =>
    simp only [Function.iterate_zero, id_eq, Nat.add_zero]
    rw [Nat.mod_eq_of_lt h]
  | succ n ih =>
    rw [Function.iterate_succ_apply]
    rw [ih c.nextCmd (by simp only [CMDUID.nextCmd]; exact Nat.mod_lt _ (by norm_num))]
    simp only [CMDUID.nextCmd, CMDUID.mk.injEq, true_and]
    omega

theorem RestoreCommandEnum.toNat_lt (p : RestoreCommandEnum) : p.toNat < 2 ^ 16 := by
  cases p <;> decide

theorem assignRound_foldl_ids (appliers : List (UID × KeyRangeRef)) :
    ∀ (st : List RestoreCommand × CMDUID),
      ((appliers.foldl
        (fun (st : List RestoreCommand × CMDUID) applier =>
          let c := st.2.nextCmd
          (st.1 ++ [{ cmd := RestoreCommandEnum.Assign_Applier_KeyRange, cmdID := c,
                      id := applier.1, keyRange := applier.2 }], c)) st).1.map (fun c => c.cmdID))
        = st.1.map (fun c => c.cmdID)
          ++ (List.range appliers.length).map (fun i => CMDUID.nextCmd^[i + 1] st.2) := by
  induction appliers with
  | nil => intro st; simp
  | cons a rest ih =>
    intro st
    simp only [List.foldl_cons]
    rw [ih]
    simp only [List.map_append, List.map_cons, List.map_nil, List.length_cons,
      List.range_succ_eq_map, List.map_map, List.append_assoc, List.singleton_append,
      Function.iterate_succ_apply, Function.iterate_zero, id_eq]
    rfl

/-- The identifiers a round sends: `(batch, Assign_Applier_KeyRange, i + 1)` for
the command at position `i`. -/
theorem assignKeyRangeToAppliersRound_ids (cmdID : CMDUID) (appliers : List (UID × KeyRangeRef)) :
    (assignKeyRangeToAppliersRound cmdID appliers).1.map (fun c => c.cmdID)
      = (List.range appliers.length).map (fun i =>
          (⟨cmdID.batch, RestoreCommandEnum.Assign_Applier_KeyRange.toNat, (i + 1) % 2 ^ 64⟩ : CMDUID)) := by
  unfold assignKeyRangeToAppliersRound
  rw [assignRound_foldl_ids]
  simp only [List.map_nil, List.nil_append]
  apply List.map_congr_left
  intro i _
  rw [nextCmd_iterate (i + 1) _ (by simp [CMDUID.initPhase])]
  simp only [CMDUID.initPhase, Nat.zero_add,
    Nat.mod_eq_of_lt (RestoreCommandEnum.toNat_lt RestoreCommandEnum.Assign_Applier_KeyRange)]

/-! ## Facts about `receiveMutations` -/

/-- First delivery of a new `Loader_Send_Mutations_To_Applier` command. -/
theorem receiveMutations_new (interfId : UID) (rd : ApplierData) (req : RestoreCommand)
    (hcmd : req.cmd = RestoreCommandEnum.Loader_Send_Mutations_To_Applier)
    (hphase : req.cmdID.phase = req.cmd.toNat)
    (hnew : rd.isCmdProcessed req.cmdID = false) :
    ∃ rd1, receiveMutations interfId rd req = some ⟨rd1, [⟨interfId, req.cmdID, 0, []⟩], false⟩
      ∧ rd1.isCmdProcessed req.cmdID = true
      ∧ rd1.numMutations = rd.numMutations + 1
      ∧ kvOpsAt rd1.kvOps req.commitVersion = kvOpsAt rd.kvOps req.commitVersion ++ [req.mutation]
      ∧ ∀ v, v ≠ req.commitVersion → kvOpsAt rd1.kvOps v = kvOpsAt rd.kvOps v := by
  have hph : ¬ (req.cmd.toNat ≠ req.cmdID.phase) := by simp [hphase]
  refine ⟨{ kvOps := StdMap.modify
                (if StdMap.contains rd.kvOps req.commitVersion then rd.kvOps
                 else StdMap.insert (fun a b => decide (a < b)) rd.kvOps req.commitVersion [])
                req.commitVersion (fun ops => ops ++ [req.mutation]),
            processedCmd := setProcessed rd.processedCmd req.cmdID,
            numMutations := rd.numMutations + 1 }, ?_, ?_, ?_, ?_, ?_⟩
  · unfold receiveMutations
    rw [if_pos hcmd, if_neg hph, hnew]
    simp only [Bool.false_eq_true, if_false]
  · exact setProcessed_contains _ _
  · rfl
  · simp only [kvOpsAt, StdMap.find_modify_self]
    by_cases hc : StdMap.contains rd.kvOps req.commitVersion = true
    · simp only [hc, if_true]
      rw [StdMap.contains_eq_isSome] at hc
      obtain ⟨ops, hops⟩ := Option.isSome_iff_exists.1 hc
      simp [hops]
    · simp only [hc, StdMap.insert, if_false, Bool.false_eq_true]
      have hnone : StdMap.find rd.kvOps req.commitVersion = none := by
        rw [StdMap.contains_eq_isSome] at hc
        simpa using hc
      rw [StdMap.find_insertSorted_self _ _ _ _ hnone, hnone]
      simp
  · intro v hv
    simp only [kvOpsAt]
    rw [StdMap.find_modify_other _ _ _ _ hv]
    by_cases hc : StdMap.contains rd.kvOps req.commitVersion = true
    · simp only [hc, if_true]
    · simp only [hc, StdMap.insert, if_false, Bool.false_eq_true]
      rw [StdMap.find_insertSorted_other _ _ _ _ _ hv]

/-- Delivery of a `Loader_Send_Mutations_To_Applier` command whose identifier
is already in `processedCmd`: acknowledged, state unchanged. -/
theorem receiveMutations_duplicate (interfId : UID) (rd : ApplierData) (req : RestoreCommand)
    (hcmd : req.cmd = RestoreCommandEnum.Loader_Send_Mutations_To_Applier)
    (hphase : req.cmdID.phase = req.cmd.toNat)
    (hdup : rd.isCmdProcessed req.cmdID = true) :
    receiveMutations interfId rd req = some ⟨rd, [⟨interfId, req.cmdID, 0, []⟩], false⟩ := by
  have hph : ¬ (req.cmd.toNat ≠ req.cmdID.phase) := by simp [hphase]
  unfold receiveMutations
  rw [if_pos hcmd, if_neg hph, hdup]
  simp only [if_true]

/-! ## Facts about `_calculateAppliersKeyRanges` -/

theorem mergeLastKeyRanges_eq_take (numAppliers : Nat) (h : 1 ≤ numAppliers) :
    ∀ (fuel : Nat) (lowerBounds : List Bytes), lowerBounds.length ≤ fuel →
      mergeLastKeyRanges numAppliers fuel lowerBounds = lowerBounds.take (numAppliers - 1) := by
  intro fuel
  induction fuel with
  | zero =>
    intro lb hlen
    have : lb = [] := List.length_eq_zero.1 (Nat.le_zero.1 hlen)
    subst this
    simp [mergeLastKeyRanges]
  | succ f ih =>
    intro lb hlen
    unfold mergeLastKeyRanges
    split
    · rename_i hge
      rw [ih lb.dropLast (by simp only [List.length_dropLast]; omega)]
      rw [List.dropLast_eq_take, List.take_take]
      congr 1
      omega
    · rename_i hlt
      rw [List.take_of_length_le (by omega)]

/-- State of the loop after the first `r` keys when every key was hit once. -/
theorem calculateAppliersKeyRanges_foldl (keys : List Bytes) (L : Nat) (hL : 1 ≤ L) :
    ∀ r, r ≤ keys.length →
      ∃ q t, r = L * q + t ∧ t < L ∧
        ((keys.take r).map (fun k => (k, 1))).foldl (calculateAppliersKeyRangesStep L) ⟨0, 0, []⟩
          = ⟨r, if t = 0 then q else q + 1,
              (List.range (if t = 0 then q else q + 1)).map (fun i => keys.getD (i * L) [])⟩ := by
  intro r
  induction r with
  | zero => intro _; exact ⟨0, 0, by simp, by omega, by simp⟩
  | succ r ih =>
    intro hr
    obtain ⟨q, t, hqt, ht, hst⟩ := ih (by omega)
    have hget : keys[r]? = some (keys.getD r []) := by
      rw [List.getD_eq_getElem?_getD, List.getElem?_eq_getElem (by omega)]
      simp
    have htake : keys.take (r + 1) = keys.take r ++ [keys.getD r []] := by
      rw [List.take_succ, hget]; rfl
    have hdiv : r / L = q := by
      rw [hqt]
      rw [Nat.mul_add_div (by omega), Nat.div_eq_of_lt ht]
      simp
    rw [htake, List.map_append, List.foldl_append, hst]
    simp only [List.map_cons, List.map_nil, List.foldl_cons, List.foldl_nil,
      calculateAppliersKeyRangesStep, hdiv]
    by_cases h0 : t = 0
    · -- a multiple of `L`: the key is pushed
      subst h0
      have hr0 : r = q * L := by rw [hqt]; simp [Nat.mul_comm]
      by_cases h1 : 1 < L
      · refine ⟨q, 1, by omega, h1, ?_⟩
        simp only [if_true, le_refl, one_ne_zero, if_false, List.range_succ, List.map_append,
          List.map_cons, List.map_nil, ← hr0]
      · have hL1 : L = 1 := by omega
        refine ⟨q + 1, 0, by subst hL1; omega, by omega, ?_⟩
        simp only [if_true, le_refl, List.range_succ, List.map_append,
          List.map_cons, List.map_nil, ← hr0]
    · have hnle : ¬ (q + 1 ≤ q) := by omega
      by_cases h1 : t + 1 < L
      · refine ⟨q, t + 1, by omega, h1, ?_⟩
        simp only [h0, if_false, hnle, Nat.succ_ne_zero]
      · refine ⟨q + 1, 0, ?_, by omega, ?_⟩
        · have : t + 1 = L := by omega
          rw [Nat.mul_succ]; omega
        · simp only [h0, if_false, hnle, if_true]

/-! ## Facts about `configureRoles` -/

theorem configureRolesPush_foldl (role : RestoreRole) (agents : List UID) :
    ∀ (k s : Nat) (acc : List RestoreNodeStatus),
      (List.range' s k).foldl (configureRolesPush role agents) (acc, s + 1)
        = (acc ++ (List.range' s k).map (fun i => ⟨role, agents.getD i 0, i + 1⟩), s + k + 1) := by
  intro k
  induction k with
  | zero => intro s acc; simp
  | succ k ih =>
    intro s acc
    rw [List.range'_succ, List.foldl_cons]
    simp only [configureRolesPush]
    rw [ih (s + 1) _]
    simp only [List.map_cons, List.append_assoc, List.singleton_append, Prod.mk.injEq, true_and]
    omega

/-! ## Facts about sums kept in a `double` -/

theorem doubleShift_spec : ∀ (fuel a : Nat), a ≤ fuel →
    a < 2 ^ (53 + doubleShift fuel a)
      ∧ (2 ^ 53 ≤ a → 2 ^ (52 + doubleShift fuel a) ≤ a ∧ 1 ≤ doubleShift fuel a) := by
  intro fuel
  induction fuel with
  | zero =>
    intro a ha
    have : a = 0 := by omega
    subst this
    simp [doubleShift]
  | succ fuel ih =>
    intro a ha
    unfold doubleShift
    by_cases h : a < 2 ^ 53
    · rw [if_pos h]
      exact ⟨by simpa using h, fun h2 => by omega⟩
    · rw [if_neg h]
      have h53 : 2 ^ 53 ≤ a := by omega
      have hhalf : a / 2 ≤ fuel := by omega
      obtain ⟨h1, h2⟩ := ih (a / 2) hhalf
      have e1 : 2 ^ (53 + (doubleShift fuel (a / 2) + 1))
          = 2 * 2 ^ (53 + doubleShift fuel (a / 2)) := by
        rw [← Nat.add_assoc, Nat.pow_succ]; ring
      have e2 : 2 ^ (52 + (doubleShift fuel (a / 2) + 1))
          = 2 * 2 ^ (52 + doubleShift fuel (a / 2)) := by
        rw [← Nat.add_assoc, Nat.pow_succ]; ring
      refine ⟨by rw [e1]; omega, fun _ => ⟨?_, by omega⟩⟩
      rw [e2]
      by_cases hh : 2 ^ 53 ≤ a / 2
      · have := (h2 hh).1
        omega
      · have hz : doubleShift fuel (a / 2) = 0 := by
          cases fuel with
          | zero => rfl
          | succ f => unfold doubleShift; rw [if_pos (by omega)]
        rw [hz]
        simp only [Nat.add_zero]
        omega

/-- An integer of magnitude below `2 ^ 53` is a `double`. -/
theorem roundDouble_small (x : Int) (h : x.natAbs < 2 ^ 53) : roundDouble x = x := by
  unfold roundDouble
  simp only
  rw [if_pos h]

/-- Rounding does not take an integer from `2 ^ 53` on below `2 ^ 53`. -/
theorem roundDouble_large (x : Int) (h : 2 ^ 53 ≤ x) : 2 ^ 53 ≤ roundDouble x := by
  have ha : 2 ^ 53 ≤ x.natAbs := by omega
  have hx : ¬ x < 0 := by omega
  obtain ⟨_, h2⟩ := doubleShift_spec x.natAbs x.natAbs (le_refl _)
  obtain ⟨hlow, he⟩ := h2 ha
  unfold roundDouble
  simp only
  rw [if_neg (by omega), if_neg hx]
  generalize doubleShift x.natAbs x.natAbs = e at hlow he
  have hq : 2 ^ 52 ≤ x.natAbs / 2 ^ e := by
    rw [Nat.le_div_iff_mul_le (Nat.pos_pow_of_pos _ (by decide))]
    rw [← Nat.pow_add]
    exact hlow
  have hpe : 2 ≤ 2 ^ e := by
    calc 2 = 2 ^ 1 := rfl
      _ ≤ 2 ^ e := Nat.pow_le_pow_right (by decide) he
  have hm : 2 ^ 53 ≤ (if (decide (2 ^ e < 2 * (x.natAbs % 2 ^ e))
        || (decide (2 * (x.natAbs % 2 ^ e) = 2 ^ e) && decide (x.natAbs / 2 ^ e % 2 = 1))) = true
      then x.natAbs / 2 ^ e + 1 else x.natAbs / 2 ^ e) * 2 ^ e := by
    have hmq : x.natAbs / 2 ^ e ≤ (if (decide (2 ^ e < 2 * (x.natAbs % 2 ^ e))
        || (decide (2 * (x.natAbs % 2 ^ e) = 2 ^ e) && decide (x.natAbs / 2 ^ e % 2 = 1))) = true
      then x.natAbs / 2 ^ e + 1 else x.natAbs / 2 ^ e) := by
      split <;> omega
    calc 2 ^ 53 = 2 ^ 52 * 2 := by norm_num
      _ ≤ (x.natAbs / 2 ^ e) * 2 ^ e := Nat.mul_le_mul hq hpe
      _ ≤ _ := Nat.mul_le_mul_right _ hmq
  exact_mod_cast hm

/-- One addition of a size that is not negative keeps the `double` and the
exact sum in step: they are equal below `2 ^ 53`, and both from `2 ^ 53` on
otherwise. -/
theorem doubleAdd_agree (w s f : Int) (hs : 0 ≤ s) (hf : 0 ≤ f)
    (h : (w = s ∧ s < 2 ^ 53) ∨ (2 ^ 53 ≤ w ∧ 2 ^ 53 ≤ s)) :
    (doubleAdd w f = s + f ∧ s + f < 2 ^ 53) ∨ (2 ^ 53 ≤ doubleAdd w f ∧ 2 ^ 53 ≤ s + f) := by
  unfold doubleAdd
  by_cases hfs : f < 2 ^ 53
  · rw [roundDouble_small f (by omega)]
    rcases h with ⟨hw, hs53⟩ | ⟨hw, hs53⟩
    · subst hw
      by_cases hsum : w + f < 2 ^ 53
      · left
        exact ⟨roundDouble_small _ (by omega), hsum⟩
      · right
        exact ⟨roundDouble_large _ (by omega), by omega⟩
    · right
      exact ⟨roundDouble_large _ (by omega), by omega⟩
  · have hrf := roundDouble_large f (by omega)
    have hw0 : 0 ≤ w := by
      rcases h with ⟨hw, _⟩ | ⟨hw, _⟩ <;> omega
    right
    exact ⟨roundDouble_large _ (by omega), by omega⟩

theorem foldl_doubleAdd_agree : ∀ (sizes : List Int) (w s : Int), (∀ x ∈ sizes, 0 ≤ x) → 0 ≤ s →
    ((w = s ∧ s < 2 ^ 53) ∨ (2 ^ 53 ≤ w ∧ 2 ^ 53 ≤ s)) →
    (sizes.foldl doubleAdd w = s + sizes.sum ∧ s + sizes.sum < 2 ^ 53)
      ∨ (2 ^ 53 ≤ sizes.foldl doubleAdd w ∧ 2 ^ 53 ≤ s + sizes.sum) := by
  intro sizes
  induction sizes with
  | nil =>
    intro w s _ _ h
    simpa using h
  | cons f rest ih =>
    intro w s hnn hs h
    have hf : 0 ≤ f := hnn f (List.mem_cons_self _ _)
    have hrest : ∀ x ∈ rest, 0 ≤ x := fun x hx => hnn x (List.mem_cons_of_mem _ hx)
    have := ih (doubleAdd w f) (s + f) hrest (by omega) (doubleAdd_agree w s f hs hf h)
    rw [List.foldl_cons, List.sum_cons, ← Int.add_assoc]
    exact this

/-- For sizes that are not negative, the `double` sum and the exact sum are
equal below `2 ^ 53` and both from `2 ^ 53` on otherwise. -/
theorem doubleSum_agree (sizes : List Int) (hnn : ∀ x ∈ sizes, 0 ≤ x) :
    (doubleSum sizes = sizes.sum ∧ sizes.sum < 2 ^ 53)
      ∨ (2 ^ 53 ≤ doubleSum sizes ∧ 2 ^ 53 ≤ sizes.sum) := by
  have := foldl_doubleAdd_agree sizes 0 0 hnn (le_refl _) (Or.inl ⟨rfl, by norm_num⟩)
  simpa [doubleSum] using this

/-- The test of the `double` sum against a threshold of at most `2 ^ 53` is the
test of the exact sum. -/
theorem doubleSum_ge_iff (sizes : List Int) (hnn : ∀ x ∈ sizes, 0 ≤ x) (threshold : Int)
    (ht : threshold ≤ 2 ^ 53) : doubleSum sizes ≥ threshold ↔ sizes.sum ≥ threshold := by
  rcases doubleSum_agree sizes hnn with ⟨h1, _⟩ | ⟨h1, h2⟩
  · rw [h1]
  · constructor <;> intro _ <;> omega

theorem doubleSum_le_zero_iff (sizes : List Int) (hnn : ∀ x ∈ sizes, 0 ≤ x) :
    doubleSum sizes ≤ 0 ↔ sizes.sum ≤ 0 := by
  rcases doubleSum_agree sizes hnn with ⟨h1, _⟩ | ⟨h1, h2⟩
  · rw [h1]
  · constructor <;> intro _ <;> omega

theorem doubleSum_concat (sizes : List Int) (f : Int) :
    doubleSum (sizes ++ [f]) = doubleAdd (doubleSum sizes) f := by
  simp [doubleSum, List.foldl_append]

/-! ## Facts about the version-batch loop -/

/-- The files `b, ..., e` are the files `b, ..., e - 1` and the file `e`. -/
theorem slice_succ (allFiles : List RestoreFile) (b e : Nat) (f : RestoreFile)
    (hbe : b ≤ e) (hf : allFiles.get? e = some f) :
    (allFiles.drop b).take (e + 1 - b) = (allFiles.drop b).take (e - b) ++ [f] := by
  have h1 : e + 1 - b = (e - b) + 1 := by omega
  have h2 : (allFiles.drop b)[e - b]? = some f := by
    rw [List.getElem?_drop]
    have : b + (e - b) = e := by omega
    rw [this]
    simpa using hf
  rw [h1, List.take_succ, h2]
  rfl

theorem batchWorkload_succ (allFiles : List RestoreFile) (b e : Nat) (f : RestoreFile)
    (hbe : b ≤ e) (hf : allFiles.get? e = some f) :
    batchWorkload allFiles b e
      = (((allFiles.drop b).take (e - b)).map (fun f => f.fileSize)).sum + f.fileSize := by
  unfold batchWorkload
  rw [slice_succ allFiles b e f hbe hf]
  simp

/-- Past the end of the file list the slice from `b` holds every file from
`b` on. -/
theorem slice_past_end (allFiles : List RestoreFile) (b k : Nat)
    (h : allFiles.length ≤ b + k) : (allFiles.drop b).take k = allFiles.drop b := by
  apply List.take_of_length_le
  rw [List.length_drop]
  omega

theorem slice_sizes_nonneg (allFiles : List RestoreFile) (hnn : ∀ f ∈ allFiles, 0 ≤ f.fileSize)
    (b k : Nat) : ∀ x ∈ ((allFiles.drop b).take k).map (fun f => f.fileSize), 0 ≤ x := by
  intro x hx
  obtain ⟨g, hg, rfl⟩ := List.mem_map.1 hx
  exact hnn g (List.mem_of_mem_drop (List.mem_of_mem_take hg))

theorem versionBatchStep_past_end (allFiles : List RestoreFile)
    (forbiddenVersions : List (Version × Version)) (threshold : Int) (st : BatchLoop)
    (h : allFiles.length ≤ st.curBackupFilesBeginIndex) :
    versionBatchStep allFiles forbiddenVersions threshold st = .stop st.batches := by
  unfold versionBatchStep
  rw [if_pos (by omega)]

/-- The step when the end index has reached the size of the file list. -/
theorem versionBatchStep_at_end (allFiles : List RestoreFile)
    (forbiddenVersions : List (Version × Version)) (threshold : Int) (st : BatchLoop)
    (hb : st.curBackupFilesBeginIndex < allFiles.length)
    (he : allFiles.length ≤ st.curBackupFilesEndIndex) :
    versionBatchStep allFiles forbiddenVersions threshold st
      = if st.curWorkloadSize ≤ 0 then .stop st.batches
        else .next
          { curBackupFilesBeginIndex := st.curBackupFilesEndIndex + 1,
            curBackupFilesEndIndex := st.curBackupFilesEndIndex + 1,
            curWorkloadSize := 0,
            validVersion := st.validVersion,
            batches := st.batches ++
              [⟨st.curBackupFilesBeginIndex, st.curBackupFilesEndIndex,
                (allFiles.drop st.curBackupFilesBeginIndex).take
                  (st.curBackupFilesEndIndex + 1 - st.curBackupFilesBeginIndex),
                st.curWorkloadSize⟩] } := by
  have hf : allFiles.get? st.curBackupFilesEndIndex = none := by
    rw [List.get?_eq_getElem?]
    exact List.getElem?_eq_none_iff.2 he
  unfold versionBatchStep
  rw [if_neg (not_not.2 hb), hf]
  simp only
  rw [if_pos (Or.inr he)]
  by_cases h0 : st.curWorkloadSize ≤ 0
  · rw [if_pos ⟨he, h0⟩, if_pos h0]
  · rw [if_neg (fun h => h0 h.2), if_pos hb, if_neg h0]

/-- The step when the end index is at the file `f`: a batch is formed when the
end version of `f` is not forbidden and the threshold is reached, and the end
index moves on otherwise; no `ASSERT` fails. -/
theorem versionBatchStep_at_file (allFiles : List RestoreFile)
    (forbiddenVersions : List (Version × Version)) (threshold : Int) (st : BatchLoop)
    (f : RestoreFile)
    (hb : st.curBackupFilesBeginIndex < allFiles.length)
    (hf : allFiles.get? st.curBackupFilesEndIndex = some f) :
    versionBatchStep allFiles forbiddenVersions threshold st
      = if (!isVersionInForbiddenRange forbiddenVersions f.endVersion f.isRange) = true
            ∧ doubleAdd st.curWorkloadSize f.fileSize ≥ threshold then
          .next
            { curBackupFilesBeginIndex := st.curBackupFilesEndIndex + 1,
              curBackupFilesEndIndex := st.curBackupFilesEndIndex + 1,
              curWorkloadSize := 0,
              validVersion := !isVersionInForbiddenRange forbiddenVersions f.endVersion f.isRange,
              batches := st.batches ++
                [⟨st.curBackupFilesBeginIndex, st.curBackupFilesEndIndex,
                  (allFiles.drop st.curBackupFilesBeginIndex).take
                    (st.curBackupFilesEndIndex + 1 - st.curBackupFilesBeginIndex),
                  doubleAdd st.curWorkloadSize f.fileSize⟩] }
        else
          .next
            { curBackupFilesBeginIndex := st.curBackupFilesBeginIndex,
              curBackupFilesEndIndex := st.curBackupFilesEndIndex + 1,
              curWorkloadSize := doubleAdd st.curWorkloadSize f.fileSize,
              validVersion := !isVersionInForbiddenRange forbiddenVersions f.endVersion f.isRange,
              batches := st.batches } := by
  have hen : st.curBackupFilesEndIndex < allFiles.length := by
    rw [List.get?_eq_getElem?] at hf
    exact (List.getElem?_eq_some_iff.1 hf).1
  unfold versionBatchStep
  rw [if_neg (not_not.2 hb), hf]
  simp only
  by_cases hc : (!isVersionInForbiddenRange forbiddenVersions f.endVersion f.isRange) = true
      ∧ doubleAdd st.curWorkloadSize f.fileSize ≥ threshold
  · rw [if_pos (Or.inl hc), if_neg (by intro h; omega), if_pos hb, if_pos hc]
  · rw [if_neg (by rintro (h | h) <;> [exact hc h; omega]), if_neg hc]
    by_cases hv : (!isVersionInForbiddenRange forbiddenVersions f.endVersion f.isRange) = true
    · have hlt : doubleAdd st.curWorkloadSize f.fileSize < threshold := by
        by_contra h
        exact hc ⟨hv, by omega⟩
      rw [if_pos ⟨hv, hlt⟩]
    · have hv2 : (!isVersionInForbiddenRange forbiddenVersions f.endVersion f.isRange) = false := by
        simpa using hv
      rw [if_neg (fun h => hv h.1)]
      by_cases hlt : doubleAdd st.curWorkloadSize f.fileSize < threshold
      · rw [if_pos ⟨hv2, hlt⟩]
      · rw [if_neg (fun h => hlt h.2), if_pos ⟨hv2, by omega⟩]

/-- With enough fuel the batching loop ends with a list of batches: no `ASSERT`
fails and the fuel is not exhausted. -/
theorem versionBatchLoop_returns (allFiles : List RestoreFile)
    (forbiddenVersions : List (Version × Version)) (threshold : Int) :
    ∀ (fuel : Nat) (st : BatchLoop),
      st.curBackupFilesBeginIndex ≤ st.curBackupFilesEndIndex →
      batchFuel allFiles st ≤ fuel →
      ∃ batches, versionBatchLoop allFiles forbiddenVersions threshold fuel st = .done batches := by
  intro fuel
  induction fuel with
  | zero =>
    intro st _ hfuel
    unfold batchFuel at hfuel
    split at hfuel
    · omega
    · split at hfuel <;> omega
  | succ fuel ih =>
    intro st hbe hfuel
    by_cases hb : st.curBackupFilesBeginIndex < allFiles.length
    swap
    · exact ⟨st.batches, by
        simp only [versionBatchLoop,
          versionBatchStep_past_end allFiles forbiddenVersions threshold st (by omega)]⟩
    cases hf : allFiles.get? st.curBackupFilesEndIndex with
    | none =>
      have hen : allFiles.length ≤ st.curBackupFilesEndIndex := by
        rw [List.get?_eq_getElem?] at hf
        exact List.getElem?_eq_none_iff.1 hf
      have hstep := versionBatchStep_at_end allFiles forbiddenVersions threshold st hb hen
      by_cases h0 : st.curWorkloadSize ≤ 0
      · rw [if_pos h0] at hstep
        exact ⟨st.batches, by simp only [versionBatchLoop, hstep]⟩
      · rw [if_neg h0] at hstep
        have hfuel2 : 1 ≤ fuel := by
          unfold batchFuel at hfuel
          rw [if_neg (by omega), if_pos hen] at hfuel
          omega
        obtain ⟨batches, hrun⟩ := ih
          { curBackupFilesBeginIndex := st.curBackupFilesEndIndex + 1,
            curBackupFilesEndIndex := st.curBackupFilesEndIndex + 1,
            curWorkloadSize := 0,
            validVersion := st.validVersion,
            batches := st.batches ++
              [⟨st.curBackupFilesBeginIndex, st.curBackupFilesEndIndex,
                (allFiles.drop st.curBackupFilesBeginIndex).take
                  (st.curBackupFilesEndIndex + 1 - st.curBackupFilesBeginIndex),
                st.curWorkloadSize⟩] } (le_refl _) (by
          unfold batchFuel
          rw [if_pos (by show allFiles.length ≤ st.curBackupFilesEndIndex + 1; omega)]
          exact hfuel2)
        exact ⟨batches, by rw [versionBatchLoop, hstep]; exact hrun⟩
    | some f =>
      have hen : st.curBackupFilesEndIndex < allFiles.length := by
        rw [List.get?_eq_getElem?] at hf
        exact (List.getElem?_eq_some_iff.1 hf).1
      have hstep := versionBatchStep_at_file allFiles forbiddenVersions threshold st f hb hf
      have hfuel0 : allFiles.length - st.curBackupFilesEndIndex + 2 ≤ fuel + 1 := by
        unfold batchFuel at hfuel
        rw [if_neg (by omega), if_neg (by omega)] at hfuel
        exact hfuel
      split_ifs at hstep with hc
      · obtain ⟨batches, hrun⟩ := ih
          { curBackupFilesBeginIndex := st.curBackupFilesEndIndex + 1,
            curBackupFilesEndIndex := st.curBackupFilesEndIndex + 1,
            curWorkloadSize := 0,
            validVersion := !isVersionInForbiddenRange forbiddenVersions f.endVersion f.isRange,
            batches := st.batches ++
              [⟨st.curBackupFilesBeginIndex, st.curBackupFilesEndIndex,
                (allFiles.drop st.curBackupFilesBeginIndex).take
                  (st.curBackupFilesEndIndex + 1 - st.curBackupFilesBeginIndex),
                doubleAdd st.curWorkloadSize f.fileSize⟩] } (le_refl _) (by
          unfold batchFuel
          show (if allFiles.length ≤ st.curBackupFilesEndIndex + 1 then 1
            else if allFiles.length ≤ st.curBackupFilesEndIndex + 1 then 2
            else allFiles.length - (st.curBackupFilesEndIndex + 1) + 2) ≤ fuel
          split_ifs <;> omega)
        exact ⟨batches, by rw [versionBatchLoop, hstep]; exact hrun⟩
      · obtain ⟨batches, hrun⟩ := ih
          { curBackupFilesBeginIndex := st.curBackupFilesBeginIndex,
            curBackupFilesEndIndex := st.curBackupFilesEndIndex + 1,
            curWorkloadSize := doubleAdd st.curWorkloadSize f.fileSize,
            validVersion := !isVersionInForbiddenRange forbiddenVersions f.endVersion f.isRange,
            batches := st.batches } (Nat.le_succ_of_le hbe) (by
          unfold batchFuel
          show (if allFiles.length ≤ st.curBackupFilesBeginIndex then 1
            else if allFiles.length ≤ st.curBackupFilesEndIndex + 1 then 2
            else allFiles.length - (st.curBackupFilesEndIndex + 1) + 2) ≤ fuel
          split_ifs <;> omega)
        exact ⟨batches, by rw [versionBatchLoop, hstep]; exact hrun⟩

theorem BatchesValid_of_all (allFiles : List RestoreFile)
    (forbiddenVersions : List (Version × Version)) (threshold : Int)
    (batches : List VersionBatch)
    (h : ∀ B ∈ batches, ValidBatch allFiles forbiddenVersions threshold B) :
    BatchesValid allFiles forbiddenVersions threshold batches :=
  ⟨fun B hB => h B (List.mem_of_mem_dropLast hB),
    fun B hB => Or.inl (h B (List.mem_of_mem_getLast? hB))⟩

/-- One step of the batching loop keeps the invariant, and a stop leaves
batches with valid boundaries, the last one possibly ending with the file
list.  File sizes are not negative and the threshold is a positive number of
at most `2 ^ 53`. -/
theorem versionBatchStep_valid (allFiles : List RestoreFile)
    (forbiddenVersions : List (Version × Version)) (threshold : Int) (st : BatchLoop)
    (hnn : ∀ f ∈ allFiles, 0 ≤ f.fileSize) (ht : threshold ≤ 2 ^ 53)
    (hinv : BatchInv allFiles forbiddenVersions threshold st) :
    (∀ batches, versionBatchStep allFiles forbiddenVersions threshold st = .stop batches →
        BatchesValid allFiles forbiddenVersions threshold batches)
    ∧ (∀ st1, versionBatchStep allFiles forbiddenVersions threshold st = .next st1 →
        BatchInv allFiles forbiddenVersions threshold st1) := by
  rcases hinv with ⟨hbe, hle, hcur, hmin, hgood⟩ | ⟨hpast, hvalid⟩
  swap
  · have hstep := versionBatchStep_past_end allFiles forbiddenVersions threshold st hpast
    constructor
    · intro batches h
      rw [hstep] at h
      cases h
      exact hvalid
    · intro st1 h
      rw [hstep] at h
      cases h
  by_cases hb : st.curBackupFilesBeginIndex < allFiles.length
  swap
  · have hstep := versionBatchStep_past_end allFiles forbiddenVersions threshold st (by omega)
    constructor
    · intro batches h
      rw [hstep] at h
      cases h
      exact BatchesValid_of_all _ _ _ _ hgood
    · intro st1 h
      rw [hstep] at h
      cases h
  cases hf : allFiles.get? st.curBackupFilesEndIndex with
  | none =>
    have hen : allFiles.length ≤ st.curBackupFilesEndIndex := by
      rw [List.get?_eq_getElem?] at hf
      exact List.getElem?_eq_none_iff.1 hf
    have hstep := versionBatchStep_at_end allFiles forbiddenVersions threshold st hb hen
    by_cases h0 : st.curWorkloadSize ≤ 0
    · rw [if_pos h0] at hstep
      constructor
      · intro batches h
        rw [hstep] at h
        cases h
        exact BatchesValid_of_all _ _ _ _ hgood
      · intro st1 h
        rw [hstep] at h
        cases h
    · rw [if_neg h0] at hstep
      constructor
      · intro batches h
        rw [hstep] at h
        cases h
      · intro st1 h
        rw [hstep] at h
        cases h
        right
        refine ⟨by show allFiles.length ≤ st.curBackupFilesEndIndex + 1; omega, ?_, ?_⟩
        · intro B hB
          rw [List.dropLast_concat] at hB
          exact hgood B hB
        · intro B hB
          rw [List.getLast?_concat] at hB
          cases hB
          right
          have hfiles : (allFiles.drop st.curBackupFilesBeginIndex).take
              (st.curBackupFilesEndIndex + 1 - st.curBackupFilesBeginIndex)
              = allFiles.drop st.curBackupFilesBeginIndex :=
            slice_past_end allFiles _ _ (by omega)
          have hfiles2 : (allFiles.drop st.curBackupFilesBeginIndex).take
              (st.curBackupFilesEndIndex - st.curBackupFilesBeginIndex)
              = allFiles.drop st.curBackupFilesBeginIndex :=
            slice_past_end allFiles _ _ (by omega)
          rw [hfiles2] at hcur
          have hnn2 : ∀ x ∈ (allFiles.drop st.curBackupFilesBeginIndex).map
              (fun f => f.fileSize), 0 ≤ x := by
            rw [← hfiles]
            exact slice_sizes_nonneg allFiles hnn _ _
          refine ⟨hb, le_antisymm hle hen, hfiles, ?_, ?_, ?_⟩
          · show st.curWorkloadSize = _
            rw [hfiles]
            exact hcur
          · show 0 < ((allFiles.drop st.curBackupFilesBeginIndex).take
                (st.curBackupFilesEndIndex + 1 - st.curBackupFilesBeginIndex)
                  |>.map (fun f => f.fileSize)).sum
            rw [hfiles]
            rw [hcur, doubleSum_le_zero_iff _ hnn2] at h0
            omega
          · intro j f2 hbj hj
            have hjn : j < allFiles.length := by
              rw [List.get?_eq_getElem?] at hj
              exact (List.getElem?_eq_some_iff.1 hj).1
            exact hmin j f2 hbj (by omega) hj
  | some f =>
    have hen : st.curBackupFilesEndIndex < allFiles.length := by
      rw [List.get?_eq_getElem?] at hf
      exact (List.getElem?_eq_some_iff.1 hf).1
    have hstep := versionBatchStep_at_file allFiles forbiddenVersions threshold st f hb hf
    have hslice := slice_succ allFiles _ _ f hbe hf
    have hW : doubleAdd st.curWorkloadSize f.fileSize
        = doubleSum (((allFiles.drop st.curBackupFilesBeginIndex).take
            (st.curBackupFilesEndIndex + 1 - st.curBackupFilesBeginIndex)).map
              (fun f => f.fileSize)) := by
      rw [hslice, List.map_append, List.map_singleton, doubleSum_concat, ← hcur]
    have hiff : doubleAdd st.curWorkloadSize f.fileSize ≥ threshold
        ↔ batchWorkload allFiles st.curBackupFilesBeginIndex st.curBackupFilesEndIndex
            ≥ threshold := by
      rw [hW]
      exact doubleSum_ge_iff _ (slice_sizes_nonneg allFiles hnn _ _) threshold ht
    by_cases hc : (!isVersionInForbiddenRange forbiddenVersions f.endVersion f.isRange) = true
        ∧ doubleAdd st.curWorkloadSize f.fileSize ≥ threshold
    · rw [if_pos hc] at hstep
      constructor
      · intro batches h
        rw [hstep] at h
        cases h
      · intro st1 h
        rw [hstep] at h
        cases h
        left
        refine ⟨le_refl _, hen, ?_, ?_, ?_⟩
        · show (0 : Int) = _
          simp [doubleSum]
        · intro j f2 h1 h2 _
          simp only at h1 h2
          omega
        · intro B hB
          rcases List.mem_append.1 hB with hB | hB
          · exact hgood B hB
          · rw [List.mem_singleton.1 hB]
            exact ⟨hbe, hen, rfl, hW, hiff.1 hc.2, ⟨f, hf, by simpa using hc.1⟩, hmin⟩
    · rw [if_neg hc] at hstep
      constructor
      · intro batches h
        rw [hstep] at h
        cases h
      · intro st1 h
        rw [hstep] at h
        cases h
        left
        refine ⟨Nat.le_succ_of_le hbe, hen, ?_, ?_, hgood⟩
        · show doubleAdd st.curWorkloadSize f.fileSize = _
          rw [hW]
        · intro j f2 h1 h2 hj
          simp only at h1 h2
          by_cases hje : j = st.curBackupFilesEndIndex
          · subst hje
            rw [hf] at hj
            cases hj
            intro h
            exact hc ⟨by simpa using h.1, hiff.2 h.2⟩
          · exact hmin j f2 h1 (by omega) hj

/-- When the batching loop returns, the batches have valid boundaries, the last
one possibly ending with the file list. -/
theorem versionBatchLoop_valid (allFiles : List RestoreFile)
    (forbiddenVersions : List (Version × Version)) (threshold : Int)
    (hnn : ∀ f ∈ allFiles, 0 ≤ f.fileSize) (ht : threshold ≤ 2 ^ 53) :
    ∀ (fuel : Nat) (st : BatchLoop) (batches : List VersionBatch),
      BatchInv allFiles forbiddenVersions threshold st →
      versionBatchLoop allFiles forbiddenVersions threshold fuel st = .done batches →
      BatchesValid allFiles forbiddenVersions threshold batches := by
  intro fuel
  induction fuel with
  | zero =>
    intro st batches _ h
    simp [versionBatchLoop] at h
  | succ fuel ih =>
    intro st batches hinv h
    obtain ⟨hstop, hnext⟩ :=
      versionBatchStep_valid allFiles forbiddenVersions threshold st hnn ht hinv
    unfold versionBatchLoop at h
    cases hstep : versionBatchStep allFiles forbiddenVersions threshold st with
    | stop bs =>
      rw [hstep] at h
      simp only [Run.done.injEq] at h
      subst h
      exact hstop _ hstep
    | next st1 =>
      rw [hstep] at h
      exact ih st1 batches (hnext st1 hstep) h
    | assertFailed =>
      rw [hstep] at h
      cases h

/-! ## Facts about `applyKVOpsToDB` -/

theorem applyMutationRetry_commits {S : Type} (db : Database S) (commits : Nat → Bool)
    (hc : ∀ k, commits k = true) (fuel : Nat) (hf : 0 < fuel) (p : ApplyProgress S)
    (m : MutationRef) :
    applyMutationRetry db commits fuel p m
      = some ⟨applyMutation db p.store m, p.attempts + 1, p.count + 1⟩ := by
  obtain ⟨f, rfl⟩ : ∃ f, fuel = f + 1 := ⟨fuel - 1, by omega⟩
  simp [applyMutationRetry, hc]

theorem applyVersionOps_commits {S : Type} (db : Database S) (commits : Nat → Bool)
    (hc : ∀ k, commits k = true) (fuel : Nat) (hf : 0 < fuel) :
    ∀ (ops : List MutationRef) (p : ApplyProgress S),
      applyVersionOps db commits fuel ops p
        = some ⟨ops.foldl (applyMutation db) p.store, p.attempts + ops.length,
            p.count + ops.length⟩ := by
  intro ops
  induction ops with
  | nil => intro p; rfl
  | cons m rest ih =>
    intro p
    simp only [applyVersionOps, applyMutationRetry_commits db commits hc fuel hf, ih,
      List.foldl_cons, List.length_cons, Option.some.injEq, ApplyProgress.mk.injEq, true_and]
    constructor <;> omega

theorem applyVersions_commits {S : Type} (db : Database S) (commits : Nat → Bool)
    (hc : ∀ k, commits k = true) (fuel : Nat) (hf : 0 < fuel) :
    ∀ (kvOps : List (Version × List MutationRef)) (p : ApplyProgress S),
      applyVersions db commits fuel kvOps p
        = some ⟨((applySequence kvOps).map (fun vm => vm.2)).foldl (applyMutation db) p.store,
            p.attempts + (applySequence kvOps).length,
            p.count + (applySequence kvOps).length⟩ := by
  intro kvOps
  induction kvOps with
  | nil => intro p; rfl
  | cons it rest ih =>
    intro p
    simp only [applyVersions, applyVersionOps_commits db commits hc fuel hf, ih, applySequence,
      List.map_append, List.map_map, List.foldl_append, List.length_append, List.length_map]
    have hid : (List.map ((fun vm : Version × MutationRef => vm.2) ∘ fun m => (it.1, m)) it.2)
        = it.2 := by
      simp [Function.comp_def]
    rw [hid]
    simp only [Option.some.injEq, ApplyProgress.mk.injEq, true_and]
    constructor <;> omega

theorem applySequence_versions (kvOps : List (Version × List MutationRef)) :
    ∀ vm ∈ applySequence kvOps, ∃ it ∈ kvOps, it.1 = vm.1 ∧ vm.2 ∈ it.2 := by
  induction kvOps with
  | nil => intro vm h; simp [applySequence] at h
  | cons it rest ih =>
    intro vm h
    simp only [applySequence, List.mem_append, List.mem_map] at h
    rcases h with ⟨m, hm, rfl⟩ | h
    · exact ⟨it, List.mem_cons_self _ _, rfl, hm⟩
    · obtain ⟨it2, h2, h3⟩ := ih vm h
      exact ⟨it2, List.mem_cons_of_mem _ h2, h3⟩

/-- With the versions of `kvOps` in ascending order, the apply sequence is in
ascending commit-version order. -/
theorem applySequence_sorted (kvOps : List (Version × List MutationRef))
    (hs : kvOps.Pairwise (fun a b => a.1 < b.1)) :
    (applySequence kvOps).Pairwise (fun a b => a.1 ≤ b.1) := by
  induction kvOps with
  | nil => simp [applySequence]
  | cons it rest ih =>
    rw [List.pairwise_cons] at hs
    simp only [applySequence]
    rw [List.pairwise_append]
    refine ⟨?_, ih hs.2, ?_⟩
    · rw [List.pairwise_map]
      exact List.pairwise_of_forall (fun _ _ => le_refl _)
    · intro a ha b hb
      obtain ⟨m, _, rfl⟩ := List.mem_map.1 ha
      obtain ⟨it2, h2, h3, _⟩ := applySequence_versions rest b hb
      rw [← h3]
      exact le_of_lt (hs.1 it2 h2)

/-- Within one version the apply sequence is the buffer of that version. -/
theorem applySequence_filter (kvOps : List (Version × List MutationRef))
    (hs : kvOps.Pairwise (fun a b => a.1 < b.1)) (v : Version) :
    ((applySequence kvOps).filter (fun vm => decide (vm.1 = v))).map (fun vm => vm.2)
      = kvOpsAt kvOps v := by
  induction kvOps with
  | nil => simp [applySequence, kvOpsAt, StdMap.find]
  | cons it rest ih =>
    rw [List.pairwise_cons] at hs
    simp only [applySequence, List.filter_append, List.map_append, ih hs.2]
    by_cases h : it.1 = v
    · have h1 : (it.2.map (fun m => (it.1, m))).filter (fun vm => decide (vm.1 = v))
          = it.2.map (fun m => (it.1, m)) := by
        rw [List.filter_eq_self]
        intro a ha
        obtain ⟨m, _, rfl⟩ := List.mem_map.1 ha
        simp [h]
      have h2 : kvOpsAt rest v = [] := by
        unfold kvOpsAt
        have : StdMap.find rest v = none := by
          cases hfind : StdMap.find rest v with
          | none => rfl
          | some x =>
            have hc : StdMap.contains rest v = true := by
              rw [StdMap.contains_eq_isSome, hfind]; rfl
            simp only [StdMap.contains, List.any_eq_true, decide_eq_true_eq] at hc
            obtain ⟨e, he, hev⟩ := hc
            have hlt := hs.1 e he
            rw [hev, ← h] at hlt
            exact absurd hlt (lt_irrefl _)
        rw [this]; rfl
      rw [h1, h2]
      simp [kvOpsAt, StdMap.find, h, Function.comp_def]
    · have h1 : (it.2.map (fun m => (it.1, m))).filter (fun vm => decide (vm.1 = v)) = [] := by
        rw [List.filter_eq_nil_iff]
        intro a ha
        obtain ⟨m, _, rfl⟩ := List.mem_map.1 ha
        simp [h]
      rw [h1]
      simp [kvOpsAt, StdMap.find, h]

/-! ## Facts about the buffers of `kvOps` -/

theorem kvOpsAt_kvOpsEnsure (kvOps : List (Version × List MutationRef)) (version v : Version) :
    kvOpsAt (kvOpsEnsure kvOps version) v = kvOpsAt kvOps v := by
  unfold kvOpsEnsure kvOpsAt
  by_cases hc : StdMap.contains kvOps version = true
  · rw [if_pos hc]
  · rw [if_neg hc]
    have hnone : StdMap.find kvOps version = none := by
      rw [StdMap.contains_eq_isSome] at hc
      simpa using hc
    unfold StdMap.insert
    rw [if_neg hc]
    by_cases hv : v = version
    · subst hv
      rw [StdMap.find_insertSorted_self _ _ _ _ hnone, hnone]
      rfl
    · rw [StdMap.find_insertSorted_other _ _ _ _ _ hv]

theorem contains_kvOpsEnsure (kvOps : List (Version × List MutationRef)) (version : Version) :
    StdMap.contains (kvOpsEnsure kvOps version) version = true := by
  unfold kvOpsEnsure
  by_cases hc : StdMap.contains kvOps version = true
  · rw [if_pos hc]; exact hc
  · rw [if_neg hc]
    have hnone : StdMap.find kvOps version = none := by
      rw [StdMap.contains_eq_isSome] at hc
      simpa using hc
    unfold StdMap.insert
    rw [if_neg hc, StdMap.contains_eq_isSome, StdMap.find_insertSorted_self _ _ _ _ hnone]
    rfl

theorem kvOpsEnsure_of_contains (kvOps : List (Version × List MutationRef)) (version : Version)
    (h : StdMap.contains kvOps version = true) : kvOpsEnsure kvOps version = kvOps := by
  unfold kvOpsEnsure
  rw [if_pos h]

theorem kvOpsAt_kvOpsPush_self (kvOps : List (Version × List MutationRef)) (version : Version)
    (m : MutationRef) :
    kvOpsAt (kvOpsPush kvOps version m) version = kvOpsAt kvOps version ++ [m] := by
  have hc := contains_kvOpsEnsure kvOps version
  rw [StdMap.contains_eq_isSome] at hc
  obtain ⟨ops, hops⟩ := Option.isSome_iff_exists.1 hc
  have h1 : kvOpsAt (kvOpsEnsure kvOps version) version = ops := by
    unfold kvOpsAt; rw [hops]; rfl
  rw [kvOpsAt_kvOpsEnsure] at h1
  rw [h1]
  unfold kvOpsPush kvOpsAt
  rw [StdMap.find_modify_self, hops]
  rfl

theorem kvOpsAt_kvOpsPush_other (kvOps : List (Version × List MutationRef)) (version v : Version)
    (m : MutationRef) (hv : v ≠ version) :
    kvOpsAt (kvOpsPush kvOps version m) v = kvOpsAt kvOps v := by
  rw [← kvOpsAt_kvOpsEnsure kvOps version v]
  unfold kvOpsPush kvOpsAt
  rw [StdMap.find_modify_other _ _ _ _ hv]

theorem kvOpsAt_foldl_kvOpsPush_self (version : Version) (ms : List MutationRef) :
    ∀ kvOps : List (Version × List MutationRef),
      kvOpsAt (ms.foldl (fun kv m => kvOpsPush kv version m) kvOps) version
        = kvOpsAt kvOps version ++ ms := by
  induction ms with
  | nil => intro kvOps; simp
  | cons m ms ih =>
    intro kvOps
    rw [List.foldl_cons, ih, kvOpsAt_kvOpsPush_self, List.append_assoc]
    rfl

theorem kvOpsAt_foldl_kvOpsPush_other (version v : Version) (hv : v ≠ version)
    (ms : List MutationRef) :
    ∀ kvOps : List (Version × List MutationRef),
      kvOpsAt (ms.foldl (fun kv m => kvOpsPush kv version m) kvOps) v = kvOpsAt kvOps v := by
  induction ms with
  | nil => intro kvOps; rfl
  | cons m ms ih =>
    intro kvOps
    rw [List.foldl_cons, ih, kvOpsAt_kvOpsPush_other _ _ _ _ hv]

/-! ## Facts about `parseSerializedMutation` -/

theorem putLE64_length (n : Nat) : (putLE64 n).length = 8 := rfl

theorem le32_putLE64 (n : Nat) (h : n < 2 ^ 64) : StringRefReader.le32 (putLE64 n) = n := by
  simp only [StringRefReader.le32, putLE64, putLE32, byteOfNat, List.foldr_cons, List.foldr_nil,
    List.cons_append, List.nil_append]
  omega

theorem consumeUInt32_putLE32 (n : Nat) (h : n < 2 ^ 32) (t : Bytes) (e : Error) :
    (StringRefReader.mk (putLE32 n ++ t) e).consumeUInt32 = .ok (n, ⟨t, e⟩) := by
  have hc := consume_append (putLE32 n) t e
  rw [putLE32_length] at hc
  simp only [StringRefReader.consumeUInt32, hc, le32_putLE32 n h]

theorem consumeUInt64_putLE64 (n : Nat) (h : n < 2 ^ 64) (t : Bytes) (e : Error) :
    (StringRefReader.mk (putLE64 n ++ t) e).consumeUInt64 = .ok (n, ⟨t, e⟩) := by
  have hc := consume_append (putLE64 n) t e
  rw [putLE64_length] at hc
  simp only [StringRefReader.consumeUInt64, hc, le32_putLE64 n h]

theorem putMutations_length_ge (ms : List MutationRef) : ms.length ≤ (putMutations ms).length := by
  induction ms with
  | nil => simp [putMutations]
  | cons m ms ih =>
    simp only [putMutations, putMutation, List.length_append, List.length_cons, putLE32_length]
    omega

/-- The loop over a record of well-formed mutations appends them in order and
throws nothing. -/
theorem parseSerializedMutationLoop_putMutations (commitVersion : Version) (e : Error) :
    ∀ (ms : List MutationRef) (fuel : Nat) (kvOps : List (Version × List MutationRef)),
      (∀ m ∈ ms, m.WellFormed) → ms.length < fuel →
      parseSerializedMutationLoop commitVersion fuel ⟨putMutations ms, e⟩ kvOps
        = some ⟨ms.foldl (fun kv m => kvOpsPush kv commitVersion m) kvOps, none⟩ := by
  intro ms
  induction ms with
  | nil =>
    intro fuel kvOps _ hf
    cases fuel with
    | zero => omega
    | succ fuel => simp [parseSerializedMutationLoop, putMutations, StringRefReader.eof]
  | cons m ms ih =>
    intro fuel kvOps hwf hf
    cases fuel with
    | zero => simp at hf
    | succ fuel =>
      obtain ⟨ht, hk, hv⟩ := hwf m (List.mem_cons_self _ _)
      have hrest : ∀ m2 ∈ ms, m2.WellFormed := fun m2 h2 => hwf m2 (List.mem_cons_of_mem _ h2)
      have hf2 : ms.length < fuel := by simpa using hf
      have heof : (StringRefReader.mk (putMutations (m :: ms)) e).eof = false := by
        simp [StringRefReader.eof, putMutations, putMutation, putLE32]
      have hshape : putMutations (m :: ms)
          = putLE32 m.type ++ (putLE32 m.param1.length ++ (putLE32 m.param2.length
              ++ (m.param1 ++ (m.param2 ++ putMutations ms)))) := by
        simp only [putMutations, putMutation, List.append_assoc]
      have ht32 : m.type < 2 ^ 32 := by omega
      have hcast : MutationRef.castType m.type = m.type := Nat.mod_eq_of_lt ht
      unfold parseSerializedMutationLoop
      rw [heof, hshape]
      simp only [Bool.false_eq_true, if_false, consumeUInt32_putLE32 _ ht32,
        consumeUInt32_putLE32 _ hk, consumeUInt32_putLE32 _ hv, consume_append, hcast]
      rw [ih fuel _ hrest hf2]
      rfl

/-- One record of well-formed mutations, parsed without a length mismatch or
outside sampling: the mutations are appended under the commit version of the
map key, and nothing is thrown. -/
theorem parseSerializedMutation_record (ms : List MutationRef) (includedVersion totalLen : Nat)
    (commitVersion : Nat) (kvOps : List (Version × List MutationRef)) (isSampling : Bool)
    (hwf : ∀ m ∈ ms, m.WellFormed) (hinc : includedVersion < 2 ^ 64)
    (hcv : commitVersion < 2 ^ 63) (htot : totalLen < 2 ^ 32)
    (hmode : totalLen = (putMutations ms).length ∨ isSampling = false) :
    parseSerializedMutation
        [(putLE64 commitVersion, putMutationGroup includedVersion totalLen ms)] kvOps isSampling
      = some ⟨ms.foldl (fun kv m => kvOpsPush kv (commitVersion : Int) m)
          (kvOpsEnsure kvOps (commitVersion : Int)), none⟩ := by
  have hkey := consumeUInt64_putLE64 commitVersion (by omega) [] Error.restore_corrupted_data
  rw [List.append_nil] at hkey
  have hver : asInt64 commitVersion = (commitVersion : Int) := by
    unfold asInt64; rw [if_pos hcv]
  have hlen : (putMutationGroup includedVersion totalLen ms).length - 12
      = (putMutations ms).length := by
    simp only [putMutationGroup, List.length_append, putLE64_length, putLE32_length]
    omega
  have hcond : ¬ (totalLen ≠ (putMutationGroup includedVersion totalLen ms).length - 12
      ∧ isSampling = true) := by
    rw [hlen]
    rintro ⟨h1, h2⟩
    rcases hmode with h | h
    · exact h1 h
    · rw [h] at h2; cases h2
  have hfuel : ms.length < (putMutationGroup includedVersion totalLen ms).length + 1 := by
    have := putMutations_length_ge ms
    simp only [putMutationGroup, List.length_append, putLE64_length, putLE32_length]
    omega
  have hloop := parseSerializedMutationLoop_putMutations (commitVersion : Int)
    Error.restore_corrupted_data ms _ (kvOpsEnsure kvOps (commitVersion : Int)) hwf hfuel
  unfold parseSerializedMutation parseSerializedMutationEntries
  simp only [hkey, hver]
  have hval : putMutationGroup includedVersion totalLen ms
      = putLE64 includedVersion ++ (putLE32 totalLen ++ putMutations ms) := by
    simp only [putMutationGroup, List.append_assoc]
  rw [hval] at hcond hloop ⊢
  simp only [consumeUInt64_putLE64 _ hinc, consumeUInt32_putLE32 _ htot]
  rw [if_neg hcond, hloop]
  rfl

/-! ## Facts about the order of keys -/

theorem keyLt_of_not_lt_of_lt : ∀ (a b c : Bytes), keyLt b a = false → keyLt b c = true →
    keyLt a c = true := by
  intro a
  induction a with
  | nil =>
    intro b c _ h2
    cases c with
    | nil => cases b <;> simp [keyLt] at h2
    | cons z cs => rfl
  | cons x as ih =>
    intro b c h1 h2
    cases b with
    | nil => simp [keyLt] at h1
    | cons y bs =>
      cases c with
      | nil => simp [keyLt] at h2
      | cons z cs =>
        simp only [keyLt] at h1 h2 ⊢
        rcases lt_trichotomy y x with hyx | hyx | hyx
        · rw [if_pos hyx] at h1; cases h1
        · subst hyx
          rw [if_neg (lt_irrefl _), if_neg (lt_irrefl _)] at h1
          rcases lt_trichotomy y z with hyz | hyz | hyz
          · rw [if_pos hyz]
          · subst hyz
            rw [if_neg (lt_irrefl _), if_neg (lt_irrefl _)] at h2 ⊢
            exact ih _ _ h1 h2
          · rw [if_neg (lt_asymm hyz), if_pos hyz] at h2; cases h2
        · have hxz : x < z := by
            rcases lt_trichotomy y z with hyz | hyz | hyz
            · exact lt_trans hyx hyz
            · rw [← hyz]; exact hyx
            · rw [if_neg (lt_asymm hyz), if_pos hyz] at h2; cases h2
          rw [if_pos hxz]

theorem keyLt_false_trans : ∀ (a b c : Bytes), keyLt b a = false → keyLt c b = false →
    keyLt c a = false := by
  intro a
  induction a with
  | nil =>
    intro b c _ _
    cases c <;> rfl
  | cons x as ih =>
    intro b c h1 h2
    cases b with
    | nil => simp [keyLt] at h1
    | cons y bs =>
      cases c with
      | nil => simp [keyLt] at h2
      | cons z cs =>
        simp only [keyLt] at h1 h2 ⊢
        rcases lt_trichotomy y x with hyx | hyx | hyx
        · rw [if_pos hyx] at h1; cases h1
        · subst hyx
          rw [if_neg (lt_irrefl _), if_neg (lt_irrefl _)] at h1
          rcases lt_trichotomy z y with hzy | hzy | hzy
          · rw [if_pos hzy] at h2; cases h2
          · subst hzy
            rw [if_neg (lt_irrefl _), if_neg (lt_irrefl _)] at h2 ⊢
            exact ih _ _ h1 h2
          · rw [if_neg (lt_asymm hzy), if_pos hzy]
        · have hxz : x < z := by
            rcases lt_trichotomy z y with hzy | hzy | hzy
            · rw [if_pos hzy] at h2; cases h2
            · rw [hzy]; exact hyx
            · exact lt_trans hyx hzy
          rw [if_neg (lt_asymm hxz), if_pos hxz]

theorem keyLe_lt_trans (a b c : Bytes) (h1 : keyLe a b = true) (h2 : keyLt b c = true) :
    keyLt a c = true :=
  keyLt_of_not_lt_of_lt a b c (by simpa [keyLe] using h1) h2

theorem keyLe_trans (a b c : Bytes) (h1 : keyLe a b = true) (h2 : keyLe b c = true) :
    keyLe a c = true := by
  have := keyLt_false_trans a b c (by simpa [keyLe] using h1) (by simpa [keyLe] using h2)
  simp [keyLe, this]

/-! ## Facts about `_parseRangeFileToMutationsOnLoader` -/

/-- In a sorted list whose keys are not below the begin of `restoreRange`,
dropping the trailing entries outside the range leaves the entries inside. -/
theorem rdropWhile_outside_eq_filter (restoreRange : KeyRangeRef) :
    ∀ data : List KeyValueRef,
      data.Pairwise (fun a b => keyLe a.key b.key = true) →
      (∀ d ∈ data, keyLe restoreRange.beginKey d.key = true) →
      (data.reverse.dropWhile (fun kv => !restoreRange.contains kv.key)).reverse
        = data.filter (fun kv => restoreRange.contains kv.key) := by
  intro data
  induction data using List.reverseRecOn with
  | nil => intro _ _; rfl
  | append_singleton l y ih =>
    intro hs hlo
    rw [List.pairwise_append] at hs
    obtain ⟨hsl, _, hly⟩ := hs
    have hlol : ∀ d ∈ l, keyLe restoreRange.beginKey d.key = true :=
      fun d hd => hlo d (List.mem_append_left _ hd)
    by_cases hy : restoreRange.contains y.key = true
    · have hall : ∀ d ∈ l, restoreRange.contains d.key = true := by
        intro d hd
        have hdy : keyLe d.key y.key = true := hly d hd y (List.mem_singleton_self y)
        have hyhi : keyLt y.key restoreRange.endKey = true := by
          simp only [KeyRangeRef.contains, Bool.and_eq_true] at hy
          exact hy.2
        simp only [KeyRangeRef.contains, Bool.and_eq_true]
        exact ⟨hlol d hd, keyLe_lt_trans _ _ _ hdy hyhi⟩
      rw [List.reverse_append, List.reverse_singleton, List.singleton_append,
        List.dropWhile_cons_of_neg (by simp [hy]), List.reverse_cons, List.reverse_reverse,
        List.filter_append, List.filter_eq_self.2 hall]
      simp [List.filter, hy]
    · rw [List.reverse_append, List.reverse_singleton, List.singleton_append,
        List.dropWhile_cons_of_pos (by simp [hy]), ih hsl hlol, List.filter_append]
      simp [List.filter, hy]

/-- On a block sorted by key, the two sliding loops leave exactly the entries
whose key is in `restoreRange`. -/
theorem slideRange_eq_filter (restoreRange : KeyRangeRef) :
    ∀ data : List KeyValueRef,
      data.Pairwise (fun a b => keyLe a.key b.key = true) →
      slideRange restoreRange data = data.filter (fun kv => restoreRange.contains kv.key) := by
  intro data
  induction data with
  | nil => intro _; rfl
  | cons x t ih =>
    intro hs
    rw [List.pairwise_cons] at hs
    obtain ⟨hxt, hst⟩ := hs
    by_cases hx : restoreRange.contains x.key = true
    · have hlo : ∀ d ∈ x :: t, keyLe restoreRange.beginKey d.key = true := by
        have hx1 : keyLe restoreRange.beginKey x.key = true := by
          simp only [KeyRangeRef.contains, Bool.and_eq_true] at hx
          exact hx.1
        intro d hd
        rcases List.mem_cons.1 hd with h | h
        · rw [h]; exact hx1
        · exact keyLe_trans _ _ _ hx1 (hxt d h)
      unfold slideRange
      rw [List.dropWhile_cons_of_neg (by simp [hx])]
      exact rdropWhile_outside_eq_filter restoreRange (x :: t) (List.pairwise_cons.2 ⟨hxt, hst⟩) hlo
    · have h := ih hst
      unfold slideRange at h ⊢
      rw [List.dropWhile_cons_of_pos (by simp [hx]), h]
      simp [List.filter, hx]

theorem takeTransaction_append (dataSizeLimit : Int) :
    ∀ (rest : List KeyValueRef) (txBytes : Int),
      (takeTransaction dataSizeLimit rest txBytes).1 ++ (takeTransaction dataSizeLimit rest txBytes).2
        = rest := by
  intro rest
  induction rest with
  | nil => intro _; rfl
  | cons kv rest ih =>
    intro txBytes
    unfold takeTransaction
    split_ifs with h
    · simp only [List.cons_append, ih]
    · rfl

theorem takeTransaction_length_le (dataSizeLimit : Int) (rest : List KeyValueRef) (txBytes : Int) :
    (takeTransaction dataSizeLimit rest txBytes).2.length ≤ rest.length := by
  have h := congrArg List.length (takeTransaction_append dataSizeLimit rest txBytes)
  rw [List.length_append] at h
  omega

theorem takeTransaction_progress (dataSizeLimit : Int) (kv : KeyValueRef)
    (rest : List KeyValueRef) (txBytes : Int) (h : txBytes < dataSizeLimit) :
    (takeTransaction dataSizeLimit (kv :: rest) txBytes).2.length < (kv :: rest).length := by
  unfold takeTransaction
  rw [if_pos h]
  have := takeTransaction_length_le dataSizeLimit rest (txBytes + kv.key.length + kv.value.length)
  simp only [List.length_cons]
  omega

/-- With a positive size limit the final loop returns, having appended every
entry of `data` in order. -/
theorem parseRangeFileLoop_done (version : Version) (dataSizeLimit : Int)
    (hlimit : 0 < dataSizeLimit) :
    ∀ (fuel : Nat) (rest : List KeyValueRef) (kvOps : List (Version × List MutationRef)),
      rest.length < fuel →
      parseRangeFileLoop version dataSizeLimit fuel rest kvOps
        = .done (rest.foldl (pushSetValue version) kvOps) := by
  intro fuel
  induction fuel with
  | zero => intro rest kvOps h; omega
  | succ fuel ih =>
    intro rest kvOps hf
    have happ := takeTransaction_append dataSizeLimit rest 0
    unfold parseRangeFileLoop
    simp only
    by_cases hemp : (takeTransaction dataSizeLimit rest 0).2.isEmpty = true
    · rw [if_pos hemp]
      have h2 : (takeTransaction dataSizeLimit rest 0).2 = [] := List.isEmpty_iff.1 hemp
      rw [h2, List.append_nil] at happ
      rw [happ]
    · rw [if_neg hemp]
      have hlt : (takeTransaction dataSizeLimit rest 0).2.length < fuel := by
        cases rest with
        | nil => exact absurd rfl hemp
        | cons kv rest =>
          have := takeTransaction_progress dataSizeLimit kv rest 0 hlimit
          simp only [List.length_cons] at this hf
          omega
      rw [ih _ _ hlt, ← List.foldl_append, happ]

theorem kvOpsAt_foldl_pushSetValue_self (version : Version) (data : List KeyValueRef) :
    ∀ kvOps : List (Version × List MutationRef),
      kvOpsAt (data.foldl (pushSetValue version) kvOps) version
        = kvOpsAt kvOps version
          ++ data.map (fun kv => MutationRef.mk MutationRef.SetValue kv.key kv.value) := by
  induction data with
  | nil => intro kvOps; simp
  | cons kv data ih =>
    intro kvOps
    rw [List.foldl_cons, ih]
    unfold pushSetValue
    rw [kvOpsAt_kvOpsPush_self, kvOpsAt_kvOpsEnsure, List.append_assoc]
    rfl

theorem kvOpsAt_foldl_pushSetValue_other (version v : Version) (hv : v ≠ version)
    (data : List KeyValueRef) :
    ∀ kvOps : List (Version × List MutationRef),
      kvOpsAt (data.foldl (pushSetValue version) kvOps) v = kvOpsAt kvOps v := by
  induction data with
  | nil => intro kvOps; rfl
  | cons kv data ih =>
    intro kvOps
    rw [List.foldl_cons, ih]
    unfold pushSetValue
    rw [kvOpsAt_kvOpsPush_other _ _ _ _ hv, kvOpsAt_kvOpsEnsure]

/-! ## Facts about `concatenateBackupMutationForLogFile` -/

theorem netU64_length (n : Nat) : (netU64 n).length = 8 := rfl

theorem be32_netU64 (n : Nat) (h : n < 2 ^ 64) : StringRefReader.be32 (netU64 n) = n := by
  simp only [StringRefReader.be32, netU64, netU32, byteOfNat, List.foldl_cons, List.foldl_nil,
    List.cons_append, List.nil_append]
  omega

theorem consumeNetworkUInt64_netU64 (n : Nat) (h : n < 2 ^ 64) (t : Bytes) (e : Error) :
    (StringRefReader.mk (netU64 n ++ t) e).consumeNetworkUInt64 = .ok (n, ⟨t, e⟩) := by
  have hc := consume_append (netU64 n) t e
  rw [netU64_length] at hc
  simp only [StringRefReader.consumeNetworkUInt64, hc, be32_netU64 n h]

theorem logKey_length (first : Bytes) (hashValue : Byte) (commitVersion part : Nat) :
    (logKey first hashValue commitVersion part).length = first.length + 13 := by
  simp only [logKey, List.length_append, List.length_cons, List.length_nil, netU64_length,
    netU32_length]

/-- One call on a well-formed log key: no error; the value is appended to the
entry of the commit version when there is one, and a new entry is made
otherwise. -/
theorem concatenateBackupMutationForLogFile_logKey (rd : PendingLog) (val_input first : Bytes)
    (hashValue : Byte) (commitVersion part : Nat) (hcv : commitVersion < 2 ^ 64)
    (hpart : part < 2 ^ 32) :
    concatenateBackupMutationForLogFile rd val_input (logKey first hashValue commitVersion part)
      = if !StdMap.contains rd.mutationMap (putLE64 commitVersion) then
          some (.ok (false,
            ⟨StdMap.insert keyLt rd.mutationMap (putLE64 commitVersion) val_input,
              StdMap.insert keyLt rd.mutationPartMap (putLE64 commitVersion) part⟩))
        else
          some (.ok (true,
            ⟨StdMap.modify rd.mutationMap (putLE64 commitVersion) (fun val => val ++ val_input),
              setPart rd.mutationPartMap (putLE64 commitVersion) part⟩)) := by
  have hlen := logKey_length first hashValue commitVersion part
  have hpartStr : ((logKey first hashValue commitVersion part).drop
      ((logKey first hashValue commitVersion part).length - 4)).take 4 = netU32 part := by
    have h1 : logKey first hashValue commitVersion part
        = (first ++ ([hashValue] ++ netU64 commitVersion)) ++ netU32 part := by
      simp only [logKey, List.append_assoc]
    have h2 : (logKey first hashValue commitVersion part).length - 4
        = (first ++ ([hashValue] ++ netU64 commitVersion)).length := by
      rw [hlen]
      simp only [List.length_append, List.length_cons, List.length_nil, netU64_length]
      omega
    rw [h2, h1, List.drop_left]
    rfl
  have hpd := consumeNetworkUInt32_netU32 part hpart [] Error.restore_corrupted_data
  rw [List.append_nil] at hpd
  have hfirst : (if ((logKey first hashValue commitVersion part).length : Int) - 1 - 8 - 4 > 0 then
        (StringRefReader.mk (logKey first hashValue commitVersion part)
          Error.restore_corrupted_data).consume
          (((logKey first hashValue commitVersion part).length : Int) - 1 - 8 - 4).toNat
      else .ok ([], StringRefReader.mk (logKey first hashValue commitVersion part)
          Error.restore_corrupted_data))
      = .ok (first, ⟨[hashValue] ++ (netU64 commitVersion ++ netU32 part),
          Error.restore_corrupted_data⟩) := by
    have hn : (((logKey first hashValue commitVersion part).length : Int) - 1 - 8 - 4).toNat
        = first.length := by
      rw [hlen]; push_cast; omega
    by_cases h0 : first = []
    · subst h0
      rw [if_neg (by rw [hlen]; simp)]
      rfl
    · have hpos : 0 < first.length := List.length_pos.2 h0
      rw [if_pos (by rw [hlen]; push_cast; omega), hn]
      exact consume_append first _ Error.restore_corrupted_data
  have hhash := consume_append [hashValue] (netU64 commitVersion ++ netU32 part)
    Error.restore_corrupted_data
  have hcvr := consumeNetworkUInt64_netU64 commitVersion hcv (netU32 part)
    Error.restore_corrupted_data
  unfold concatenateBackupMutationForLogFile
  simp only
  rw [if_neg (by rw [hlen]; omega), hpartStr, hpd]
  simp only [hfirst]
  rw [show ([hashValue] : Bytes).length = 1 from rfl] at hhash
  simp only [hhash, hcvr, hpd]

/-- The later parts of a record, fed to a state that holds the entry of the
record alone: every call returns `true` and appends its value. -/
theorem concatenateAll_later_parts (first : Bytes) (hashValue : Byte) (commitVersion : Nat)
    (hcv : commitVersion < 2 ^ 64) :
    ∀ (rest : List Bytes) (part : Nat) (flags : List Bool) (acc : Bytes) (last : Nat),
      part + rest.length ≤ 2 ^ 32 →
      concatenateAll (logParts first hashValue commitVersion part rest)
          (flags, ⟨[(putLE64 commitVersion, acc)], [(putLE64 commitVersion, last)]⟩)
        = some (.ok (flags ++ List.replicate rest.length true,
            ⟨[(putLE64 commitVersion, acc ++ rest.flatten)],
              [(putLE64 commitVersion, if rest.length = 0 then last else part + rest.length - 1)]⟩)) := by
  intro rest
  induction rest with
  | nil =>
    intro part flags acc last _
    simp [logParts, concatenateAll]
  | cons P rest ih =>
    intro part flags acc last hb
    simp only [List.length_cons] at hb
    have hstep := concatenateBackupMutationForLogFile_logKey
      ⟨[(putLE64 commitVersion, acc)], [(putLE64 commitVersion, last)]⟩ P first hashValue
      commitVersion part hcv (by omega)
    have hc : StdMap.contains [(putLE64 commitVersion, acc)] (putLE64 commitVersion) = true := by
      simp [StdMap.contains]
    have hc2 : StdMap.contains [(putLE64 commitVersion, last)] (putLE64 commitVersion) = true := by
      simp [StdMap.contains]
    simp only [hc, Bool.not_true, Bool.false_eq_true, if_false, setPart, hc2, if_true,
      StdMap.modify] at hstep
    simp only [logParts, concatenateAll, hstep]
    rw [ih (part + 1) (flags ++ [true]) (acc ++ P) part (by omega)]
    simp only [List.length_cons, List.replicate_succ, List.append_assoc, List.singleton_append,
      List.flatten_cons, Nat.succ_ne_zero, if_false]
    have hlast : (if rest.length = 0 then part else part + 1 + rest.length - 1)
        = part + (rest.length + 1) - 1 := by
      split <;> omega
    rw [hlast]

/-- One call on a well-formed log key, seen through the entry of the commit
version: the value is appended to the pending buffer of that version (an
absent buffer counts as empty), and the other entries stay as they are. -/
theorem concatenateBackupMutationForLogFile_find (rd : PendingLog) (val_input first : Bytes)
    (hashValue : Byte) (commitVersion part : Nat) (hcv : commitVersion < 2 ^ 64)
    (hpart : part < 2 ^ 32) :
    ∃ rd1, concatenateBackupMutationForLogFile rd val_input
          (logKey first hashValue commitVersion part)
        = some (.ok (StdMap.contains rd.mutationMap (putLE64 commitVersion), rd1))
      ∧ StdMap.find rd1.mutationMap (putLE64 commitVersion)
        = some ((StdMap.find rd.mutationMap (putLE64 commitVersion)).getD [] ++ val_input)
      ∧ ∀ id, id ≠ putLE64 commitVersion →
          StdMap.find rd1.mutationMap id = StdMap.find rd.mutationMap id := by
  have hstep := concatenateBackupMutationForLogFile_logKey rd val_input first hashValue
    commitVersion part hcv hpart
  by_cases hc : StdMap.contains rd.mutationMap (putLE64 commitVersion) = true
  · rw [hc] at hstep
    simp only [Bool.not_true, Bool.false_eq_true, if_false] at hstep
    refine ⟨_, by rw [hstep, hc], ?_, ?_⟩
    · rw [StdMap.contains_eq_isSome] at hc
      obtain ⟨old, hold⟩ := Option.isSome_iff_exists.1 hc
      simp only [StdMap.find_modify_self, hold, Option.map_some', Option.getD_some]
    · intro id hid
      exact StdMap.find_modify_other _ _ _ _ hid
  · have hc2 : StdMap.contains rd.mutationMap (putLE64 commitVersion) = false := by
      simpa using hc
    have hnone : StdMap.find rd.mutationMap (putLE64 commitVersion) = none := by
      rw [StdMap.contains_eq_isSome] at hc2
      simpa using hc2
    rw [hc2] at hstep
    simp only [Bool.not_false, if_true] at hstep
    refine ⟨_, by rw [hstep, hc2], ?_, ?_⟩
    · simp only [StdMap.insert, hc2, Bool.false_eq_true, if_false]
      rw [StdMap.find_insertSorted_self _ _ _ _ hnone, hnone]
      rfl
    · intro id hid
      simp only [StdMap.insert, hc2, Bool.false_eq_true, if_false]
      exact StdMap.find_insertSorted_other _ _ _ _ _ hid

/-! ## Facts about `parseSerializedMutation` on several records -/

/-- A well-formed record at the head of `mutationMap`: its mutations are
appended under its commit version, and the loop goes on with the next record. -/
theorem parseSerializedMutationEntries_wellFormed (isSampling : Bool)
    (commitVersion includedVersion : Nat) (ms : List MutationRef)
    (rest : List (Bytes × Bytes)) (kvOps : List (Version × List MutationRef))
    (hv : (LogRecord.wellFormed commitVersion includedVersion ms).Valid) :
    parseSerializedMutationEntries isSampling
        ((LogRecord.wellFormed commitVersion includedVersion ms).entry :: rest) kvOps
      = parseSerializedMutationEntries isSampling rest
          (ms.foldl (fun kv m => kvOpsPush kv (commitVersion : Int) m)
            (kvOpsEnsure kvOps (commitVersion : Int))) := by
  obtain ⟨hcv, hinc, htot, hwf⟩ := hv
  have hkey := consumeUInt64_putLE64 commitVersion (by omega) [] Error.restore_corrupted_data
  rw [List.append_nil] at hkey
  have hver : asInt64 commitVersion = (commitVersion : Int) := by
    unfold asInt64; rw [if_pos hcv]
  have hval : putMutationGroup includedVersion (putMutations ms).length ms
      = putLE64 includedVersion ++ (putLE32 (putMutations ms).length ++ putMutations ms) := by
    simp only [putMutationGroup, List.append_assoc]
  have hlen : (putLE64 includedVersion
      ++ (putLE32 (putMutations ms).length ++ putMutations ms)).length - 12
      = (putMutations ms).length := by
    simp only [List.length_append, putLE64_length, putLE32_length]
    omega
  have hcond : ¬ ((putMutations ms).length ≠ (putLE64 includedVersion
      ++ (putLE32 (putMutations ms).length ++ putMutations ms)).length - 12
      ∧ isSampling = true) := by
    rw [hlen]
    exact fun h => h.1 rfl
  have hfuel : ms.length < (putLE64 includedVersion
      ++ (putLE32 (putMutations ms).length ++ putMutations ms)).length + 1 := by
    have := putMutations_length_ge ms
    simp only [List.length_append, putLE64_length, putLE32_length]
    omega
  have hloop := parseSerializedMutationLoop_putMutations (commitVersion : Int)
    Error.restore_corrupted_data ms _ (kvOpsEnsure kvOps (commitVersion : Int)) hwf hfuel
  simp only [LogRecord.entry, hval]
  rw [parseSerializedMutationEntries]
  simp only [hkey, hver, consumeUInt64_putLE64 _ hinc, consumeUInt32_putLE32 _ htot]
  rw [if_neg hcond, hloop]

/-- A record with a length mismatch at the head of `mutationMap`, in sampling
mode: nothing is appended, and the loop goes on with the next record. -/
theorem parseSerializedMutationEntries_mismatched (commitVersion includedVersion totalLen : Nat)
    (body : Bytes) (rest : List (Bytes × Bytes)) (kvOps : List (Version × List MutationRef))
    (hv : (LogRecord.mismatched commitVersion includedVersion totalLen body).Valid) :
    parseSerializedMutationEntries true
        ((LogRecord.mismatched commitVersion includedVersion totalLen body).entry :: rest) kvOps
      = parseSerializedMutationEntries true rest (kvOpsEnsure kvOps (commitVersion : Int)) := by
  obtain ⟨hcv, hinc, htot, hne⟩ := hv
  have hkey := consumeUInt64_putLE64 commitVersion (by omega) [] Error.restore_corrupted_data
  rw [List.append_nil] at hkey
  have hver : asInt64 commitVersion = (commitVersion : Int) := by
    unfold asInt64; rw [if_pos hcv]
  have hlen : (putLE64 includedVersion ++ (putLE32 totalLen ++ body)).length - 12
      = body.length := by
    simp only [List.length_append, putLE64_length, putLE32_length]
    omega
  have hcond : totalLen ≠ (putLE64 includedVersion ++ (putLE32 totalLen ++ body)).length - 12
      ∧ True := by
    rw [hlen]
    exact ⟨hne, trivial⟩
  simp only [LogRecord.entry]
  rw [parseSerializedMutationEntries]
  simp only [hkey, hver, consumeUInt64_putLE64 _ hinc, consumeUInt32_putLE32 _ htot]
  rw [if_pos hcond]

/-! ## Facts about `buildForbiddenVersionRange` -/

namespace StdMap

variable {K V : Type} [DecidableEq K]

theorem mem_insertSorted (lt : K → K → Bool) (m : List (K × V)) (k : K) (v : V) (x : K × V) :
    x ∈ insertSorted lt m k v ↔ x = (k, v) ∨ x ∈ m := by
  induction m with
  | nil => simp [insertSorted]
  | cons e rest ih =>
    unfold insertSorted
    split_ifs with h
    · simp
    · simp only [List.mem_cons, ih]
      tauto

theorem find_insert (lt : K → K → Bool) (m : List (K × V)) (k k2 : K) (v : V) :
    find (insert lt m k v) k2
      = match find m k2 with
        | some old => some old
        | none => if k2 = k then some v else none := by
  unfold insert
  by_cases hc : contains m k = true
  · rw [if_pos hc]
    cases hf : find m k2 with
    | some old => rfl
    | none =>
      have hne : ¬ k2 = k := by
        intro h
        rw [contains_eq_isSome, ← h, hf] at hc
        cases hc
      simp only [hne, if_false]
  · rw [if_neg hc]
    have hnone : find m k = none := by
      rw [contains_eq_isSome] at hc
      simpa using hc
    by_cases h : k2 = k
    · subst h
      rw [find_insertSorted_self lt m k2 v hnone, hnone]
      simp
    · rw [find_insertSorted_other lt m k k2 v h]
      cases find m k2 <;> simp [h]

/-- An insertion keeps the entries of a map in step with `find`. -/
theorem mem_iff_find_insert (lt : K → K → Bool) (m : List (K × V)) (k : K) (v : V)
    (hm : ∀ k2 v2, (k2, v2) ∈ m ↔ find m k2 = some v2) :
    ∀ k2 v2, (k2, v2) ∈ insert lt m k v ↔ find (insert lt m k v) k2 = some v2 := by
  intro k2 v2
  rw [find_insert]
  unfold insert
  by_cases hc : contains m k = true
  · rw [if_pos hc, hm]
    cases hf : find m k2 with
    | some old => rfl
    | none =>
      have hne : ¬ k2 = k := by
        intro h
        rw [contains_eq_isSome, ← h, hf] at hc
        cases hc
      simp [hne]
  · rw [if_neg hc, mem_insertSorted, hm]
    have hnone : find m k = none := by
      rw [contains_eq_isSome] at hc
      simpa using hc
    by_cases h : k2 = k
    · subst h
      rw [hnone]
      simp only [Prod.mk.injEq, true_and, if_true, Option.some.injEq]
      constructor
      · rintro (h | h)
        · exact h.symm
        · cases h
      · intro h; exact Or.inl h.symm
    · cases hf : find m k2 with
      | some old => simp [h]
      | none => simp [h]

end StdMap

/-- The map built from `forbiddenVersions`: an old entry stays, and a begin
version without one gets the end version of the first log file that has it. -/
theorem buildForbiddenVersionRange_find (allFiles : List RestoreFile) :
    ∀ (forbiddenVersions : List (Version × Version)) (b : Version),
      StdMap.find (buildForbiddenVersionRange allFiles forbiddenVersions) b
        = match StdMap.find forbiddenVersions b with
          | some e => some e
          | none =>
            (allFiles.find? (fun f => !f.isRange && decide (f.beginVersion = b))).map
              (fun f => f.endVersion) := by
  induction allFiles with
  | nil =>
    intro fv b
    simp only [buildForbiddenVersionRange, List.foldl_nil, List.find?_nil, Option.map_none']
    cases StdMap.find fv b <;> rfl
  | cons f rest ih =>
    intro fv b
    have hstep : buildForbiddenVersionRange (f :: rest) fv
        = buildForbiddenVersionRange rest
            (if !f.isRange then
              StdMap.insert (fun a b => decide (a < b)) fv f.beginVersion f.endVersion
             else fv) := rfl
    rw [hstep, ih]
    by_cases hr : f.isRange = true
    · simp only [hr, Bool.not_true, Bool.false_eq_true, if_false, List.find?_cons, Bool.false_and]
    · have hr2 : f.isRange = false := by simpa using hr
      simp only [hr2, Bool.not_false, if_true, List.find?_cons, Bool.true_and]
      rw [StdMap.find_insert]
      cases hf : StdMap.find fv b with
      | some e => rfl
      | none =>
        by_cases hb : f.beginVersion = b
        · simp [hb]
        · have hb2 : ¬ b = f.beginVersion := fun h => hb h.symm
          simp [hb, hb2]

/-- The entries of the map built from a map in step with `find` are in step
with `find`. -/
theorem buildForbiddenVersionRange_mem (allFiles : List RestoreFile) :
    ∀ (forbiddenVersions : List (Version × Version)),
      (∀ b e, (b, e) ∈ forbiddenVersions ↔ StdMap.find forbiddenVersions b = some e) →
      ∀ b e, (b, e) ∈ buildForbiddenVersionRange allFiles forbiddenVersions
        ↔ StdMap.find (buildForbiddenVersionRange allFiles forbiddenVersions) b = some e := by
  induction allFiles with
  | nil => intro fv hfv; exact hfv
  | cons f rest ih =>
    intro fv hfv
    have hstep : buildForbiddenVersionRange (f :: rest) fv
        = buildForbiddenVersionRange rest
            (if !f.isRange then
              StdMap.insert (fun a b => decide (a < b)) fv f.beginVersion f.endVersion
             else fv) := rfl
    rw [hstep]
    apply ih
    by_cases hr : (!f.isRange) = true
    · rw [if_pos hr]
      exact StdMap.mem_iff_find_insert _ fv _ _ hfv
    · rw [if_neg hr]
      exact hfv

/-! ## Facts about the partition of the files into version batches -/

theorem BatchChain_append (allFiles : List RestoreFile) (B : VersionBatch) :
    ∀ (batches : List VersionBatch) (s : Nat),
      BatchChain allFiles s batches B.beginIndex → B.beginIndex ≤ B.endIndex →
      B.beginIndex < allFiles.length →
      B.files = (allFiles.drop B.beginIndex).take (B.endIndex + 1 - B.beginIndex) →
      BatchChain allFiles s (batches ++ [B]) (B.endIndex + 1) := by
  intro batches
  induction batches with
  | nil =>
    intro s hs hle hlt hfiles
    simp only [BatchChain] at hs
    subst hs
    exact ⟨rfl, hle, hlt, hfiles, rfl⟩
  | cons A rest ih =>
    intro s hs hle hlt hfiles
    obtain ⟨h1, h2, h3, h4, h5⟩ := hs
    exact ⟨h1, h2, h3, h4, ih _ h5 hle hlt hfiles⟩

theorem BatchChain_flatten (allFiles : List RestoreFile) :
    ∀ (batches : List VersionBatch) (s t : Nat), BatchChain allFiles s batches t →
      s ≤ t ∧ (batches.map (fun B => B.files)).flatten = (allFiles.drop s).take (t - s) := by
  intro batches
  induction batches with
  | nil =>
    intro s t h
    simp only [BatchChain] at h
    subst h
    simp
  | cons B rest ih =>
    intro s t h
    obtain ⟨_, h2, _, h4, h5⟩ := h
    obtain ⟨hle, hflat⟩ := ih _ _ h5
    refine ⟨by omega, ?_⟩
    rw [List.map_cons, List.flatten_cons, hflat, h4]
    have ht : t - s = (B.endIndex + 1 - s) + (t - (B.endIndex + 1)) := by omega
    rw [ht, List.take_add, List.drop_drop]
    congr 3
    omega

theorem sum_nonneg_le_zero : ∀ (sizes : List Int), (∀ x ∈ sizes, 0 ≤ x) → sizes.sum ≤ 0 →
    ∀ x ∈ sizes, x = 0 := by
  intro sizes
  induction sizes with
  | nil => intro _ _ x hx; cases hx
  | cons a rest ih =>
    intro hnn hsum x hx
    have ha : 0 ≤ a := hnn a (List.mem_cons_self _ _)
    have hrest : ∀ y ∈ rest, 0 ≤ y := fun y hy => hnn y (List.mem_cons_of_mem _ hy)
    have hrs : 0 ≤ rest.sum := List.sum_nonneg hrest
    rw [List.sum_cons] at hsum
    rcases List.mem_cons.1 hx with h | h
    · omega
    · exact ih hrest (by omega) x h

/-- One step of the batching loop keeps the partition invariant, and a stop
leaves a partition: the batches are consecutive ranges up to a position from
which on every file is empty. -/
theorem versionBatchStep_partition (allFiles : List RestoreFile)
    (forbiddenVersions : List (Version × Version)) (threshold : Int) (st : BatchLoop)
    (hnn : ∀ f ∈ allFiles, 0 ≤ f.fileSize) (hinv : PartitionInv allFiles st) :
    (∀ batches, versionBatchStep allFiles forbiddenVersions threshold st = .stop batches →
        ∃ t, BatchChain allFiles 0 batches t ∧ ∀ f ∈ allFiles.drop t, f.fileSize = 0)
    ∧ (∀ st1, versionBatchStep allFiles forbiddenVersions threshold st = .next st1 →
        PartitionInv allFiles st1) := by
  obtain ⟨hbe, hcur, hchain⟩ := hinv
  have hform : ∀ (w : Int) (v : Bool), st.curBackupFilesBeginIndex < allFiles.length →
      PartitionInv allFiles
        { curBackupFilesBeginIndex := st.curBackupFilesEndIndex + 1,
          curBackupFilesEndIndex := st.curBackupFilesEndIndex + 1,
          curWorkloadSize := 0,
          validVersion := v,
          batches := st.batches ++
            [⟨st.curBackupFilesBeginIndex, st.curBackupFilesEndIndex,
              (allFiles.drop st.curBackupFilesBeginIndex).take
                (st.curBackupFilesEndIndex + 1 - st.curBackupFilesBeginIndex), w⟩] } := by
    intro w v hb
    refine ⟨le_refl _, by simp [doubleSum], ?_⟩
    exact BatchChain_append allFiles
      ⟨st.curBackupFilesBeginIndex, st.curBackupFilesEndIndex,
        (allFiles.drop st.curBackupFilesBeginIndex).take
          (st.curBackupFilesEndIndex + 1 - st.curBackupFilesBeginIndex), w⟩
      st.batches 0 hchain hbe hb rfl
  by_cases hb : st.curBackupFilesBeginIndex < allFiles.length
  swap
  · have hstep := versionBatchStep_past_end allFiles forbiddenVersions threshold st (by omega)
    constructor
    · intro batches h
      rw [hstep] at h
      cases h
      refine ⟨_, hchain, ?_⟩
      rw [List.drop_of_length_le (by omega)]
      intro f hf
      cases hf
    · intro st1 h
      rw [hstep] at h
      cases h
  cases hf : allFiles.get? st.curBackupFilesEndIndex with
  | none =>
    have hen : allFiles.length ≤ st.curBackupFilesEndIndex := by
      rw [List.get?_eq_getElem?] at hf
      exact List.getElem?_eq_none_iff.1 hf
    have hstep := versionBatchStep_at_end allFiles forbiddenVersions threshold st hb hen
    by_cases h0 : st.curWorkloadSize ≤ 0
    · rw [if_pos h0] at hstep
      constructor
      · intro batches h
        rw [hstep] at h
        cases h
        refine ⟨_, hchain, ?_⟩
        have htake : (allFiles.drop st.curBackupFilesBeginIndex).take
            (st.curBackupFilesEndIndex - st.curBackupFilesBeginIndex)
            = allFiles.drop st.curBackupFilesBeginIndex :=
          slice_past_end allFiles _ _ (by omega)
        have hnn2 : ∀ x ∈ (allFiles.drop st.curBackupFilesBeginIndex).map (fun f => f.fileSize),
            0 ≤ x := by
          rw [← htake]
          exact slice_sizes_nonneg allFiles hnn _ _
        rw [htake] at hcur
        rw [hcur, doubleSum_le_zero_iff _ hnn2] at h0
        intro f hfm
        exact sum_nonneg_le_zero _ hnn2 h0 _ (List.mem_map_of_mem _ hfm)
      · intro st1 h
        rw [hstep] at h
        cases h
    · rw [if_neg h0] at hstep
      constructor
      · intro batches h
        rw [hstep] at h
        cases h
      · intro st1 h
        rw [hstep] at h
        cases h
        exact hform _ _ hb
  | some f =>
    have hstep := versionBatchStep_at_file allFiles forbiddenVersions threshold st f hb hf
    have hslice := slice_succ allFiles _ _ f hbe hf
    by_cases hc : (!isVersionInForbiddenRange forbiddenVersions f.endVersion f.isRange) = true
        ∧ doubleAdd st.curWorkloadSize f.fileSize ≥ threshold
    · rw [if_pos hc] at hstep
      constructor
      · intro batches h
        rw [hstep] at h
        cases h
      · intro st1 h
        rw [hstep] at h
        cases h
        exact hform _ _ hb
    · rw [if_neg hc] at hstep
      constructor
      · intro batches h
        rw [hstep] at h
        cases h
      · intro st1 h
        rw [hstep] at h
        cases h
        refine ⟨Nat.le_succ_of_le hbe, ?_, hchain⟩
        show doubleAdd st.curWorkloadSize f.fileSize = _
        rw [hslice, List.map_append, List.map_singleton, doubleSum_concat, ← hcur]

/-- When the batching loop returns, the batches are a partition. -/
theorem versionBatchLoop_partition (allFiles : List RestoreFile)
    (forbiddenVersions : List (Version × Version)) (threshold : Int)
    (hnn : ∀ f ∈ allFiles, 0 ≤ f.fileSize) :
    ∀ (fuel : Nat) (st : BatchLoop) (batches : List VersionBatch), PartitionInv allFiles st →
      versionBatchLoop allFiles forbiddenVersions threshold fuel st = .done batches →
      ∃ t, BatchChain allFiles 0 batches t ∧ ∀ f ∈ allFiles.drop t, f.fileSize = 0 := by
  intro fuel
  induction fuel with
  | zero =>
    intro st batches _ h
    simp [versionBatchLoop] at h
  | succ fuel ih =>
    intro st batches hinv h
    obtain ⟨hstop, hnext⟩ :=
      versionBatchStep_partition allFiles forbiddenVersions threshold st hnn hinv
    unfold versionBatchLoop at h
    cases hstep : versionBatchStep allFiles forbiddenVersions threshold st with
    | stop bs =>
      rw [hstep] at h
      simp only [Run.done.injEq] at h
      subst h
      exact hstop _ hstep
    | next st1 =>
      rw [hstep] at h
      exact ih st1 batches (hnext st1 hstep) h
    | assertFailed =>
      rw [hstep] at h
      cases h

/-- The batching loop of `processRestoreRequest` returns for every file list. -/
theorem processRestoreRequestBatches_returns (allFiles : List RestoreFile)
    (forbiddenVersions : List (Version × Version)) :
    ∃ batches, processRestoreRequestBatches allFiles forbiddenVersions = .done batches := by
  have hfuel : batchFuel allFiles ⟨0, 0, 0, false, []⟩ ≤ allFiles.length + 2 := by
    unfold batchFuel
    simp only
    split_ifs <;> omega
  exact versionBatchLoop_returns allFiles forbiddenVersions loadBatchSizeThresholdB
    (allFiles.length + 2) ⟨0, 0, 0, false, []⟩ (le_refl _) hfuel

/-! ## Claims about the block decoders -/

/-- C1: a range-file block written as header 1001, begin key, `n` pairs, end
key and any amount of 0xFF padding (all keys and values shorter than `2^24`
bytes) is decoded by `decodeRangeFileBlock` into `n + 2` entries: the begin
sentinel, the pairs in order, the end sentinel; dropping the first and the
last entry gives back the pairs. -/
theorem decodeRangeFileBlock_roundtrip (beginKey endKey : Bytes) (pairs : List KeyValueRef)
    (pad : Nat) (hb : beginKey.length < 2 ^ 24) (he : endKey.length < 2 ^ 24)
    (hp : ∀ kv ∈ pairs, kv.key.length < 2 ^ 24 ∧ kv.value.length < 2 ^ 24) :
    decodeRangeFileBlock (encodeRangeFileBlock beginKey endKey pairs pad)
        = some (.ok (⟨beginKey, []⟩ :: pairs ++ [⟨endKey, []⟩]))
      ∧ (⟨beginKey, []⟩ :: pairs ++ [⟨endKey, []⟩] : List KeyValueRef).length = pairs.length + 2
      ∧ (⟨beginKey, []⟩ :: pairs ++ [⟨endKey, []⟩] : List KeyValueRef).tail.dropLast = pairs := by
  refine ⟨?_, by simp, by simp⟩
  have hfuel : pairs.length < (encodeRangeFileBlock beginKey endKey pairs pad).length + 1 := by
    have := putPairs_length_le pairs
    simp only [encodeRangeFileBlock, List.length_append]
    omega
  have hloop := decodeRangeLoop_putPairs Error.restore_corrupted_data endKey pad he pairs hp
    ((encodeRangeFileBlock beginKey endKey pairs pad).length + 1) [⟨beginKey, []⟩] hfuel
  have hscan : decodeRangeFileBlockScan (encodeRangeFileBlock beginKey endKey pairs pad)
      = some (.ok (⟨beginKey, []⟩ :: pairs ++ [⟨endKey, []⟩],
          ⟨List.replicate pad xFF, Error.restore_corrupted_data⟩)) := by
    unfold decodeRangeFileBlockScan
    simp only
    have henc : encodeRangeFileBlock beginKey endKey pairs pad
        = putLE32 1001 ++ (netU32 beginKey.length ++ (beginKey
            ++ (putPairs pairs ++ (putString endKey ++ List.replicate pad xFF)))) := by
      simp [encodeRangeFileBlock, putString]
    rw [henc] at hloop ⊢
    rw [consumeInt32_putLE32 1001 (by norm_num)]
    simp only [Nat.cast_ofNat, ne_eq, not_true_eq_false, if_false]
    rw [consumeNetworkUInt32_netU32 _ (by omega)]
    simp only [consume_append]
    rw [hloop]
    simp
  simp only [decodeRangeFileBlock, hscan, checkPadding_replicate]

/-- C1 at a concrete block: begin key `01`, one pair `02 -> 03 04`, end key
`09`, two padding bytes. -/
theorem decodeRangeFileBlock_roundtrip_witness :
    decodeRangeFileBlock (encodeRangeFileBlock [1] [9] [⟨[2], [3, 4]⟩] 2)
        = some (.ok (⟨[1], []⟩ :: [⟨[2], [3, 4]⟩] ++ [⟨[9], []⟩]))
      ∧ (⟨[1], []⟩ :: [⟨[2], [3, 4]⟩] ++ [⟨[9], []⟩] : List KeyValueRef).length
          = [(⟨[2], [3, 4]⟩ : KeyValueRef)].length + 2
      ∧ (⟨[1], []⟩ :: [⟨[2], [3, 4]⟩] ++ [⟨[9], []⟩] : List KeyValueRef).tail.dropLast
          = [⟨[2], [3, 4]⟩] :=
  decodeRangeFileBlock_roundtrip [1] [9] [⟨[2], [3, 4]⟩] 2 (by decide) (by decide) (by decide)

/-- C3: a log-file block written as header 2001, the pairs (keys shorter than
`2^24` bytes, value lengths representable in the 32-bit length field) and any
amount of 0xFF padding is decoded by `decodeLogFileBlock` into exactly those
pairs in their order. -/
theorem decodeLogFileBlock_roundtrip (pairs : List KeyValueRef) (pad : Nat)
    (hp : ∀ kv ∈ pairs, kv.key.length < 2 ^ 24 ∧ kv.value.length < 2 ^ 32) :
    decodeLogFileBlock (encodeLogFileBlock pairs pad) = some (.ok pairs) := by
  have hfuel : pairs.length < (encodeLogFileBlock pairs pad).length + 1 := by
    have := putPairs_length_le pairs
    simp only [encodeLogFileBlock, List.length_append]
    omega
  have hloop := decodeLogLoop_putPairs Error.restore_corrupted_data pad pairs hp
    ((encodeLogFileBlock pairs pad).length + 1) [] hfuel
  have hscan : decodeLogFileBlockScan (encodeLogFileBlock pairs pad)
      = some (.ok (pairs, ⟨List.replicate pad xFF, Error.restore_corrupted_data⟩)) := by
    unfold decodeLogFileBlockScan
    simp only
    have henc : encodeLogFileBlock pairs pad
        = putLE32 2001 ++ (putPairs pairs ++ List.replicate pad xFF) := by
      simp [encodeLogFileBlock]
    rw [henc] at hloop ⊢
    rw [consumeInt32_putLE32 2001 (by norm_num)]
    simp only [Nat.cast_ofNat, ne_eq, not_true_eq_false, if_false]
    rw [hloop]
    simp
  simp only [decodeLogFileBlock, hscan, checkPadding_replicate]

/-- C3 at a concrete block: pairs `02 -> 03 04` and `05 -> (empty)`, one padding byte. -/
theorem decodeLogFileBlock_roundtrip_witness :
    decodeLogFileBlock (encodeLogFileBlock [⟨[2], [3, 4]⟩, ⟨[5], []⟩] 1)
      = some (.ok [⟨[2], [3, 4]⟩, ⟨[5], []⟩]) :=
  decodeLogFileBlock_roundtrip [⟨[2], [3, 4]⟩, ⟨[5], []⟩] 1 (by decide)

/-- C2 (as amended): every block that `decodeRangeFileBlock` accepts yields at
least two entries, the first of which is a value-less sentinel; the last entry
is either value-less or a key-value pair whose length-tagged value is followed
in the block by 0xFF padding only. -/
theorem decodeRangeFileBlock_accepted_shape (buf : Bytes) (rs : List KeyValueRef)
    (h : decodeRangeFileBlock buf = some (.ok rs)) :
    2 ≤ rs.length ∧ (∃ k0, rs.head? = some ⟨k0, []⟩) ∧
      ∃ last, rs.getLast? = some last ∧
        (last.value = [] ∨ ∃ pre len4 pad, buf = pre ++ len4 ++ last.value ++ pad
          ∧ len4.length = 4 ∧ StringRefReader.be32 len4 = last.value.length
          ∧ ∀ b ∈ pad, b = xFF) := by
  obtain ⟨rd, hs, hpad⟩ := decodeRangeFileBlock_ok buf rs h
  obtain ⟨k0, mid, last, hrs, pre, hbuf, hlast⟩ := decodeRangeFileBlockScan_ok buf rs rd hs
  subst hrs
  refine ⟨by simp, ⟨k0, by simp⟩, last, ?_, ?_⟩
  · rw [List.getLast?_concat]
  · rcases hlast with h0 | ⟨pre2, len4, hp2, hl4, hb4⟩
    · exact Or.inl h0
    · exact Or.inr ⟨pre2, len4, rd.rest, by rw [hbuf, hp2], hl4, hb4, hpad⟩

/-- C2 (as amended) at the block `1001 | "01" | "02" | "03"` with no closing key
and one padding byte. -/
theorem decodeRangeFileBlock_accepted_shape_witness :
    decodeRangeFileBlock [233, 3, 0, 0, 0, 0, 0, 1, 1, 0, 0, 0, 1, 2, 0, 0, 0, 1, 3, 255]
        = some (.ok [⟨[1], []⟩, ⟨[2], [3]⟩]) ∧
    (2 ≤ ([⟨[1], []⟩, ⟨[2], [3]⟩] : List KeyValueRef).length
      ∧ (∃ k0, ([⟨[1], []⟩, ⟨[2], [3]⟩] : List KeyValueRef).head? = some ⟨k0, []⟩)
      ∧ ∃ last, ([⟨[1], []⟩, ⟨[2], [3]⟩] : List KeyValueRef).getLast? = some last ∧
        (last.value = [] ∨ ∃ pre len4 pad,
          ([233, 3, 0, 0, 0, 0, 0, 1, 1, 0, 0, 0, 1, 2, 0, 0, 0, 1, 3, 255] : Bytes)
              = pre ++ len4 ++ last.value ++ pad
          ∧ len4.length = 4 ∧ StringRefReader.be32 len4 = last.value.length
          ∧ ∀ b ∈ pad, b = xFF)) :=
  ⟨by decide, decodeRangeFileBlock_accepted_shape _ _ (by decide)⟩

/-- C2 as stated fails: the block `1001 | "01" | "02" | "07"`, which ends right
after a value, is accepted and its last entry carries the value `07`. -/
theorem decodeRangeFileBlock_last_entry_with_value :
    decodeRangeFileBlock [233, 3, 0, 0, 0, 0, 0, 1, 1, 0, 0, 0, 1, 2, 0, 0, 0, 1, 7]
        = some (.ok [⟨[1], []⟩, ⟨[2], [7]⟩])
      ∧ ([⟨[1], []⟩, ⟨[2], [7]⟩] : List KeyValueRef).getLast? = some ⟨[2], [7]⟩
      ∧ (⟨[2], [7]⟩ : KeyValueRef).value ≠ [] := by
  decide

/-- C4: when the scan of a block stops at a 0xFF marker, the marker and what
follows it are the end of the block; if some byte after the marker is not
0xFF the decoder throws `restore_corrupted_data_padding` (no entries are
returned), and if all of them are 0xFF it returns the scanned entries.  This
holds for `decodeLogFileBlock` and for `decodeRangeFileBlock`. -/
theorem decoders_padding_check (buf : Bytes) (rs : List KeyValueRef) (rd : StringRefReader)
    (tl : Bytes) (hmark : rd.rest = xFF :: tl) :
    (decodeLogFileBlockScan buf = some (.ok (rs, rd)) →
      (∃ pre, buf = pre ++ xFF :: tl)
      ∧ ((∃ b ∈ tl, b ≠ xFF) →
          decodeLogFileBlock buf = some (.error Error.restore_corrupted_data_padding))
      ∧ ((∀ b ∈ tl, b = xFF) → decodeLogFileBlock buf = some (.ok rs)))
    ∧ (decodeRangeFileBlockScan buf = some (.ok (rs, rd)) →
      (∃ pre, buf = pre ++ xFF :: tl)
      ∧ ((∃ b ∈ tl, b ≠ xFF) →
          decodeRangeFileBlock buf = some (.error Error.restore_corrupted_data_padding))
      ∧ ((∀ b ∈ tl, b = xFF) → decodeRangeFileBlock buf = some (.ok rs))) := by
  have hbad : (∃ b ∈ tl, b ≠ xFF) → checkPadding rd = .error Error.restore_corrupted_data_padding := by
    intro hb
    cases hc : checkPadding rd with
    | error e => rw [(checkPadding_error rd e hc).1]
    | ok u =>
      obtain ⟨b, hbm, hbne⟩ := hb
      have := (checkPadding_ok_iff rd).1 hc b (by rw [hmark]; exact List.mem_cons_of_mem _ hbm)
      exact absurd this hbne
  have hgood : (∀ b ∈ tl, b = xFF) → checkPadding rd = .ok () := by
    intro ha
    apply (checkPadding_ok_iff rd).2
    intro b hb
    rw [hmark] at hb
    rcases List.mem_cons.1 hb with h1 | h1
    · exact h1
    · exact ha b h1
  constructor
  · intro hs
    obtain ⟨pre, hpre⟩ := decodeLogFileBlockScan_ok buf rs rd hs
    refine ⟨⟨pre, by rw [hpre, hmark]⟩, ?_, ?_⟩
    · intro hb; simp only [decodeLogFileBlock, hs, hbad hb]
    · intro ha; simp only [decodeLogFileBlock, hs, hgood ha]
  · intro hs
    obtain ⟨_, _, _, _, pre, hpre, _⟩ := decodeRangeFileBlockScan_ok buf rs rd hs
    refine ⟨⟨pre, by rw [hpre, hmark]⟩, ?_, ?_⟩
    · intro hb; simp only [decodeRangeFileBlock, hs, hbad hb]
    · intro ha; simp only [decodeRangeFileBlock, hs, hgood ha]

set_option maxRecDepth 4096

/-- C4 at concrete blocks: a log block and a range block whose scan stops at a
0xFF marker, followed once by a zero byte (rejected) and once by another 0xFF
(accepted). -/
theorem decoders_padding_check_witness :
    decodeLogFileBlock [209, 7, 0, 0, 255, 0]
        = some (.error Error.restore_corrupted_data_padding)
      ∧ decodeLogFileBlock [209, 7, 0, 0, 255, 255] = some (.ok [])
      ∧ decodeRangeFileBlock [233, 3, 0, 0, 0, 0, 0, 1, 1, 0, 0, 0, 1, 2, 255, 0]
        = some (.error Error.restore_corrupted_data_padding)
      ∧ decodeRangeFileBlock [233, 3, 0, 0, 0, 0, 0, 1, 1, 0, 0, 0, 1, 2, 255, 255]
        = some (.ok [⟨[1], []⟩, ⟨[2], []⟩]) :=
  ⟨((decoders_padding_check [209, 7, 0, 0, 255, 0] []
        ⟨[255, 0], Error.restore_corrupted_data⟩ [0] rfl).1 (by decide)).2.1
      ⟨0, by decide, by decide⟩,
    ((decoders_padding_check [209, 7, 0, 0, 255, 255] []
        ⟨[255, 255], Error.restore_corrupted_data⟩ [255] rfl).1 (by decide)).2.2 (by decide),
    ((decoders_padding_check [233, 3, 0, 0, 0, 0, 0, 1, 1, 0, 0, 0, 1, 2, 255, 0]
        [⟨[1], []⟩, ⟨[2], []⟩] ⟨[255, 0], Error.restore_corrupted_data⟩ [0] rfl).2 rfl).2.1
      ⟨0, by decide, by decide⟩,
    ((decoders_padding_check [233, 3, 0, 0, 0, 0, 0, 1, 1, 0, 0, 0, 1, 2, 255, 255]
        [⟨[1], []⟩, ⟨[2], []⟩] ⟨[255, 255], Error.restore_corrupted_data⟩ [255] rfl).2
      rfl).2.2 (by decide)⟩

/-! ## Claims about forbidden version ranges -/

/-- C5: `isVersionInForbiddenRange(v, isRange = true)` is true exactly when some
forbidden range `[begin, end)` has `begin <= v < end`, and
`isVersionInForbiddenRange(v, isRange = false)` is false for every `v`. -/
theorem isVersionInForbiddenRange_iff (forbiddenVersions : List (Version × Version))
    (v : Version) :
    (isVersionInForbiddenRange forbiddenVersions v true = true
        ↔ ∃ range ∈ forbiddenVersions, range.1 ≤ v ∧ v < range.2)
      ∧ isVersionInForbiddenRange forbiddenVersions v false = false := by
  induction forbiddenVersions with
  | nil => simp [isVersionInForbiddenRange]
  | cons range rest ih =>
    obtain ⟨ih1, ih2⟩ := ih
    constructor
    · by_cases h : v ≥ range.1 ∧ v < range.2
      · simp only [isVersionInForbiddenRange, if_true, h, and_self, true_iff]
        exact ⟨range, List.mem_cons_self _ _, h.1, h.2⟩
      · simp only [isVersionInForbiddenRange, if_true, h, if_false, ih1, List.mem_cons]
        constructor
        · rintro ⟨r, hr, hv⟩; exact ⟨r, Or.inr hr, hv⟩
        · rintro ⟨r, hr | hr, hv⟩
          · subst hr; exact absurd hv h
          · exact ⟨r, hr, hv⟩
    · simp only [isVersionInForbiddenRange, Bool.false_eq_true, if_false, ih2]

/-- C6 fails on the code: for the three forbidden ranges `[1,2)`, `[5,10)`,
`[7,12)` (each with begin <= end, stored in key order) the ranges `[5,10)` and
`[7,12)` intersect, yet `isForbiddenVersionRangeOverlapped` returns false,
because every range is compared with the first one only. -/
theorem isForbiddenVersionRangeOverlapped_misses_overlap :
    isForbiddenVersionRangeOverlapped [(1, 2), (5, 10), (7, 12)] = false
      ∧ someRangesIntersect [(1, 2), (5, 10), (7, 12)]
      ∧ isForbiddenVersionRangeOverlapped [] = false
      ∧ isForbiddenVersionRangeOverlapped [(5, 10)] = false := by
  decide

/-! ## Claims about command identifiers -/

/-- C7: `initPhase(p)` yields `(batch, p, 0)`, `nextCmd` yields
`(batch, phase, sequence + 1 mod 2^64)`; neither changes the batch, `nextCmd`
keeps the phase, and `initPhase(p)` followed by `k` calls of `nextCmd` yields
`(batch, p, k mod 2^64)`, which is `(batch, p, k)` whenever `k` fits the
64-bit sequence field. -/
theorem CMDUID_initPhase_nextCmd (c : CMDUID) (p : RestoreCommandEnum) (k : Nat) :
    c.initPhase p = ⟨c.batch, p.toNat, 0⟩
      ∧ c.nextCmd = ⟨c.batch, c.phase, (c.cmdID + 1) % 2 ^ 64⟩
      ∧ (c.initPhase p).batch = c.batch
      ∧ c.nextCmd.batch = c.batch
      ∧ c.nextCmd.phase = c.phase
      ∧ (CMDUID.nextCmd^[k] (c.initPhase p)) = ⟨c.batch, p.toNat, k % 2 ^ 64⟩
      ∧ (k < 2 ^ 64 → (CMDUID.nextCmd^[k] (c.initPhase p)) = ⟨c.batch, p.toNat, k⟩) := by
  have hinit : c.initPhase p = ⟨c.batch, p.toNat, 0⟩ := by
    simp only [CMDUID.initPhase, Nat.mod_eq_of_lt (RestoreCommandEnum.toNat_lt p)]
  have hiter : (CMDUID.nextCmd^[k] (c.initPhase p)) = ⟨c.batch, p.toNat, k % 2 ^ 64⟩ := by
    rw [hinit, nextCmd_iterate k _ (by norm_num)]
    simp
  refine ⟨hinit, rfl, rfl, rfl, rfl, hiter, ?_⟩
  intro hk
  rw [hiter, Nat.mod_eq_of_lt hk]

/-- C7 at a concrete identifier: three calls of `nextCmd` after
`initPhase(Set_Role)` on `(4, 9, 77)`. -/
theorem CMDUID_initPhase_nextCmd_witness :
    (CMDUID.nextCmd^[3] ((⟨4, 9, 77⟩ : CMDUID).initPhase RestoreCommandEnum.Set_Role))
      = ⟨4, RestoreCommandEnum.Set_Role.toNat, 3⟩ :=
  (CMDUID_initPhase_nextCmd ⟨4, 9, 77⟩ RestoreCommandEnum.Set_Role 3).2.2.2.2.2.2 (by norm_num)

/-! ## Claims about the applier's dedup -/

/-- C8 (as amended): for every applier state and every
`Loader_Send_Mutations_To_Applier` command whose identifier carries the
command's phase, two deliveries of the command send one acknowledgment each
and the state after the second delivery equals the state after the first.
If the identifier is not yet in `processedCmd`, the mutation is appended
exactly once to the buffer of its commit version (other buffers are
unchanged); if the identifier is already in `processedCmd`, nothing is
appended. -/
theorem receiveMutations_replay (interfId : UID) (rd : ApplierData) (req : RestoreCommand)
    (hcmd : req.cmd = RestoreCommandEnum.Loader_Send_Mutations_To_Applier)
    (hphase : req.cmdID.phase = req.cmd.toNat) :
    ∃ rd1, receiveMutations interfId rd req = some ⟨rd1, [⟨interfId, req.cmdID, 0, []⟩], false⟩
      ∧ receiveMutations interfId rd1 req = some ⟨rd1, [⟨interfId, req.cmdID, 0, []⟩], false⟩
      ∧ (rd.isCmdProcessed req.cmdID = false →
          kvOpsAt rd1.kvOps req.commitVersion
              = kvOpsAt rd.kvOps req.commitVersion ++ [req.mutation]
            ∧ ∀ v, v ≠ req.commitVersion → kvOpsAt rd1.kvOps v = kvOpsAt rd.kvOps v)
      ∧ (rd.isCmdProcessed req.cmdID = true → rd1 = rd) := by
  cases hp : rd.isCmdProcessed req.cmdID with
  | true =>
    have h1 := receiveMutations_duplicate interfId rd req hcmd hphase hp
    exact ⟨rd, h1, h1, fun h => (by cases h), fun _ => rfl⟩
  | false =>
    obtain ⟨rd1, h1, hproc, _, hat, hother⟩ := receiveMutations_new interfId rd req hcmd hphase hp
    exact ⟨rd1, h1, receiveMutations_duplicate interfId rd1 req hcmd hphase hproc,
      fun _ => ⟨hat, hother⟩, fun h => (by cases h)⟩

/-- C8 (as amended) at a concrete delivery: a new command for commit version 5
on an applier that already buffers one mutation for that version. -/
theorem receiveMutations_replay_witness :
    ∃ rd1,
      receiveMutations 7 ⟨[(5, [⟨0, [9], [9]⟩])], [], 1⟩
          { cmd := RestoreCommandEnum.Loader_Send_Mutations_To_Applier, cmdID := ⟨0, 16, 1⟩,
            id := 7, commitVersion := 5, mutation := ⟨0, [1], [2]⟩ }
        = some ⟨rd1, [⟨7, ⟨0, 16, 1⟩, 0, []⟩], false⟩
      ∧ receiveMutations 7 rd1
          { cmd := RestoreCommandEnum.Loader_Send_Mutations_To_Applier, cmdID := ⟨0, 16, 1⟩,
            id := 7, commitVersion := 5, mutation := ⟨0, [1], [2]⟩ }
        = some ⟨rd1, [⟨7, ⟨0, 16, 1⟩, 0, []⟩], false⟩
      ∧ kvOpsAt rd1.kvOps 5 = [⟨0, [9], [9]⟩, ⟨0, [1], [2]⟩] := by
  obtain ⟨rd1, h1, h2, hnew, _⟩ := receiveMutations_replay 7 ⟨[(5, [⟨0, [9], [9]⟩])], [], 1⟩
    { cmd := RestoreCommandEnum.Loader_Send_Mutations_To_Applier, cmdID := ⟨0, 16, 1⟩,
      id := 7, commitVersion := 5, mutation := ⟨0, [1], [2]⟩ } rfl rfl
  exact ⟨rd1, h1, h2, (hnew rfl).1⟩

/-- C8 as stated fails: on an applier state whose `processedCmd` already holds
the identifier `(0, 16, 1)` and whose buffers are empty, a delivery of a
command with that identifier is acknowledged and returns the same state, so
after two deliveries the buffer of its commit version is still empty: the
mutation has been appended zero times, not once. -/
theorem receiveMutations_processed_id_appends_nothing :
    receiveMutations 7 ⟨[], [(⟨0, 16, 1⟩, 1)], 0⟩
        { cmd := RestoreCommandEnum.Loader_Send_Mutations_To_Applier, cmdID := ⟨0, 16, 1⟩,
          id := 7, commitVersion := 5, mutation := ⟨0, [1], [2]⟩ }
      = some ⟨⟨[], [(⟨0, 16, 1⟩, 1)], 0⟩, [⟨7, ⟨0, 16, 1⟩, 0, []⟩], false⟩
    ∧ (kvOpsAt (⟨[], [(⟨0, 16, 1⟩, 1)], 0⟩ : ApplierData).kvOps 5).count ⟨0, [1], [2]⟩ = 0
    ∧ kvOpsAt (⟨[], [(⟨0, 16, 1⟩, 1)], 0⟩ : ApplierData).kvOps 5
        ≠ kvOpsAt (⟨[], [(⟨0, 16, 1⟩, 1)], 0⟩ : ApplierData).kvOps 5 ++ [⟨0, [1], [2]⟩] := by
  decide

/-! ## Claims about the key-range assignment rounds -/

/-- C9 (as amended): a reissued `Assign_Applier_KeyRange` round starts with
`initPhase` again, so it sends exactly the commands of the abandoned round,
each with the same identifier as before: the command at position `i` carries
`(batch, Assign_Applier_KeyRange, i + 1)` in both rounds. -/
theorem assignKeyRangeToAppliersRound_retry_same_ids (cmdID : CMDUID)
    (appliers : List (UID × KeyRangeRef)) :
    (assignKeyRangeToAppliersRound (assignKeyRangeToAppliersRound cmdID appliers).2 appliers).1
        = (assignKeyRangeToAppliersRound cmdID appliers).1
      ∧ (assignKeyRangeToAppliersRound cmdID appliers).1.map (fun c => c.cmdID)
        = (List.range appliers.length).map (fun i =>
            (⟨cmdID.batch, RestoreCommandEnum.Assign_Applier_KeyRange.toNat, (i + 1) % 2 ^ 64⟩
              : CMDUID)) := by
  refine ⟨?_, assignKeyRangeToAppliersRound_ids cmdID appliers⟩
  rw [assignKeyRangeToAppliersRound_congr _ cmdID appliers
    (assignKeyRangeToAppliersRound_batch cmdID appliers)]

/-- C9 as stated fails: with one applier, the command of the reissued round
carries the identifier `(0, Assign_Applier_KeyRange, 1)`, the same as the
command of the abandoned round. -/
theorem assignKeyRangeToAppliersRound_retry_reuses_id :
    (assignKeyRangeToAppliersRound ⟨0, 0, 0⟩ [(10, ⟨[0], [255]⟩)]).1.map (fun c => c.cmdID)
        = [⟨0, RestoreCommandEnum.Assign_Applier_KeyRange.toNat, 1⟩]
      ∧ (assignKeyRangeToAppliersRound
            (assignKeyRangeToAppliersRound ⟨0, 0, 0⟩ [(10, ⟨[0], [255]⟩)]).2
            [(10, ⟨[0], [255]⟩)]).1.map (fun c => c.cmdID)
        = [⟨0, RestoreCommandEnum.Assign_Applier_KeyRange.toNat, 1⟩]
      ∧ ¬ (∀ c ∈ (assignKeyRangeToAppliersRound
              (assignKeyRangeToAppliersRound ⟨0, 0, 0⟩ [(10, ⟨[0], [255]⟩)]).2
              [(10, ⟨[0], [255]⟩)]).1,
            ∀ d ∈ (assignKeyRangeToAppliersRound ⟨0, 0, 0⟩ [(10, ⟨[0], [255]⟩)]).1,
              c.cmdID ≠ d.cmdID) := by
  decide

/-- C10 fails on the code: for the reply list `["a"]` and one key range the map
built by `sampleWorkload` is `{"\x00" -> 10}`: its first lower bound is the
one-byte key `00`, not the empty key, the only derived range is
`["\x00", "\xff")`, and the empty key, which belongs to the normal key space,
lies in no applier's range. -/
theorem sampleWorkload_first_bound_not_minimum :
    sampleWorkload [{ id := 11, cmdID := ⟨0, 9, 2⟩, lowerBound := [97] }] [10, 11] 1
        = some [([0], 10)]
      ∧ ([0] : Bytes) ≠ normalKeys_begin
      ∧ assignKeyRangeToAppliersRanges [([0], 10)] = [(10, ⟨[0], normalKeys_end⟩)]
      ∧ (KeyRangeRef.mk normalKeys_begin normalKeys_end).contains [] = true
      ∧ (∀ r ∈ assignKeyRangeToAppliersRanges [([0], 10)], r.2.contains [] = false) := by
  decide

/-! ## Claims about the sampling partition -/

/-- C11 (as amended): for every `N >= 1` and every sample of `m >= N` distinct
keys each hit exactly once, `_calculateAppliersKeyRanges(N)` returns exactly
`N - 1` lower bounds (the loop pops while `size >= N`), the `i`-th (0-based)
being the sampled key of rank `i * floor(m / N)`. -/
theorem calculateAppliersKeyRanges_bounds (keys : List Bytes) (N : Nat) (hN : 1 ≤ N)
    (hm : N ≤ keys.length) :
    _calculateAppliersKeyRanges (keys.map (fun k => (k, 1))) keys.length N
        = some ((List.range (N - 1)).map (fun i => keys.getD (i * (keys.length / N)) []))
      ∧ ((List.range (N - 1)).map (fun i => keys.getD (i * (keys.length / N)) [])).length
        = N - 1 := by
  refine ⟨?_, by simp⟩
  have hdivpos : 1 ≤ keys.length / N := (Nat.one_le_div_iff (by omega)).2 hm
  have hL : max (keys.length / N) 1 = keys.length / N := max_eq_left hdivpos
  obtain ⟨q, t, hqt, ht, hst⟩ :=
    calculateAppliersKeyRanges_foldl keys (keys.length / N) hdivpos keys.length (le_refl _)
  rw [List.take_length] at hst
  have hNq : N ≤ q := by
    have h1 : keys.length / N * N ≤ keys.length := Nat.div_mul_le_self _ _
    have h2 : keys.length / N * N < keys.length / N * (q + 1) := by
      rw [Nat.mul_succ]; omega
    have h3 := Nat.lt_of_mul_lt_mul_left h2
    omega
  have hc : N - 1 ≤ (if t = 0 then q else q + 1) := by split <;> omega
  unfold _calculateAppliersKeyRanges
  rw [if_neg (by omega)]
  simp only [hL, hst]
  rw [mergeLastKeyRanges_eq_take N hN _ _ (le_refl _)]
  rw [← List.map_take, List.take_range, min_eq_left hc]

/-- C11 (as amended) at the sample `a, m, z` with `N = 2`: the single lower bound `a`. -/
theorem calculateAppliersKeyRanges_bounds_witness :
    _calculateAppliersKeyRanges ([[97], [109], [122]].map (fun k => (k, 1)))
        ([[97], [109], [122]] : List Bytes).length 2
        = some ((List.range (2 - 1)).map (fun i =>
            ([[97], [109], [122]] : List Bytes).getD
              (i * (([[97], [109], [122]] : List Bytes).length / 2)) []))
      ∧ ((List.range (2 - 1)).map (fun i =>
            ([[97], [109], [122]] : List Bytes).getD
              (i * (([[97], [109], [122]] : List Bytes).length / 2)) [])).length = 2 - 1 :=
  calculateAppliersKeyRanges_bounds [[97], [109], [122]] 2 (by decide) (by decide)

/-- C11 as stated fails: for the keys `a`, `m`, `z`, each hit once, and `N = 2`
the function returns the one lower bound `[a]`, not the two bounds `[a, m]`. -/
theorem calculateAppliersKeyRanges_one_bound_for_two :
    _calculateAppliersKeyRanges [([97], 1), ([109], 1), ([122], 1)] 3 2 = some [[97]]
      ∧ ([[97]] : List Bytes).length ≠ 2
      ∧ ([[97]] : List Bytes) ≠ [[97], [109]] := by
  decide

/-! ## Claims about role assignment -/

/-- C12: for every list of `n >= 3` registered workers `configureRoles` appends
to `globalNodeStatus` one entry per worker, in order: the first `floor(n / 2)`
workers are Loaders and the remaining `n - floor(n / 2)` are Appliers (both
counts positive), the worker at position `i` gets node index `i + 1`, and
`masterApplier` is the id of the last worker, which is an Applier. -/
theorem configureRoles_split (agents : List UID) (globalNodeStatus : List RestoreNodeStatus)
    (hn : 3 ≤ agents.length) :
    configureRoles agents globalNodeStatus
        = some ⟨globalNodeStatus ++ (List.range' 0 agents.length).map (fun i =>
              ⟨if i < agents.length / 2 then RestoreRole.Loader else RestoreRole.Applier,
                agents.getD i 0, i + 1⟩),
            agents.getD (agents.length - 1) 0⟩
      ∧ 0 < agents.length / 2
      ∧ 0 < agents.length - agents.length / 2
      ∧ ¬ (agents.length - 1 < agents.length / 2) := by
  have hl : 0 < agents.length / 2 := by omega
  have ha : 0 < agents.length - agents.length / 2 := by omega
  refine ⟨?_, hl, ha, by omega⟩
  have hsplit : List.range' 0 agents.length
      = List.range' 0 (agents.length / 2)
        ++ List.range' (agents.length / 2) (agents.length - agents.length / 2) := by
    have h := List.range'_append_1 0 (agents.length / 2) (agents.length - agents.length / 2)
    rw [Nat.zero_add] at h
    rw [h]
    congr 1
    omega
  have hmapL : (List.range' 0 (agents.length / 2)).map
        (fun i => (⟨RestoreRole.Loader, agents.getD i 0, i + 1⟩ : RestoreNodeStatus))
      = (List.range' 0 (agents.length / 2)).map (fun i =>
          (⟨if i < agents.length / 2 then RestoreRole.Loader else RestoreRole.Applier,
            agents.getD i 0, i + 1⟩ : RestoreNodeStatus)) := by
    apply List.map_congr_left
    intro i hi
    have := (List.mem_range'_1.1 hi).2
    rw [if_pos (by omega)]
  have hmapA : (List.range' (agents.length / 2) (agents.length - agents.length / 2)).map
        (fun i => (⟨RestoreRole.Applier, agents.getD i 0, i + 1⟩ : RestoreNodeStatus))
      = (List.range' (agents.length / 2) (agents.length - agents.length / 2)).map (fun i =>
          (⟨if i < agents.length / 2 then RestoreRole.Loader else RestoreRole.Applier,
            agents.getD i 0, i + 1⟩ : RestoreNodeStatus)) := by
    apply List.map_congr_left
    intro i hi
    have := (List.mem_range'_1.1 hi).1
    rw [if_neg (by omega)]
  have hlast : (globalNodeStatus ++ (List.range' 0 agents.length).map (fun i =>
        (⟨if i < agents.length / 2 then RestoreRole.Loader else RestoreRole.Applier,
          agents.getD i 0, i + 1⟩ : RestoreNodeStatus))).getLast?
      = some ⟨RestoreRole.Applier, agents.getD (agents.length - 1) 0, agents.length⟩ := by
    obtain ⟨m, hm⟩ : ∃ m, agents.length = m + 1 := ⟨agents.length - 1, by omega⟩
    rw [hm, List.range'_1_concat, List.map_append, ← List.append_assoc]
    simp only [List.map_cons, List.map_nil, List.getLast?_concat, Nat.zero_add,
      Nat.add_sub_cancel]
    rw [if_neg (by omega)]
  have e2 : (1 + 1 : Nat) = 2 := rfl
  have h1 := configureRolesPush_foldl RestoreRole.Loader agents (agents.length / 2) 0
    globalNodeStatus
  simp only [Nat.zero_add] at h1
  have h2 := configureRolesPush_foldl RestoreRole.Applier agents
    (agents.length - agents.length / 2) (agents.length / 2)
    (globalNodeStatus ++ (List.range' 0 (agents.length / 2)).map
      (fun i => (⟨RestoreRole.Loader, agents.getD i 0, i + 1⟩ : RestoreNodeStatus)))
  unfold configureRoles
  simp only [min_num_workers, ratio_loader_to_applier, Nat.mul_one, e2]
  rw [if_neg (by omega), if_neg (by omega)]
  simp only [h1, h2]
  simp only [hmapL, hmapA, List.append_assoc, ← List.map_append, ← hsplit, hlast]

/-- C12 at three workers with ids 11, 12, 13: one Loader, two Appliers, master applier 13. -/
theorem configureRoles_split_witness :
    configureRoles [11, 12, 13] []
      = some ⟨[⟨RestoreRole.Loader, 11, 1⟩, ⟨RestoreRole.Applier, 12, 2⟩,
               ⟨RestoreRole.Applier, 13, 3⟩], 13⟩ :=
  (configureRoles_split [11, 12, 13] [] (by decide)).1

/-! ## Claims about version batches -/

/-- C13: for every file list (file sizes are not negative) and every
forbidden-range set the batching loop of `processRestoreRequest` ends with a
list of version batches that are consecutive index ranges of `allFiles` from
index 0 up to a position `t`, the files from `t` on all being empty.  Every
batch other than the final one ends at an existing file whose end version is
not forbidden (`isVersionInForbiddenRange` is false), consists of the files from
its begin index to that file, and has a total file size of at least 1,048,576
bytes; no earlier file of the batch was such a boundary, i.e. a batch is formed
at the first valid boundary at which the threshold is reached, and a batch that
reaches the threshold at a forbidden end version keeps growing file by file.
The final batch is either such a batch or ends with the file list: it then
holds every file from its begin index on, has a positive total size, and no
file from its begin index on was a valid boundary at which the threshold was
reached.  The recorded `workloadSize` is the sum as kept in a `double`. -/
theorem processRestoreRequestBatches_valid (allFiles : List RestoreFile)
    (forbiddenVersions : List (Version × Version))
    (hnn : ∀ f ∈ allFiles, 0 ≤ f.fileSize) :
    ∃ batches t, processRestoreRequestBatches allFiles forbiddenVersions = .done batches
      ∧ BatchChain allFiles 0 batches t
      ∧ (∀ f ∈ allFiles.drop t, f.fileSize = 0)
      ∧ BatchesValid allFiles forbiddenVersions 1048576 batches := by
  obtain ⟨batches, hrun⟩ := processRestoreRequestBatches_returns allFiles forbiddenVersions
  have hpart : PartitionInv allFiles ⟨0, 0, 0, false, []⟩ :=
    ⟨le_refl _, by simp [doubleSum], rfl⟩
  obtain ⟨t, hchain, hzero⟩ := versionBatchLoop_partition allFiles forbiddenVersions
    loadBatchSizeThresholdB hnn _ _ batches hpart hrun
  have hinv : BatchInv allFiles forbiddenVersions loadBatchSizeThresholdB
      ⟨0, 0, 0, false, []⟩ := by
    left
    refine ⟨le_refl _, Nat.zero_le _, by simp [doubleSum], ?_, ?_⟩
    · intro j f _ h2
      simp only at h2
      omega
    · intro B hB
      simp at hB
  have hvalid := versionBatchLoop_valid allFiles forbiddenVersions loadBatchSizeThresholdB
    hnn (by unfold loadBatchSizeThresholdB; norm_num) _ _ batches hinv hrun
  exact ⟨batches, t, hrun, hchain, hzero, hvalid⟩

/-- C13 at five files of sizes 1 MiB, 7, 1 MiB, 0 and 5, the first and the
second being range files with an end version inside the forbidden range from 1
to 4. -/
theorem processRestoreRequestBatches_valid_witness :
    (∀ f ∈ ([⟨1, 1, true, 4, 1048576, 2, 1, 0⟩, ⟨2, 2, true, 4, 7, 3, 2, 0⟩,
          ⟨3, 3, false, 4, 1048576, 5, 3, 0⟩, ⟨4, 4, true, 4, 0, 6, 4, 0⟩,
          ⟨5, 5, false, 4, 5, 7, 5, 0⟩] : List RestoreFile), 0 ≤ f.fileSize)
    ∧ ∃ batches t, processRestoreRequestBatches
          [⟨1, 1, true, 4, 1048576, 2, 1, 0⟩, ⟨2, 2, true, 4, 7, 3, 2, 0⟩,
            ⟨3, 3, false, 4, 1048576, 5, 3, 0⟩, ⟨4, 4, true, 4, 0, 6, 4, 0⟩,
            ⟨5, 5, false, 4, 5, 7, 5, 0⟩] [(1, 4)] = .done batches
      ∧ BatchChain [⟨1, 1, true, 4, 1048576, 2, 1, 0⟩, ⟨2, 2, true, 4, 7, 3, 2, 0⟩,
            ⟨3, 3, false, 4, 1048576, 5, 3, 0⟩, ⟨4, 4, true, 4, 0, 6, 4, 0⟩,
            ⟨5, 5, false, 4, 5, 7, 5, 0⟩] 0 batches t
      ∧ (∀ f ∈ ([⟨1, 1, true, 4, 1048576, 2, 1, 0⟩, ⟨2, 2, true, 4, 7, 3, 2, 0⟩,
            ⟨3, 3, false, 4, 1048576, 5, 3, 0⟩, ⟨4, 4, true, 4, 0, 6, 4, 0⟩,
            ⟨5, 5, false, 4, 5, 7, 5, 0⟩] : List RestoreFile).drop t, f.fileSize = 0)
      ∧ BatchesValid [⟨1, 1, true, 4, 1048576, 2, 1, 0⟩, ⟨2, 2, true, 4, 7, 3, 2, 0⟩,
            ⟨3, 3, false, 4, 1048576, 5, 3, 0⟩, ⟨4, 4, true, 4, 0, 6, 4, 0⟩,
            ⟨5, 5, false, 4, 5, 7, 5, 0⟩] [(1, 4)] 1048576 batches :=
  ⟨by decide, processRestoreRequestBatches_valid
    [⟨1, 1, true, 4, 1048576, 2, 1, 0⟩, ⟨2, 2, true, 4, 7, 3, 2, 0⟩,
      ⟨3, 3, false, 4, 1048576, 5, 3, 0⟩, ⟨4, 4, true, 4, 0, 6, 4, 0⟩,
      ⟨5, 5, false, 4, 5, 7, 5, 0⟩] [(1, 4)] (by decide)⟩

/-! ## Claims about applying the buffered mutations -/

/-- C14: when every commit succeeds, `applyKVOpsToDB` leaves the store that is the
left fold of the buffered mutations, taken version by version in the order of
`kvOps` and in buffer order within a version, over the initial store; it commits
one transaction per mutation and leaves `kvOps` empty.  With the versions of
`kvOps` ascending (it is a `std::map`), that sequence is in ascending
commit-version order and its part for a version is that version's buffer.
A SetValue is a `set` of key and value, a ClearRange a `clear` of
`[param1, param2)`, an atomic-op type one `atomicOp`. -/
theorem applyKVOpsToDB_order {S : Type} (db : Database S) (commits : Nat → Bool) (fuel : Nat)
    (kvOps : List (Version × List MutationRef)) (s : S)
    (hc : ∀ k, commits k = true) (hf : 0 < fuel)
    (hs : kvOps.Pairwise (fun a b => a.1 < b.1)) :
    applyKVOpsToDB db commits fuel kvOps s
        = some (((applySequence kvOps).map (fun vm => vm.2)).foldl (applyMutation db) s,
            (applySequence kvOps).length, [])
      ∧ (applySequence kvOps).Pairwise (fun a b => a.1 ≤ b.1)
      ∧ (∀ v, ((applySequence kvOps).filter (fun vm => decide (vm.1 = v))).map (fun vm => vm.2)
            = kvOpsAt kvOps v)
      ∧ (∀ (t : S) (m : MutationRef), m.type = MutationRef.SetValue →
            applyMutation db t m = db.set t m.param1 m.param2)
      ∧ (∀ (t : S) (m : MutationRef), m.type = MutationRef.ClearRange →
            applyMutation db t m = db.clear t ⟨m.param1, m.param2⟩)
      ∧ (∀ (t : S) (m : MutationRef), isAtomicOp m.type = true →
            applyMutation db t m = db.atomicOp t m.param1 m.param2 m.type) := by
  refine ⟨?_, applySequence_sorted kvOps hs, applySequence_filter kvOps hs, ?_, ?_, ?_⟩
  · simp only [applyKVOpsToDB, applyVersions_commits db commits hc fuel hf, Nat.zero_add]
  · intro t m hm
    simp only [applyMutation, hm, if_true]
  · intro t m hm
    have h0 : ¬ (m.type = MutationRef.SetValue) := by
      rw [hm]; decide
    unfold applyMutation
    rw [if_neg h0, if_pos hm]
  · intro t m hm
    have hmem : m.type ∈ atomicOpTypes := by
      simpa [isAtomicOp] using hm
    have h0 : ¬ (m.type = MutationRef.SetValue) := by
      intro h; rw [h] at hmem; revert hmem; decide
    have h1 : ¬ (m.type = MutationRef.ClearRange) := by
      intro h; rw [h] at hmem; revert hmem; decide
    unfold applyMutation
    rw [if_neg h0, if_neg h1, if_pos hm]

/-- C14 at a buffer with versions 3 and 5 on the recording store: the clear and
the set of version 3 are committed before the atomic add of version 5. -/
theorem applyKVOpsToDB_order_witness :
    applyKVOpsToDB recordingDatabase (fun _ => true) 1
        [(3, [⟨1, [1], [9]⟩, ⟨0, [2], [7]⟩]), (5, [⟨2, [2], [1]⟩])] []
      = some ([⟨1, [1], [9]⟩, ⟨0, [2], [7]⟩, ⟨2, [2], [1]⟩], 3, []) :=
  (applyKVOpsToDB_order recordingDatabase (fun _ => true) 1
    [(3, [⟨1, [1], [9]⟩, ⟨0, [2], [7]⟩]), (5, [⟨2, [2], [1]⟩])] []
    (fun _ => rfl) (by decide) (by decide)).1

/-! ## Claims about stale and unexpected commands -/

/-- C16 fails in the code: with applier lower bounds `""`, `"m"`, `"x"` owned by
appliers 1, 2 and 3, `splitMutation` on `ClearRange ["b", "c")` leaves in its
vectors the single mutation `ClearRange ["", "m")` paired with applier 2,
whereas the split at the boundaries is `ClearRange ["b", "c")` for applier 1;
and when the mutation reaches past the last lower bound the loop reads through
`end()`. -/
theorem splitMutation_not_intersections :
    splitMutation [([], 1), ([109], 2), ([120], 3)] ⟨MutationRef.ClearRange, [98], [99]⟩ [] []
        = some ([⟨MutationRef.ClearRange, [], [109]⟩], [2])
      ∧ splitAtBoundaries [([], 1), ([109], 2), ([120], 3)] ⟨MutationRef.ClearRange, [98], [99]⟩
        = ([⟨MutationRef.ClearRange, [98], [99]⟩], [1])
      ∧ splitMutation [([], 1), ([109], 2), ([120], 3)] ⟨MutationRef.ClearRange, [98], [121]⟩ [] []
        = none := by
  decide

/-! ## Claims about the block loops of the loader -/

/-- C18 fails in the code: for the second block of an eight-byte file with
four-byte blocks `sampleWorkload` sends offset 4, length 4, block size 4, and
the block loop of `sampleHandler` (and that of `loadingHandler`) hands no
`(readOffset, readLen)` pair to the block parser, where `[(4, 4)]` covers
bytes 4 to 8; with offset 0 the same loop does read `(0, 4)`. -/
theorem blockReads_length_as_end_offset :
    sampleWorkloadParam ⟨0, 0, true, 4, 8, 0, 0, 0⟩ 1 = ⟨4, 4, 4⟩
      ∧ sampleHandlerReads ⟨4, 4, 4⟩ = .done []
      ∧ loadingHandlerReads ⟨4, 4, 4⟩ = .done []
      ∧ sampleHandlerReads ⟨0, 4, 4⟩ = .done [(0, 4)] := by
  decide

/-! ## Claims about `parseSerializedMutation` -/

/-- C19 as stated fails: a record that declares 28 bytes of mutations and holds
14 (one `SetValue` of key `a` to value `b`) is parsed with `isSampling = false`
without any error, and its mutation is added to `kvOps` under version 7. -/
theorem parseSerializedMutation_mismatch_not_rejected :
    (putMutationGroup 3 28 [⟨0, [97], [98]⟩]).length - 12 = 14
      ∧ parseSerializedMutation [(putLE64 7, putMutationGroup 3 28 [⟨0, [97], [98]⟩])] [] false
        = some ⟨[(7, [⟨0, [97], [98]⟩])], none⟩ := by
  decide

/-- C19 (as amended): for a record `u64 includedVersion | u32 totalLen |
mutations` of well-formed mutations whose declared `totalLen` differs from the
number of bytes after the 12-byte header, `parseSerializedMutation` with
`isSampling = false` throws nothing and appends all mutations of the record, in
order, to the buffer of the commit version (other buffers unchanged); with
`isSampling = true` it throws nothing and appends nothing. -/
theorem parseSerializedMutation_length_mismatch (ms : List MutationRef)
    (includedVersion totalLen commitVersion : Nat) (kvOps : List (Version × List MutationRef))
    (hwf : ∀ m ∈ ms, m.WellFormed) (hinc : includedVersion < 2 ^ 64)
    (hcv : commitVersion < 2 ^ 63) (htot : totalLen < 2 ^ 32)
    (hne : totalLen ≠ (putMutationGroup includedVersion totalLen ms).length - 12) :
    (∃ out, parseSerializedMutation
          [(putLE64 commitVersion, putMutationGroup includedVersion totalLen ms)] kvOps false
        = some ⟨out, none⟩
      ∧ kvOpsAt out (commitVersion : Int) = kvOpsAt kvOps (commitVersion : Int) ++ ms
      ∧ ∀ v : Version, v ≠ (commitVersion : Int) → kvOpsAt out v = kvOpsAt kvOps v)
    ∧ (∃ out, parseSerializedMutation
          [(putLE64 commitVersion, putMutationGroup includedVersion totalLen ms)] kvOps true
        = some ⟨out, none⟩
      ∧ ∀ v : Version, kvOpsAt out v = kvOpsAt kvOps v) := by
  constructor
  · refine ⟨_, parseSerializedMutation_record ms includedVersion totalLen commitVersion kvOps
      false hwf hinc hcv htot (Or.inr rfl), ?_, ?_⟩
    · rw [kvOpsAt_foldl_kvOpsPush_self, kvOpsAt_kvOpsEnsure]
    · intro v hv
      rw [kvOpsAt_foldl_kvOpsPush_other _ _ hv, kvOpsAt_kvOpsEnsure]
  · refine ⟨kvOpsEnsure kvOps (commitVersion : Int), ?_, fun v => kvOpsAt_kvOpsEnsure _ _ _⟩
    have hkey := consumeUInt64_putLE64 commitVersion (by omega) [] Error.restore_corrupted_data
    rw [List.append_nil] at hkey
    have hver : asInt64 commitVersion = (commitVersion : Int) := by
      unfold asInt64; rw [if_pos hcv]
    have hval : putMutationGroup includedVersion totalLen ms
        = putLE64 includedVersion ++ (putLE32 totalLen ++ putMutations ms) := by
      simp only [putMutationGroup, List.append_assoc]
    unfold parseSerializedMutation parseSerializedMutationEntries
    simp only [hkey, hver]
    rw [hval] at hne ⊢
    simp only [consumeUInt64_putLE64 _ hinc, consumeUInt32_putLE32 _ htot]
    rw [if_pos ⟨hne, trivial⟩]
    rfl

/-- C19 (as amended) at a concrete record: 28 bytes declared, 14 present. -/
theorem parseSerializedMutation_length_mismatch_witness :
    (∃ out, parseSerializedMutation
          [(putLE64 7, putMutationGroup 3 28 [⟨0, [97], [98]⟩])] [] false = some ⟨out, none⟩
      ∧ kvOpsAt out ((7 : Nat) : Int) = kvOpsAt [] ((7 : Nat) : Int) ++ [⟨0, [97], [98]⟩]
      ∧ ∀ v : Version, v ≠ ((7 : Nat) : Int) → kvOpsAt out v = kvOpsAt [] v)
    ∧ (∃ out, parseSerializedMutation
          [(putLE64 7, putMutationGroup 3 28 [⟨0, [97], [98]⟩])] [] true = some ⟨out, none⟩
      ∧ ∀ v : Version, kvOpsAt out v = kvOpsAt [] v) :=
  parseSerializedMutation_length_mismatch [⟨0, [97], [98]⟩] 3 28 7 [] (by decide) (by decide)
    (by decide) (by decide) (by decide)

/-- C20 as stated fails: the bytes `u32 type | u32 keyLen | key | u32 valLen |
value` of `SetValue` of key `a` to value `b`, after a header that declares
their length 14, are rejected with `restore_corrupted_data`: the parser takes
the four bytes after `keyLen` as the value length (353) and leaves the buffer
of version 7 empty. -/
theorem parseSerializedMutation_interleaved_layout_rejected :
    (putMutationInterleaved ⟨0, [97], [98]⟩).length = 14
      ∧ parseSerializedMutation
          [(putLE64 7, putLE64 3 ++ putLE32 14 ++ putMutationInterleaved ⟨0, [97], [98]⟩)] [] false
        = some ⟨[(7, [])], some Error.restore_corrupted_data⟩ := by
  decide

/-- C20 (as amended): for every list of well-formed mutations and every
included version, the little-endian buffer `u64 includedVersion | u32 totalLen`
followed per mutation by `u32 type | u32 keyLen | u32 valLen | key bytes |
value bytes`, with `totalLen` the number of bytes after the 12-byte header, is
parsed by `parseSerializedMutation` (sampling or not) without error into
exactly those mutations in the same order, appended to the buffer of the commit
version that the map key holds as eight little-endian bytes; other buffers are
unchanged. -/
theorem parseSerializedMutation_roundtrip (ms : List MutationRef)
    (includedVersion commitVersion : Nat) (kvOps : List (Version × List MutationRef))
    (isSampling : Bool)
    (hwf : ∀ m ∈ ms, m.WellFormed) (hinc : includedVersion < 2 ^ 64)
    (hcv : commitVersion < 2 ^ 63) (hlen : (putMutations ms).length < 2 ^ 32) :
    ∃ out, parseSerializedMutation
          [(putLE64 commitVersion,
            putMutationGroup includedVersion (putMutations ms).length ms)] kvOps isSampling
        = some ⟨out, none⟩
      ∧ kvOpsAt out (commitVersion : Int) = kvOpsAt kvOps (commitVersion : Int) ++ ms
      ∧ ∀ v : Version, v ≠ (commitVersion : Int) → kvOpsAt out v = kvOpsAt kvOps v := by
  refine ⟨_, parseSerializedMutation_record ms includedVersion _ commitVersion kvOps
    isSampling hwf hinc hcv hlen (Or.inl rfl), ?_, ?_⟩
  · rw [kvOpsAt_foldl_kvOpsPush_self, kvOpsAt_kvOpsEnsure]
  · intro v hv
    rw [kvOpsAt_foldl_kvOpsPush_other _ _ hv, kvOpsAt_kvOpsEnsure]

/-- C20 (as amended) at a concrete record: a `SetValue` of key `a` to value `b`
and a `ClearRange` from `a` to `c`, commit version 7. -/
theorem parseSerializedMutation_roundtrip_witness :
    ∃ out, parseSerializedMutation
          [(putLE64 7, putMutationGroup 3 (putMutations [⟨0, [97], [98]⟩, ⟨1, [97], [99]⟩]).length
            [⟨0, [97], [98]⟩, ⟨1, [97], [99]⟩])] [] true
        = some ⟨out, none⟩
      ∧ kvOpsAt out ((7 : Nat) : Int)
        = kvOpsAt [] ((7 : Nat) : Int) ++ [⟨0, [97], [98]⟩, ⟨1, [97], [99]⟩]
      ∧ ∀ v : Version, v ≠ ((7 : Nat) : Int) → kvOpsAt out v = kvOpsAt [] v :=
  parseSerializedMutation_roundtrip [⟨0, [97], [98]⟩, ⟨1, [97], [99]⟩] 3 7 [] true
    (by decide) (by decide) (by decide) (by decide)

/-! ## Claims about `_parseRangeFileToMutationsOnLoader` -/

/-- C17: for a decoded range block `first, data, last` whose data entries are
sorted by key and lie in the file range (from the key of `first` up to, not
including, the key of `last`), and a positive transaction size limit,
`_parseRangeFileToMutationsOnLoader` returns and appends to `kvOps[version]`
exactly one `SetValue(key, value)` for each data entry whose key is in
`restoreRange`, in block order, key and value unchanged; the buffers of other
versions are unchanged, and `kvOps` is not touched at all when no data key is
in `restoreRange`. -/
theorem parseRangeFileToMutationsOnLoader_clips (kvOps : List (Version × List MutationRef))
    (first last : KeyValueRef) (data : List KeyValueRef) (version : Version)
    (restoreRange : KeyRangeRef) (dataSizeLimit : Int)
    (hlimit : 0 < dataSizeLimit)
    (hsorted : data.Pairwise (fun a b => keyLe a.key b.key = true))
    (hbetween : ∀ d ∈ data, keyLe first.key d.key = true ∧ keyLt d.key last.key = true) :
    ∃ out, _parseRangeFileToMutationsOnLoader kvOps (first :: (data ++ [last])) version
          restoreRange dataSizeLimit = some (.done out)
      ∧ kvOpsAt out version
        = kvOpsAt kvOps version
          ++ (data.filter (fun kv => restoreRange.contains kv.key)).map
              (fun kv => MutationRef.mk MutationRef.SetValue kv.key kv.value)
      ∧ (∀ v : Version, v ≠ version → kvOpsAt out v = kvOpsAt kvOps v)
      ∧ ((∀ d ∈ data, restoreRange.contains d.key = false) → out = kvOps) := by
  have hhead : (first :: (data ++ [last])).head? = some first := rfl
  have hlast : (first :: (data ++ [last])).getLast? = some last := by
    rw [← List.cons_append, List.getLast?_concat]
  have hlen : ¬ (first :: (data ++ [last])).length < 2 := by
    simp only [List.length_cons, List.length_append, List.length_nil]
    omega
  have htail : (first :: (data ++ [last])).tail.dropLast = data := by
    rw [List.tail_cons, List.dropLast_concat]
  unfold _parseRangeFileToMutationsOnLoader
  rw [hhead, hlast]
  simp only
  rw [if_neg hlen, htail, slideRange_eq_filter restoreRange data hsorted]
  by_cases hint : (KeyRangeRef.mk first.key last.key).intersects restoreRange = true
  · rw [hint]
    simp only [Bool.not_true, Bool.false_eq_true, if_false]
    refine ⟨_, congrArg some (parseRangeFileLoop_done version dataSizeLimit hlimit _ _ kvOps
      (Nat.lt_succ_self _)), ?_, ?_, ?_⟩
    · exact kvOpsAt_foldl_pushSetValue_self version _ kvOps
    · intro v hv
      exact kvOpsAt_foldl_pushSetValue_other version v hv _ kvOps
    · intro hnone
      have hnil : data.filter (fun kv => restoreRange.contains kv.key) = [] := by
        rw [List.filter_eq_nil_iff]
        intro d hd
        rw [hnone d hd]
        exact Bool.false_ne_true
      rw [hnil]
      rfl
  · have hint2 : (KeyRangeRef.mk first.key last.key).intersects restoreRange = false := by
      simpa using hint
    rw [hint2]
    simp only [Bool.not_false, if_true]
    have hnil : data.filter (fun kv => restoreRange.contains kv.key) = [] := by
      rw [List.filter_eq_nil_iff]
      intro d hd hc
      simp only [KeyRangeRef.contains, Bool.and_eq_true] at hc
      obtain ⟨hf, hl⟩ := hbetween d hd
      apply hint
      simp only [KeyRangeRef.intersects, Bool.and_eq_true]
      exact ⟨keyLe_lt_trans _ _ _ hf hc.2, keyLe_lt_trans _ _ _ hc.1 hl⟩
    refine ⟨kvOps, rfl, ?_, fun _ _ => rfl, fun _ => rfl⟩
    rw [hnil]
    simp

/-- C17 at a concrete block: sentinels `a` and `e`, data keys `a`, `b`, `d`,
restore range from `b` to `e`, one entry per transaction. -/
theorem parseRangeFileToMutationsOnLoader_clips_witness :
    ∃ out, _parseRangeFileToMutationsOnLoader [] (⟨[97], []⟩ ::
          ([⟨[97], [1]⟩, ⟨[98], [2]⟩, ⟨[100], [3]⟩] ++ [⟨[101], []⟩])) 5 ⟨[98], [101]⟩ 1
        = some (.done out)
      ∧ kvOpsAt out 5
        = kvOpsAt [] 5
          ++ (([⟨[97], [1]⟩, ⟨[98], [2]⟩, ⟨[100], [3]⟩] : List KeyValueRef).filter
                (fun kv => (KeyRangeRef.mk [98] [101]).contains kv.key)).map
              (fun kv => MutationRef.mk MutationRef.SetValue kv.key kv.value)
      ∧ (∀ v : Version, v ≠ 5 → kvOpsAt out v = kvOpsAt [] v)
      ∧ ((∀ d ∈ ([⟨[97], [1]⟩, ⟨[98], [2]⟩, ⟨[100], [3]⟩] : List KeyValueRef),
            (KeyRangeRef.mk [98] [101]).contains d.key = false) → out = []) :=
  parseRangeFileToMutationsOnLoader_clips [] ⟨[97], []⟩ ⟨[101], []⟩
    [⟨[97], [1]⟩, ⟨[98], [2]⟩, ⟨[100], [3]⟩] 5 ⟨[98], [101]⟩ 1
    (by decide) (by decide) (by decide)

/-! ## Claims about the retry of the load dispatch -/

/-- C25 fails in the code: with two files of 8 bytes and one loader, the first
round sends file 1 (offset 0, length 8) and times out; the retried round goes
back to that file, whose cursor still is 8, and the dispatch assertion
`param.offset < fileSize` fails.  With a single file the timed-out round has
already set `allLoadReqsSent`, and the loop ends without any retry. -/
theorem distributeWorkloadPerVersionBatch_retry_assert_fails :
    distributeWorkloadRound [7]
        ⟨[⟨0, 1, true, 4, 8, 0, 0, 0⟩, ⟨0, 2, true, 4, 8, 0, 0, 0⟩], 0, ⟨0, 14, 0⟩, false, []⟩
      = .done ⟨[⟨0, 1, true, 4, 8, 0, 0, 8⟩, ⟨0, 2, true, 4, 8, 0, 0, 0⟩], 1, ⟨0, 13, 1⟩, false,
          [⟨RestoreCommandEnum.Assign_Loader_Range_File, ⟨0, 13, 1⟩, 7, 1, ⟨0, 8, 4⟩⟩]⟩
    ∧ distributeWorkloadPerVersionBatch
        [⟨0, 1, true, 4, 8, 0, 0, 0⟩, ⟨0, 2, true, 4, 8, 0, 0, 0⟩] [7] ⟨0, 0, 0⟩
        (fun round => decide (round = 0)) 10
      = .assertFailed
    ∧ distributeWorkloadPerVersionBatch [⟨0, 1, true, 4, 8, 0, 0, 0⟩] [7] ⟨0, 0, 0⟩
        (fun round => decide (round = 0)) 10
      = .done [[⟨RestoreCommandEnum.Assign_Loader_Range_File, ⟨0, 13, 1⟩, 7, 1, ⟨0, 8, 4⟩⟩]] := by
  decide

/-! ## Claims about the retry of the role assignment -/

/-- C26 fails in the code: with three workers the first attempt of the
`Set_Role` round sends position `i` the role and node id of
`globalNodeStatus[i]` with index `i`; after a timeout the second attempt goes on
with `index = 3` and reads `globalNodeStatus[3]`, outside the three entries. -/
theorem configureRolesSetRole_retry_out_of_bounds :
    configureRoles [11, 12, 13] []
      = some ⟨[⟨RestoreRole.Loader, 11, 1⟩, ⟨RestoreRole.Applier, 12, 2⟩,
               ⟨RestoreRole.Applier, 13, 3⟩], 13⟩
    ∧ setRoleRound [⟨RestoreRole.Loader, 11, 1⟩, ⟨RestoreRole.Applier, 12, 2⟩,
          ⟨RestoreRole.Applier, 13, 3⟩] 13 [11, 12, 13] ⟨0, 1, 0⟩ 0 []
      = .done ([⟨⟨0, 1, 1⟩, 11, RestoreRole.Loader, 0, 13⟩, ⟨⟨0, 1, 2⟩, 12, RestoreRole.Applier, 1, 13⟩,
          ⟨⟨0, 1, 3⟩, 13, RestoreRole.Applier, 2, 13⟩], ⟨0, 1, 3⟩, 3)
    ∧ setRoleRound [⟨RestoreRole.Loader, 11, 1⟩, ⟨RestoreRole.Applier, 12, 2⟩,
          ⟨RestoreRole.Applier, 13, 3⟩] 13 [11, 12, 13] ⟨0, 1, 3⟩ 3 []
      = .outOfBounds
    ∧ configureRolesSetRole [11, 12, 13] [⟨RestoreRole.Loader, 11, 1⟩,
          ⟨RestoreRole.Applier, 12, 2⟩, ⟨RestoreRole.Applier, 13, 3⟩] 13 ⟨0, 0, 0⟩
        (fun attempt => decide (attempt = 0)) 10
      = .outOfBounds := by
  decide

/-! ## Claims about the identifiers of mutation commands -/

/-- C27 fails in the code: a loader that runs `registerMutationsToApplier` for a
first file (one `SetValue` of key `a` at version 5) and then for a second file
(one `SetValue` of key `b` at version 6) attaches the same `CMDUID` to both
commands, because every run starts with `initPhase`; the applier that receives
both acknowledges the second as a duplicate and buffers only the first. -/
theorem registerMutationsToApplier_reuses_ids :
    registerMutationsToApplier (fun _ => some ([], [])) [([], 9)] [(5, [⟨0, [97], [1]⟩])] ⟨0, 0, 0⟩
      = some ([{ cmd := RestoreCommandEnum.Loader_Send_Mutations_To_Applier, cmdID := ⟨0, 16, 1⟩,
                 id := 9, commitVersion := 5, mutation := ⟨0, [97], [1]⟩ }], ⟨0, 16, 1⟩)
    ∧ registerMutationsToApplier (fun _ => some ([], [])) [([], 9)] [(6, [⟨0, [98], [2]⟩])]
        ⟨0, 16, 1⟩
      = some ([{ cmd := RestoreCommandEnum.Loader_Send_Mutations_To_Applier, cmdID := ⟨0, 16, 1⟩,
                 id := 9, commitVersion := 6, mutation := ⟨0, [98], [2]⟩ }], ⟨0, 16, 1⟩)
    ∧ receiveMutationsAll 9
        [{ cmd := RestoreCommandEnum.Loader_Send_Mutations_To_Applier, cmdID := ⟨0, 16, 1⟩,
           id := 9, commitVersion := 5, mutation := ⟨0, [97], [1]⟩ },
         { cmd := RestoreCommandEnum.Loader_Send_Mutations_To_Applier, cmdID := ⟨0, 16, 1⟩,
           id := 9, commitVersion := 6, mutation := ⟨0, [98], [2]⟩ }] (⟨[], [], 0⟩, [])
      = some (⟨[(5, [⟨0, [97], [1]⟩])], [(⟨0, 16, 1⟩, 1)], 1⟩,
          [⟨9, ⟨0, 16, 1⟩, 0, []⟩, ⟨9, ⟨0, 16, 1⟩, 0, []⟩]) := by
  decide

/-! ## Claims about the iterators of `splitMutation` -/

/-- C29 fails in the code: with lower bounds `""` and `"m"` and the mutation
`ClearRange ["n", "p")`, which lies in the last applier's range, the statements
before the loop leave `itup` at position 2, the size of the map, i.e. at
`end()`, and the loop condition `itlow->first < itup->first` reads through it;
the same happens with a single applier. -/
theorem splitMutation_reads_through_end :
    splitMutationBounds [([], 1), ([109], 2)] ⟨MutationRef.ClearRange, [110], [112]⟩ = some (1, 2)
      ∧ ([([], 1), ([109], 2)] : List (Bytes × UID)).get? 2 = none
      ∧ splitMutation [([], 1), ([109], 2)] ⟨MutationRef.ClearRange, [110], [112]⟩ [] [] = none
      ∧ splitMutationBounds [([], 1)] ⟨MutationRef.ClearRange, [98], [99]⟩ = some (0, 1)
      ∧ splitMutation [([], 1)] ⟨MutationRef.ClearRange, [98], [99]⟩ [] [] = none := by
  decide

/-! ## Claims about file indexing in the dispatch loops -/

/-- C30 fails in the code: for the files `[8 bytes, 0 bytes]` (not an empty
backup) and one loader, the second round of the load dispatch skips the empty
file and then evaluates `rd->files[curFileIndex].fileSize` with `curFileIndex =
2`, the size of `rd->files`; with two loaders the same read happens in the
first round. -/
theorem distributeWorkloadPerVersionBatch_reads_past_files :
    isBackupEmpty [⟨0, 1, true, 4, 8, 0, 0, 0⟩, ⟨0, 2, true, 4, 0, 0, 0, 0⟩] = false
      ∧ skipEmptyFiles 2 ([⟨0, 1, true, 4, 8, 0, 0, 8⟩, ⟨0, 2, true, 4, 0, 0, 0, 0⟩].drop 1) 1
        = .outOfBounds
      ∧ distributeWorkloadPerVersionBatch
          [⟨0, 1, true, 4, 8, 0, 0, 0⟩, ⟨0, 2, true, 4, 0, 0, 0, 0⟩] [7] ⟨0, 0, 0⟩
          (fun _ => false) 10
        = .outOfBounds
      ∧ distributeWorkloadPerVersionBatch
          [⟨0, 1, true, 4, 8, 0, 0, 0⟩, ⟨0, 2, true, 4, 0, 0, 0, 0⟩] [7, 8] ⟨0, 0, 0⟩
          (fun _ => false) 10
        = .outOfBounds := by
  decide

/-! ## Claims about `concatenateBackupMutationForLogFile` -/

/-- C21: starting from empty maps, the calls of
`concatenateBackupMutationForLogFile` for the parts `0, 1, ..., k` of one log
record, in this order (keys with the same prefix, hash byte and big-endian
commit version, ending in the big-endian part numbers), throw nothing and leave
exactly one `mutationMap` entry, identified by the commit version, whose value
is the concatenation of the parts (its length is the sum of the part lengths)
and whose recorded last part number is `k`; the call for part 0 returns `false`
and every later call returns `true`. -/
theorem concatenateBackupMutationForLogFile_parts (first : Bytes) (hashValue : Byte)
    (commitVersion : Nat) (P0 : Bytes) (later : List Bytes)
    (hcv : commitVersion < 2 ^ 64) (hk : later.length < 2 ^ 32) :
    concatenateAll (logParts first hashValue commitVersion 0 (P0 :: later)) ([], ⟨[], []⟩)
        = some (.ok (false :: List.replicate later.length true,
            ⟨[(putLE64 commitVersion, (P0 :: later).flatten)],
              [(putLE64 commitVersion, later.length)]⟩))
      ∧ ((P0 :: later).flatten).length = ((P0 :: later).map List.length).sum := by
  refine ⟨?_, List.length_flatten _⟩
  have hstep := concatenateBackupMutationForLogFile_logKey ⟨[], []⟩ P0 first hashValue
    commitVersion 0 hcv (by decide)
  simp only [StdMap.contains, List.any_nil, Bool.not_false, if_true, StdMap.insert,
    Bool.false_eq_true, if_false, StdMap.insertSorted] at hstep
  simp only [logParts, concatenateAll, hstep, List.nil_append]
  rw [concatenateAll_later_parts first hashValue commitVersion hcv later (0 + 1) [false] P0 0
    (by omega)]
  have hlast : (if later.length = 0 then 0 else 0 + 1 + later.length - 1) = later.length := by
    split <;> omega
  rw [hlast]
  simp only [List.singleton_append, List.flatten_cons]

/-- C21 at a record of three parts with commit version 7. -/
theorem concatenateBackupMutationForLogFile_parts_witness :
    concatenateAll (logParts [1, 2] 9 7 0 ([10] :: [[20, 21], [30]])) ([], ⟨[], []⟩)
        = some (.ok (false :: List.replicate ([[20, 21], [30]] : List Bytes).length true,
            ⟨[(putLE64 7, ([10] :: [[20, 21], [30]] : List Bytes).flatten)],
              [(putLE64 7, ([[20, 21], [30]] : List Bytes).length)]⟩))
      ∧ (([10] :: [[20, 21], [30]] : List Bytes).flatten).length
        = (([10] :: [[20, 21], [30]] : List Bytes).map List.length).sum :=
  concatenateBackupMutationForLogFile_parts [1, 2] 9 7 [10] [[20, 21], [30]] (by decide)
    (by decide)

/-- C22 as stated fails: two log keys with commit version 5 and the different
hash bytes 1 and 2 end in one pending entry, the value of the second appended
to the value of the first. -/
theorem concatenateBackupMutationForLogFile_ignores_hash :
    concatenateAll [(logKey [] 1 5 0, [10]), (logKey [] 2 5 0, [20])] ([], ⟨[], []⟩)
      = some (.ok ([false, true], ⟨[(putLE64 5, [10, 20])], [(putLE64 5, 0)]⟩)) := by
  decide

/-- C22 (as amended): pending log entries are keyed by the commit version
alone.  For every state of the maps and every two backup log keys that carry
the same commit version (whatever their prefixes, hash bytes and part numbers),
the two calls of `concatenateBackupMutationForLogFile` throw nothing and append
both values, in call order, to the one pending entry of that commit version;
the second call returns `true`, and the other entries are unchanged. -/
theorem concatenateBackupMutationForLogFile_same_version (rd : PendingLog)
    (first1 first2 : Bytes) (hash1 hash2 : Byte) (commitVersion part1 part2 : Nat)
    (val1 val2 : Bytes) (hcv : commitVersion < 2 ^ 64) (hp1 : part1 < 2 ^ 32)
    (hp2 : part2 < 2 ^ 32) :
    ∃ rd2, concatenateAll [(logKey first1 hash1 commitVersion part1, val1),
            (logKey first2 hash2 commitVersion part2, val2)] ([], rd)
        = some (.ok ([StdMap.contains rd.mutationMap (putLE64 commitVersion), true], rd2))
      ∧ StdMap.find rd2.mutationMap (putLE64 commitVersion)
        = some ((StdMap.find rd.mutationMap (putLE64 commitVersion)).getD [] ++ val1 ++ val2)
      ∧ ∀ id, id ≠ putLE64 commitVersion →
          StdMap.find rd2.mutationMap id = StdMap.find rd.mutationMap id := by
  obtain ⟨rd1, h1, hf1, ho1⟩ := concatenateBackupMutationForLogFile_find rd val1 first1 hash1
    commitVersion part1 hcv hp1
  obtain ⟨rd2, h2, hf2, ho2⟩ := concatenateBackupMutationForLogFile_find rd1 val2 first2 hash2
    commitVersion part2 hcv hp2
  have hc1 : StdMap.contains rd1.mutationMap (putLE64 commitVersion) = true := by
    rw [StdMap.contains_eq_isSome, hf1]
    rfl
  rw [hc1] at h2
  refine ⟨rd2, ?_, ?_, ?_⟩
  · simp only [concatenateAll, h1, h2, List.nil_append, List.singleton_append]
  · rw [hf2, hf1]
    rfl
  · intro id hid
    rw [ho2 id hid, ho1 id hid]

/-- C22 (as amended) at two keys of commit version 5 with hash bytes 1 and 2. -/
theorem concatenateBackupMutationForLogFile_same_version_witness :
    ∃ rd2, concatenateAll [(logKey [] 1 5 0, [10]), (logKey [] 2 5 1, [20])] ([], ⟨[], []⟩)
        = some (.ok ([StdMap.contains (PendingLog.mk [] []).mutationMap (putLE64 5), true], rd2))
      ∧ StdMap.find rd2.mutationMap (putLE64 5)
        = some ((StdMap.find (PendingLog.mk [] []).mutationMap (putLE64 5)).getD [] ++ [10] ++ [20])
      ∧ ∀ id, id ≠ putLE64 5 →
          StdMap.find rd2.mutationMap id = StdMap.find (PendingLog.mk [] []).mutationMap id :=
  concatenateBackupMutationForLogFile_same_version ⟨[], []⟩ [] [] 1 2 5 0 1 [10] [20]
    (by decide) (by decide) (by decide)

/-! ## Claims about sampling and length mismatches -/

/-- C23: for every list of reassembled log records, each either well formed or
with a declared `totalLen` that differs from the buffer length minus 12,
`parseSerializedMutation` called with `isSampling = true` throws nothing, and
the buffer of every commit version gains exactly the mutations of the
well-formed records of that version, in record order: a record with a length
mismatch adds no mutation and does not stop the parsing of the others. -/
theorem parseSerializedMutation_sampling_skips (records : List LogRecord) :
    ∀ kvOps : List (Version × List MutationRef), (∀ r ∈ records, r.Valid) →
      ∃ out, parseSerializedMutation (records.map LogRecord.entry) kvOps true = some ⟨out, none⟩
        ∧ ∀ v : Version,
            kvOpsAt out v = kvOpsAt kvOps v ++ (records.map (LogRecord.mutationsAt v)).flatten := by
  induction records with
  | nil =>
    intro kvOps _
    exact ⟨kvOps, rfl, fun v => by simp⟩
  | cons r rest ih =>
    intro kvOps hvalid
    have hr := hvalid r (List.mem_cons_self _ _)
    have hrest : ∀ r2 ∈ rest, r2.Valid := fun r2 h2 => hvalid r2 (List.mem_cons_of_mem _ h2)
    cases r with
    | wellFormed commitVersion includedVersion ms =>
      obtain ⟨out, hrun, hout⟩ := ih
        (ms.foldl (fun kv m => kvOpsPush kv (commitVersion : Int) m)
          (kvOpsEnsure kvOps (commitVersion : Int))) hrest
      refine ⟨out, ?_, ?_⟩
      · unfold parseSerializedMutation at hrun ⊢
        rw [List.map_cons, parseSerializedMutationEntries_wellFormed true commitVersion
          includedVersion ms _ kvOps hr]
        exact hrun
      · intro v
        rw [hout v, List.map_cons, List.flatten_cons, ← List.append_assoc]
        congr 1
        by_cases hv : (commitVersion : Int) = v
        · subst hv
          simp only [LogRecord.mutationsAt, if_true]
          rw [kvOpsAt_foldl_kvOpsPush_self, kvOpsAt_kvOpsEnsure]
        · simp only [LogRecord.mutationsAt, hv, if_false, List.append_nil]
          rw [kvOpsAt_foldl_kvOpsPush_other _ _ (fun h => hv h.symm), kvOpsAt_kvOpsEnsure]
    | mismatched commitVersion includedVersion totalLen body =>
      obtain ⟨out, hrun, hout⟩ := ih (kvOpsEnsure kvOps (commitVersion : Int)) hrest
      refine ⟨out, ?_, ?_⟩
      · unfold parseSerializedMutation at hrun ⊢
        rw [List.map_cons, parseSerializedMutationEntries_mismatched commitVersion
          includedVersion totalLen body _ kvOps hr]
        exact hrun
      · intro v
        rw [hout v, List.map_cons, List.flatten_cons, kvOpsAt_kvOpsEnsure]
        simp only [LogRecord.mutationsAt, List.nil_append]

/-- C23 at three records: a `SetValue` at version 7, a record at version 8
that declares 28 bytes and holds 3, and a `ClearRange` at version 9. -/
theorem parseSerializedMutation_sampling_skips_witness :
    ∃ out, parseSerializedMutation
          (([LogRecord.wellFormed 7 3 [⟨0, [97], [98]⟩], LogRecord.mismatched 8 3 28 [1, 2, 3],
              LogRecord.wellFormed 9 3 [⟨1, [97], [99]⟩]] : List LogRecord).map LogRecord.entry)
          [] true
        = some ⟨out, none⟩
      ∧ ∀ v : Version,
          kvOpsAt out v
            = kvOpsAt [] v
              ++ (([LogRecord.wellFormed 7 3 [⟨0, [97], [98]⟩], LogRecord.mismatched 8 3 28 [1, 2, 3],
                    LogRecord.wellFormed 9 3 [⟨1, [97], [99]⟩]] : List LogRecord).map
                  (LogRecord.mutationsAt v)).flatten :=
  parseSerializedMutation_sampling_skips
    [LogRecord.wellFormed 7 3 [⟨0, [97], [98]⟩], LogRecord.mismatched 8 3 28 [1, 2, 3],
      LogRecord.wellFormed 9 3 [⟨1, [97], [99]⟩]] [] (by decide)

/-! ## Claims about `buildForbiddenVersionRange` -/

/-- C24 as stated fails: of two log files with begin version 1 and the end
versions 5 and 9, only the first leaves its range; `[1, 9)` is not stored. -/
theorem buildForbiddenVersionRange_drops_second_range :
    buildForbiddenVersionRange
        [⟨0, 1, false, 4, 8, 5, 1, 0⟩, ⟨0, 2, false, 4, 8, 9, 1, 0⟩] [] = [(1, 5)]
      ∧ ((1, 9) : Version × Version) ∉ buildForbiddenVersionRange
          [⟨0, 1, false, 4, 8, 5, 1, 0⟩, ⟨0, 2, false, 4, 8, 9, 1, 0⟩] [] := by
  decide

/-- C24 (as amended): after `buildForbiddenVersionRange` runs on an initially
empty `forbiddenVersions`, the stored ranges are exactly the pairs `(b, e)` for
which the first log file of `allFiles` with begin version `b` has end version
`e` (the map keeps one range per begin version, and no range file contributes
one).  When log files with the same begin version have the same end version,
that is exactly the set of intervals of the log files. -/
theorem buildForbiddenVersionRange_ranges (allFiles : List RestoreFile) :
    (∀ b e : Version, (b, e) ∈ buildForbiddenVersionRange allFiles []
        ↔ ∃ f, allFiles.find? (fun f => !f.isRange && decide (f.beginVersion = b)) = some f
            ∧ f.endVersion = e)
    ∧ ((∀ f ∈ allFiles, ∀ g ∈ allFiles, f.isRange = false → g.isRange = false →
          f.beginVersion = g.beginVersion → f.endVersion = g.endVersion) →
        ∀ b e : Version, (b, e) ∈ buildForbiddenVersionRange allFiles []
          ↔ ∃ f ∈ allFiles, f.isRange = false ∧ f.beginVersion = b ∧ f.endVersion = e) := by
  have hfirst : ∀ b e : Version, (b, e) ∈ buildForbiddenVersionRange allFiles []
      ↔ ∃ f, allFiles.find? (fun f => !f.isRange && decide (f.beginVersion = b)) = some f
          ∧ f.endVersion = e := by
    intro b e
    rw [buildForbiddenVersionRange_mem allFiles [] (by intro b e; simp [StdMap.find]) b e,
      buildForbiddenVersionRange_find allFiles [] b]
    simp only [StdMap.find, Option.map_eq_some']
  refine ⟨hfirst, ?_⟩
  intro hsame b e
  rw [hfirst]
  constructor
  · rintro ⟨f, hf, he⟩
    have hp := List.find?_some hf
    simp only [Bool.and_eq_true, Bool.not_eq_true', decide_eq_true_eq] at hp
    exact ⟨f, List.mem_of_find?_eq_some hf, hp.1, hp.2, he⟩
  · rintro ⟨f, hmem, hlog, hb, he⟩
    cases hfind : allFiles.find? (fun f => !f.isRange && decide (f.beginVersion = b)) with
    | none =>
      rw [List.find?_eq_none] at hfind
      have := hfind f hmem
      simp [hlog, hb] at this
    | some g =>
      have hp := List.find?_some hfind
      simp only [Bool.and_eq_true, Bool.not_eq_true', decide_eq_true_eq] at hp
      refine ⟨g, rfl, ?_⟩
      rw [← he]
      exact hsame g (List.mem_of_find?_eq_some hfind) f hmem hp.1 hlog (hp.2.trans hb.symm)

/-- C24 (as amended) at a range file and two log files with different begin
versions: the range `[1, 5)` of the first log file is stored, as the interval of
a log file. -/
theorem buildForbiddenVersionRange_ranges_witness :
    ((1, 5) : Version × Version) ∈ buildForbiddenVersionRange
          [⟨3, 1, true, 4, 8, 3, 3, 0⟩, ⟨0, 2, false, 4, 8, 5, 1, 0⟩, ⟨0, 3, false, 4, 8, 9, 5, 0⟩] []
      ↔ ∃ f ∈ ([⟨3, 1, true, 4, 8, 3, 3, 0⟩, ⟨0, 2, false, 4, 8, 5, 1, 0⟩,
            ⟨0, 3, false, 4, 8, 9, 5, 0⟩] : List RestoreFile),
          f.isRange = false ∧ f.beginVersion = 1 ∧ f.endVersion = 5 :=
  (buildForbiddenVersionRange_ranges
    [⟨3, 1, true, 4, 8, 3, 3, 0⟩, ⟨0, 2, false, 4, 8, 5, 1, 0⟩, ⟨0, 3, false, 4, 8, 9, 5, 0⟩]).2
    (by decide) 1 5

/-! ## Claims about the partition of the files into version batches -/

/-- C28: for every file list (file sizes are not negative) and every
forbidden-range set, the batching loop of `processRestoreRequest` returns
batches that are consecutive index ranges of `allFiles`: the first begins at
index 0, each next one begins right after the end index of the one before, and
each holds the files of its range, so the batches taken in order are the first
`t` files of `allFiles`, every file in at most one batch; the files from `t` on,
which belong to no batch, all have size 0. -/
theorem processRestoreRequestBatches_partition (allFiles : List RestoreFile)
    (forbiddenVersions : List (Version × Version))
    (hnn : ∀ f ∈ allFiles, 0 ≤ f.fileSize) :
    ∃ batches t, processRestoreRequestBatches allFiles forbiddenVersions = .done batches
      ∧ BatchChain allFiles 0 batches t
      ∧ (batches.map (fun B => B.files)).flatten = allFiles.take t
      ∧ ∀ f ∈ allFiles.drop t, f.fileSize = 0 := by
  obtain ⟨batches, hrun⟩ := processRestoreRequestBatches_returns allFiles forbiddenVersions
  have hinv : PartitionInv allFiles ⟨0, 0, 0, false, []⟩ :=
    ⟨le_refl _, by simp [doubleSum], rfl⟩
  obtain ⟨t, hchain, hzero⟩ := versionBatchLoop_partition allFiles forbiddenVersions
    loadBatchSizeThresholdB hnn _ _ batches hinv hrun
  refine ⟨batches, t, hrun, hchain, ?_, hzero⟩
  rw [(BatchChain_flatten allFiles batches 0 t hchain).2, List.drop_zero, Nat.sub_zero]

/-- C28 at four files of sizes 1 MiB, 0, 5 and 0 with no forbidden range. -/
theorem processRestoreRequestBatches_partition_witness :
    ∃ batches t, processRestoreRequestBatches
          [⟨1, 1, true, 4, 1048576, 1, 1, 0⟩, ⟨2, 2, true, 4, 0, 2, 2, 0⟩,
            ⟨3, 3, true, 4, 5, 3, 3, 0⟩, ⟨4, 4, true, 4, 0, 4, 4, 0⟩] [] = .done batches
      ∧ BatchChain [⟨1, 1, true, 4, 1048576, 1, 1, 0⟩, ⟨2, 2, true, 4, 0, 2, 2, 0⟩,
            ⟨3, 3, true, 4, 5, 3, 3, 0⟩, ⟨4, 4, true, 4, 0, 4, 4, 0⟩] 0 batches t
      ∧ (batches.map (fun B => B.files)).flatten
        = ([⟨1, 1, true, 4, 1048576, 1, 1, 0⟩, ⟨2, 2, true, 4, 0, 2, 2, 0⟩,
            ⟨3, 3, true, 4, 5, 3, 3, 0⟩, ⟨4, 4, true, 4, 0, 4, 4, 0⟩] : List RestoreFile).take t
      ∧ ∀ f ∈ ([⟨1, 1, true, 4, 1048576, 1, 1, 0⟩, ⟨2, 2, true, 4, 0, 2, 2, 0⟩,
            ⟨3, 3, true, 4, 5, 3, 3, 0⟩, ⟨4, 4, true, 4, 0, 4, 4, 0⟩] : List RestoreFile).drop t,
          f.fileSize = 0 :=
  processRestoreRequestBatches_partition
    [⟨1, 1, true, 4, 1048576, 1, 1, 0⟩, ⟨2, 2, true, 4, 0, 2, 2, 0⟩,
      ⟨3, 3, true, 4, 5, 3, 3, 0⟩, ⟨4, 4, true, 4, 0, 4, 4, 0⟩] [] (by decide)

end Restore
